import Mathlib

/-!
# A verification model of the dagather task-graph scheduler

This file gives a shallow embedding of the dagather library: a static task-graph
scheduler for asynchronous workloads.  Templates are identified by their names
(strings).  The host asynchronous runtime is abstracted: each launched task
eventually completes with an outcome given by an oracle function, and the order
in which tasks complete is given by a schedule (a list of completion batches,
optionally interleaved with sibling-cancellation requests).  All values and
exceptions live in a single type parameter, mirroring the untyped host language.

Embedded components:
* `CancelPolicy`, `PostErrorResult`, `ExceptionHandler`, `handle_exception`,
  `safe_call` (from dagather/tasktemplate.py);
* `register`, `registerAll` (graph builder, from dagather/multigather.py);
* `remove_keys_transitively` (from dagather/util.py);
* `initState`, `processOne`, `processBatch`, `siblingCancelStep`, `runLoop`
  (scheduler core, from Dagather.__call__ in dagather/multigather.py);
* `DagatherResult.getItem` (from dagather/result.py);
* `SiblingTasks.state_of`, `SiblingTasks.cancel` (from dagather/sibling_tasks.py).
-/

set_option maxHeartbeats 1000000
set_option linter.unusedVariables false

/-- Task template identifiers: the callback name. -/
abbrev TName := String

/-- CancelPolicy: which templates to cancel if an exception is raised
(dagather/tasktemplate.py). -/
inductive CancelPolicy where
  | cancel_all
  | discard_not_started
  | discard_children
  | continue_all
deriving DecidableEq

/-- PostErrorResult: the tagged outcome of exception handling, either a substitute
return value (ContinueResult, default policy continue_all) or a recorded exception
to re-raise (PropagateError, default policy cancel_all). -/
inductive PostErrorResult (α : Type) where
  | ContinueResult (return_value : α) (cancel_policy : CancelPolicy)
  | PropagateError (exception : α) (cancel_policy : CancelPolicy)
deriving DecidableEq

/-- The cancel policy carried by a PostErrorResult. -/
def PostErrorResult.cancel_policy {α : Type} : PostErrorResult α → CancelPolicy
  | .ContinueResult _ cp => cp
  | .PropagateError _ cp => cp

/-- What a safe call delivers to the scheduler: either a plain value or a
PostErrorResult. -/
inductive Outcome (α : Type) where
  | value (v : α)
  | post (r : PostErrorResult α)
deriving DecidableEq

/-- An exception handler is a literal PostErrorResult, a function from an
exception to a handler, or a mapping from exception classes to handlers.
An exception class is modelled by its membership test (isinstance). -/
inductive ExceptionHandler (α : Type) where
  | result (r : PostErrorResult α)
  | fn (f : α → ExceptionHandler α)
  | mapping (m : List ((α → Bool) × ExceptionHandler α))

mutual

/-- Mirrors handle_exception in dagather/tasktemplate.py.  The flag isExc models
isinstance(exc, Exception): whether the raised value is a conventional
application exception rather than a system/cancellation-class exception. -/
def handle_exception {α : Type} (isExc : α → Bool) :
    ExceptionHandler α → α → Bool → PostErrorResult α
  | .result r, exc, base_explicit =>
      if !base_explicit && !isExc exc then .PropagateError exc .cancel_all else r
  | .fn f, exc, base_explicit => handle_exception isExc (f exc) exc base_explicit
  | .mapping m, exc, _ => handle_mapping isExc m exc

/-- The iteration over a mapping handler inside handle_exception: the first
class of which the exception is an instance decides; an unmatched exception
resolves to propagate with cancel-all. -/
def handle_mapping {α : Type} (isExc : α → Bool) :
    List ((α → Bool) × ExceptionHandler α) → α → PostErrorResult α
  | [], exc => .PropagateError exc .cancel_all
  | (k, v) :: rest, exc =>
      if k exc then handle_exception isExc v exc true else handle_mapping isExc rest exc

end

mutual

/-- Whether resolving the handler against exc ever passes through a mapping
entry whose exception class matches exc explicitly. -/
def matchedExplicitly {α : Type} : ExceptionHandler α → α → Bool
  | .result _, _ => false
  | .fn f, exc => matchedExplicitly (f exc) exc
  | .mapping m, exc => matchedMapping m exc

/-- Companion of matchedExplicitly for mapping lists. -/
def matchedMapping {α : Type} : List ((α → Bool) × ExceptionHandler α) → α → Bool
  | [], _ => false
  | (k, _) :: rest, exc => if k exc then true else matchedMapping rest exc

end

/-- How a callback behaves when invoked: return a plain value, return a
PostErrorResult (illegal), raise Abort carrying a PostErrorResult, or raise an
exception. -/
inductive CallBehavior (α : Type) where
  | ret (v : α)
  | retPost (r : PostErrorResult α)
  | abort (r : PostErrorResult α)
  | raises (e : α)

/-- Mirrors TaskTemplate._safe_call in dagather/tasktemplate.py: Abort bypasses
the handler, other raised exceptions are routed through handle_exception, and a
returned PostErrorResult is an error (IllegalReturn). -/
def safe_call {α : Type} (isExc : α → Bool) (handler : ExceptionHandler α) :
    CallBehavior α → Except Unit (Outcome α)
  | .ret v => .ok (.value v)
  | .retPost _ => .error ()
  | .abort r => .ok (.post r)
  | .raises e => .ok (.post (handle_exception isExc handler e false))

/-- Association-list lookup by template name (models Python dict lookup; all the
dictionaries in the embedding have nodup keys). -/
def lookupA {β : Type} : List (TName × β) → TName → Option β
  | [], _ => none
  | (k, v) :: rest, key => if k = key then some v else lookupA rest key

/-- The key list of an association list (models dict.keys()). -/
def keysA {β : Type} (l : List (TName × β)) : List TName := l.map Prod.fst

mutual

/-- Mirrors remove_keys_transitively in dagather/util.py: pop the seed from d
(recording it in the sink if it was present), then recurse into the related
keys that are still present in d.  The fuel argument witnesses termination:
with fuel larger than the size of d the fuel never runs out (see
remove_keys_transitively_isSome). -/
def remove_keys_transitively {β : Type} (rel : TName → List TName) :
    Nat → List (TName × β) → List TName → TName →
    Option (List (TName × β) × List TName)
  | 0, _, _, _ => none
  | fuel + 1, d, sink, seed =>
      let sink1 := if seed ∈ keysA d then seed :: sink else sink
      let d1 := d.filter (fun p => p.1 ≠ seed)
      rkt_children rel fuel d1 sink1 (rel seed)
termination_by fuel d sink seed => (fuel, 0)

/-- The loop over relation[seed] inside remove_keys_transitively: recurse on
each related key that is still present in d. -/
def rkt_children {β : Type} (rel : TName → List TName) :
    Nat → List (TName × β) → List TName → List TName →
    Option (List (TName × β) × List TName)
  | _, d, sink, [] => some (d, sink)
  | fuel, d, sink, c :: cs =>
      if c ∈ keysA d then
        match remove_keys_transitively rel fuel d sink c with
        | none => none
        | some (d1, sink1) => rkt_children rel fuel d1 sink1 cs
      else rkt_children rel fuel d sink cs
termination_by fuel d sink cs => (fuel, cs.length + 1)

end

/-- remove_keys_transitively with the canonical fuel, as used by the scheduler:
returns the shrunk dictionary and the grown sink. -/
def removeKeysTransitively {β : Type} (d : List (TName × β))
    (rel : TName → List TName) (seed : TName) (sink : List TName) :
    List (TName × β) × List TName :=
  (remove_keys_transitively rel (d.length + 1) d sink seed).getD (d, sink)

/-- Postcondition of one remove_keys_transitively call relating the initial and
final dictionary and sink: the dictionary only shrinks, the sink only grows by
removed keys, and no newly sunk key has a related key left in the dictionary. -/
structure RktPost {β : Type} (rel : TName → List TName) (d : List (TName × β))
    (sink : List TName) (d1 : List (TName × β)) (sink1 : List TName) : Prop where
  sub : d1.Sublist d
  sink_mono : ∀ x ∈ sink, x ∈ sink1
  sink_from : ∀ x ∈ sink1, x ∈ sink ∨ x ∈ keysA d
  cover : ∀ x ∈ keysA d, x ∈ keysA d1 ∨ x ∈ sink1
  new_removed : ∀ x ∈ sink1, x ∉ sink → x ∉ keysA d1
  closure : ∀ x ∈ sink1, x ∉ sink → ∀ c ∈ rel x, c ∉ keysA d1

/-- The observable states of a sibling template (dagather/sibling_tasks.py). -/
inductive SiblingTaskState where
  | discarded
  | waiting
  | running
  | done
deriving DecidableEq

/-- Marker for the DiscardedTask exception (dagather/exceptions.py). -/
inductive DiscardedTask where
  | mk
deriving DecidableEq

/-- The per-run sibling introspection handle (dagather/sibling_tasks.py).
A launched task handle is modelled by its done() flag. -/
structure SiblingTasks where
  created_tasks : List (TName × Bool)
  waiting : List (TName × List TName)
  discarded : List TName
  dependency_relation : TName → List TName

/-- Mirrors SiblingTasks.task: raises DiscardedTask for a discarded template,
otherwise returns the created task handle if one exists. -/
def SiblingTasks.task (s : SiblingTasks) (key : TName) : Except DiscardedTask (Option Bool) :=
  if key ∈ s.discarded then .error .mk
  else .ok (lookupA s.created_tasks key)

/-- Mirrors SiblingTasks.state_of: discarded / waiting / done / running. -/
def SiblingTasks.state_of (s : SiblingTasks) (key : TName) : SiblingTaskState :=
  match s.task key with
  | .error _ => .discarded
  | .ok none => .waiting
  | .ok (some true) => .done
  | .ok (some false) => .running

/-- The effect of SiblingTasks.cancel when it does not raise: either a
cancellation signal to a running task, or a transitive discard of a waiting
template (with the resulting waiting map and discarded set). -/
inductive CancelEffect where
  | cancelledRunning
  | discardedTransitively (waiting : List (TName × List TName)) (discarded : List TName)
deriving DecidableEq

/-- Mirrors SiblingTasks.cancel: cancel a running task, or transitively discard
a waiting one; propagates the DiscardedTask exception from SiblingTasks.task. -/
def SiblingTasks.cancel (s : SiblingTasks) (key : TName) : Except DiscardedTask CancelEffect :=
  match s.task key with
  | .error e => .error e
  | .ok (some _) => .ok .cancelledRunning
  | .ok none =>
      let p := removeKeysTransitively s.waiting s.dependency_relation key s.discarded
      .ok (.discardedTransitively p.1 p.2)

/-- The result object (dagather/result.py): a mapping over the launched
templates (each holding its stored safe-call outcome) plus the discarded set. -/
structure DagatherResult (α : Type) where
  tasks : List (TName × Outcome α)
  discarded : List TName
deriving DecidableEq

/-- Errors raised by DagatherResult lookup: DiscardedTask for a never-launched
discarded template, KeyError for an unknown one. -/
inductive ResultLookupError where
  | discardedTask
  | keyError
deriving DecidableEq

/-- Mirrors DagatherResult.__getitem__: look up the stored task outcome; a
ContinueResult is unwrapped to its return_value, anything else is returned
as stored. -/
def DagatherResult.getItem {α : Type} (r : DagatherResult α) (item : TName) :
    Except ResultLookupError (Outcome α) :=
  match lookupA r.tasks item with
  | none => if item ∈ r.discarded then .error .discardedTask else .error .keyError
  | some (.post (.ContinueResult v _)) => .ok (.value v)
  | some ret => .ok ret

/-- A user callback as seen by the graph builder: its declared name and the
names of its named formal parameters, in order (positional-only and variadic
parameters are excluded by the builder before this point). -/
structure Callback where
  name : TName
  params : List TName
deriving DecidableEq

/-- Registration state of a Dagather (dagather/multigather.py): the registered
templates (name mapped to its current dependency set, in registration order)
and the pending keyword users index _kwarg_users. -/
structure DagRegState where
  templates : List (TName × List TName)
  kwarg_users : List (TName × List TName)
deriving DecidableEq

/-- The registration state of a freshly constructed Dagather. -/
def emptyReg : DagRegState := ⟨[], []⟩

/-- Add a name to a set-valued entry, creating the entry when missing (models
defaultdict(set)[k].add(n)). -/
def addToEntry : List (TName × List TName) → TName → TName → List (TName × List TName)
  | [], k, n => [(k, [n])]
  | (k1, v) :: rest, k, n =>
      if k1 = k then (k1, if n ∈ v then v else v ++ [n]) :: rest
      else (k1, v) :: addToEntry rest k n

/-- Add the dependency n to the template named u (models
dependant.dependencies.add(template)). -/
def addDep : List (TName × List TName) → TName → TName → List (TName × List TName)
  | [], _, _ => []
  | (k, v) :: rest, u, n =>
      if k = u then (k, if n ∈ v then v else v ++ [n]) :: addDep rest u n
      else (k, v) :: addDep rest u n

/-- Mirrors Dagather.register: reject duplicate names; split the parameters
into dependencies (already-registered names) and pending keyword users; then
rewrite every pending keyword user of the new name into a dependant and drop
that entry from the index. -/
def register (s : DagRegState) (cb : Callback) : Except Unit DagRegState :=
  if cb.name ∈ keysA s.templates then .error ()
  else
    let deps := cb.params.filter (fun p => p ∈ keysA s.templates)
    let kwargs := cb.params.filter (fun p => p ∉ keysA s.templates)
    let templates1 := s.templates ++ [(cb.name, deps)]
    let kwarg_users1 := kwargs.foldl (fun ku kw => addToEntry ku kw cb.name) s.kwarg_users
    let users := (lookupA kwarg_users1 cb.name).getD []
    let templates2 := users.foldl (fun ts u => addDep ts u cb.name) templates1
    let kwarg_users2 := kwarg_users1.filter (fun p => p.1 ≠ cb.name)
    .ok ⟨templates2, kwarg_users2⟩

/-- Register a list of callbacks in order, starting from an empty Dagather. -/
def registerAll (cbs : List Callback) : Except Unit DagRegState :=
  cbs.foldlM register emptyReg

/-- Invariant of the registration state after registering the callbacks of
processed, in that order: the template keys follow registration order, each
registered template's dependency set is exactly its parameter names that are
registered names, and the pending keyword users index maps each unregistered
name to the registered callbacks naming it as a parameter. -/
structure RegInv (processed : List Callback) (s : DagRegState) : Prop where
  keys_eq : keysA s.templates = processed.map Callback.name
  deps_spec : ∀ cb ∈ processed, ∀ x,
      x ∈ (lookupA s.templates cb.name).getD [] ↔
        x ∈ cb.params ∧ x ∈ processed.map Callback.name
  users_spec : ∀ k, k ∉ processed.map Callback.name → ∀ x,
      x ∈ (lookupA s.kwarg_users k).getD [] ↔
        ∃ cb ∈ processed, cb.name = x ∧ k ∈ cb.params
  users_none : ∀ k, k ∈ processed.map Callback.name → lookupA s.kwarg_users k = none
  deps_nodup : ∀ cb ∈ processed, ((lookupA s.templates cb.name).getD []).Nodup

/-- A registered task template as consumed by the scheduler: its name and its
final dependency set. -/
structure TaskTemplate where
  name : TName
  dependencies : List TName
deriving DecidableEq

/-- The full template graph of a Dagather, in registration order. -/
abbrev Graph := List TaskTemplate

/-- The registered template names. -/
def gNames (g : Graph) : List TName := g.map TaskTemplate.name

/-- The dependency set of the template named v. -/
def depsOf (g : Graph) (v : TName) : List TName :=
  match g.find? (fun t => t.name = v) with
  | some t => t.dependencies
  | none => []

/-- dependants g s: the templates that list s as a dependency (transpose of
the dependency relation; built once per invocation, read-only afterwards). -/
def dependants (g : Graph) (s : TName) : List TName :=
  (g.filter (fun t => s ∈ t.dependencies)).map TaskTemplate.name

/-- Graph well-formedness, guaranteed by the graph builder: distinct template
names, duplicate-free dependency sets referring to registered templates. -/
def graphWF (g : Graph) : Bool :=
  decide (gNames g).Nodup &&
    g.all (fun t => decide t.dependencies.Nodup &&
      t.dependencies.all (fun d => d ∈ gNames g))

/-- The view of a registration state as a scheduler graph. -/
def toGraph (s : DagRegState) : Graph := s.templates.map (fun p => ⟨p.1, p.2⟩)

/-- Ghost trace events of one invocation: launching a task and recording its
outcome in the intermediary mapping.  The event list is kept newest first. -/
inductive TaskEvent where
  | launch (t : TName)
  | record (t : TName)
deriving DecidableEq

/-- The run state of one invocation (Dagather.__call__): pending holds the
launched but not yet completed tasks, notReady maps waiting templates to their
still-unsatisfied dependencies, discarded collects templates that will never
run, intermediary records completed outcomes by name, invTasks lists the
launched templates (newest first), delayed is the remembered first propagated
exception, and events is the ghost trace. -/
structure RunState (α : Type) where
  pending : List TName
  notReady : List (TName × List TName)
  discarded : List TName
  intermediary : List (TName × α)
  invTasks : List TName
  delayed : Option α
  events : List TaskEvent
deriving DecidableEq

/-- The run state before the initial partition. -/
def emptyRun {α : Type} : RunState α := ⟨[], [], [], [], [], none, []⟩

/-- Mirrors mk_task followed by pending.add: create the task for a template
(its arguments are assembled from the intermediary outcomes of its
dependencies) and mark it running. -/
def launchTask {α : Type} (st : RunState α) (t : TName) : RunState α :=
  { st with pending := t :: st.pending, invTasks := t :: st.invTasks,
            events := .launch t :: st.events }

/-- The initial partition loop of Dagather.__call__: templates with no
dependencies are launched, the rest enter not_ready with their full
dependency sets. -/
def initTemplates {α : Type} : RunState α → List TaskTemplate → RunState α
  | st, [] => st
  | st, t :: rest =>
      initTemplates
        (if t.dependencies.isEmpty then launchTask st t.name
         else { st with notReady := st.notReady ++ [(t.name, t.dependencies)] }) rest

/-- The run state right after the initial partition. -/
def initState {α : Type} (g : Graph) : RunState α := initTemplates emptyRun g

/-- The cancel-policy machine applied when template s completes with a
PostErrorResult.  cancel_all additionally signals cancellation to every
launched task; that signal only influences the outcomes of still-running
tasks, which the outcome oracle abstracts, so it has no further
scheduler-state effect here. -/
def applyPolicy {α : Type} (g : Graph) (st : RunState α) (s : TName) :
    CancelPolicy → RunState α
  | .cancel_all =>
      { st with discarded := st.discarded ++ keysA st.notReady, notReady := [] }
  | .discard_not_started =>
      { st with discarded := st.discarded ++ keysA st.notReady, notReady := [] }
  | .discard_children =>
      let p := removeKeysTransitively st.notReady (dependants g) s st.discarded
      { st with notReady := p.1, discarded := p.2 }
  | .continue_all => st

/-- Remember the first propagated exception of the run:
if not delayed_exception: delayed_exception = result.exception. -/
def updateDelayed {α : Type} (st : RunState α) (e : α) : RunState α :=
  if st.delayed.isNone then { st with delayed := some e } else st

/-- Record the outcome value of the completed template s in the intermediary
mapping. -/
def recordOutcome {α : Type} (st : RunState α) (s : TName) (v : α) : RunState α :=
  { st with intermediary := (s, v) :: st.intermediary, events := .record s :: st.events }

/-- Replace the waiting set stored for the template v (models the in-place
mutation not_ready[dependant].remove(st)). -/
def setWaiting : List (TName × List TName) → TName → List TName → List (TName × List TName)
  | [], _, _ => []
  | (k, w) :: rest, v, w1 =>
      if k = v then (k, w1) :: setWaiting rest v w1
      else (k, w) :: setWaiting rest v w1

/-- One step of the dependant loop after s completed: if the dependant v is
still waiting, remove s from its waiting set, and launch it when the set
becomes empty. -/
def advanceOne {α : Type} (st : RunState α) (s : TName) (v : TName) : RunState α :=
  match lookupA st.notReady v with
  | none => st
  | some w =>
      let w1 := w.erase s
      if w1.isEmpty then
        launchTask { st with notReady := st.notReady.filter (fun p => p.1 ≠ v) } v
      else
        { st with notReady := setWaiting st.notReady v w1 }

/-- The dependant loop after s completed. -/
def advanceAll {α : Type} : RunState α → TName → List TName → RunState α
  | st, _, [] => st
  | st, s, v :: rest => advanceAll (advanceOne st s v) s rest

/-- Processing of one completed task in Dagather.__call__: apply the cancel
policy and remember the first propagated exception when the outcome is a
PostErrorResult, replace the outcome with its contained value, record it in
the intermediary, then advance the dependants. -/
def processOne {α : Type} (g : Graph) (ω : TName → Outcome α) (st : RunState α)
    (s : TName) : RunState α :=
  match ω s with
  | .value v => advanceAll (recordOutcome st s v) s (dependants g s)
  | .post (.PropagateError e cp) =>
      advanceAll (recordOutcome (updateDelayed (applyPolicy g st s cp) e) s e) s
        (dependants g s)
  | .post (.ContinueResult v cp) =>
      advanceAll (recordOutcome (applyPolicy g st s cp) s v) s (dependants g s)

/-- Process the completed tasks of one wake-up in order. -/
def processAll {α : Type} (g : Graph) (ω : TName → Outcome α) :
    RunState α → List TName → RunState α
  | st, [] => st
  | st, s :: rest => processAll g ω (processOne g ω st s) rest

/-- One wake-up of the scheduler: the wait primitive hands back the completed
subset done and the still-pending rest; then every completed task is
processed. -/
def processBatch {α : Type} (g : Graph) (ω : TName → Outcome α) (st : RunState α)
    (done : List TName) : RunState α :=
  processAll g ω { st with pending := st.pending.filter (fun t => t ∉ done) } done

/-- The scheduler-state effect of SiblingTasks.cancel issued from a running
task while the scheduler is suspended: cancelling a discarded template raises
into the caller, cancelling a launched task only signals it (both are
absorbed by the outcome oracle); cancelling a waiting template transitively
discards it and its dependants. -/
def siblingCancelStep {α : Type} (g : Graph) (st : RunState α) (t : TName) : RunState α :=
  if t ∈ st.discarded then st
  else if t ∈ st.invTasks then st
  else
    let p := removeKeysTransitively st.notReady (dependants g) t st.discarded
    { st with notReady := p.1, discarded := p.2 }

/-- One entry of a schedule: either a wake-up with a batch of completed tasks,
or a sibling cancellation issued by a running task. -/
inductive SchedStep where
  | batch (done : List TName)
  | siblingCancel (t : TName)
deriving DecidableEq

/-- How an invocation ends: return of the result object, re-raise of a
propagated exception, CycleError carrying the stuck templates, or the finite
schedule ran out while tasks were still pending (not a program behaviour:
the theorems quantify over schedules that drive the run to completion). -/
inductive RunOutcome (α : Type) where
  | ok (res : DagatherResult α)
  | raised (e : α)
  | cycle (stuck : List TName)
  | outOfSchedule
deriving DecidableEq

/-- The result object built over inv_tasks and discarded; the stored result of
each launched task is its safe-call outcome. -/
def mkResult {α : Type} (ω : TName → Outcome α) (st : RunState α) : DagatherResult α :=
  ⟨st.invTasks.map (fun t => (t, ω t)), st.discarded⟩

/-- The main loop of Dagather.__call__, driven by a schedule.  When pending is
empty the loop terminates: successfully when not_ready is empty (re-raising a
remembered exception if any), with CycleError listing the stuck templates
otherwise. -/
def runLoop {α : Type} (g : Graph) (ω : TName → Outcome α) :
    List SchedStep → RunState α → RunOutcome α × RunState α
  | sched, st =>
    if st.pending.isEmpty then
      if st.notReady.isEmpty then
        match st.delayed with
        | some e => (.raised e, st)
        | none => (.ok (mkResult ω st), st)
      else (.cycle (keysA st.notReady), st)
    else
      match sched with
      | [] => (.outOfSchedule, st)
      | .batch done :: rest => runLoop g ω rest (processBatch g ω st done)
      | .siblingCancel t :: rest => runLoop g ω rest (siblingCancelStep g st t)

/-- Validity of a schedule for a run: every wake-up batch is a non-empty,
duplicate-free subset of the pending tasks at that moment (the contract of
the underlying wait primitive with FIRST_COMPLETED). -/
def validSched {α : Type} (g : Graph) (ω : TName → Outcome α) :
    List SchedStep → RunState α → Bool
  | [], _ => true
  | step :: rest, st =>
    if st.pending.isEmpty then true
    else
      match step with
      | .batch done =>
          !done.isEmpty && decide done.Nodup && done.all (fun x => x ∈ st.pending) &&
            validSched g ω rest (processBatch g ω st done)
      | .siblingCancel t => validSched g ω rest (siblingCancelStep g st t)

/-- Reachability of the fixed target s along the dependency relation. -/
inductive DepReachTo (g : Graph) (s : TName) : TName → Prop where
  | refl : DepReachTo g s s
  | step {t u : TName} : u ∈ depsOf g t → DepReachTo g s u → DepReachTo g s t

/-- Reachability along the dependency relation: DepReach g t s holds when s
can be reached from t by repeatedly following dependencies. -/
def DepReach (g : Graph) (t s : TName) : Prop := DepReachTo g s t

/-- A template lying on a dependency cycle. -/
def OnCycle (g : Graph) (t : TName) : Prop :=
  ∃ u, u ∈ depsOf g t ∧ DepReach g u t

/-- The exception carried by a PropagateError outcome, if any. -/
def propagateExcOf {α : Type} : Outcome α → Option α
  | .post (.PropagateError e _) => some e
  | _ => none

/-- The exception of the earliest propagated error among the given completed
templates, in completion order. -/
def firstPropagateExc {α : Type} (ω : TName → Outcome α) (records : List TName) : Option α :=
  records.findSome? (fun t => propagateExcOf (ω t))

/-- Whether an outcome is a PostErrorResult carrying the discard_children
cancel policy. -/
def isDiscardChildrenPost {α : Type} : Outcome α → Bool
  | .post r => decide (r.cancel_policy = .discard_children)
  | .value _ => false

/-- The template launched by a launch event. -/
def evLaunchName : TaskEvent → Option TName
  | .launch t => some t
  | .record _ => none

/-- The template recorded by a record event. -/
def evRecordName : TaskEvent → Option TName
  | .record t => some t
  | .launch _ => none

/-- The core run-state invariant of Dagather.__call__ (all clauses except the
template partition and the waiting-set freshness clause, which are restored
at the end of each scheduler phase).  keysA st.intermediary is newest-first:
its reverse is the completion order of the processed tasks. -/
structure InvBase (g : Graph) (ω : TName → Outcome α) (st : RunState α) : Prop where
  pending_inv : ∀ t ∈ st.pending, t ∈ st.invTasks
  inv_nodup : st.invTasks.Nodup
  inv_names : ∀ t ∈ st.invTasks, t ∈ gNames g
  nr_nodup : (keysA st.notReady).Nodup
  nr_names : ∀ p ∈ st.notReady, p.1 ∈ gNames g
  nr_not_inv : ∀ p ∈ st.notReady, p.1 ∉ st.invTasks
  nr_not_disc : ∀ p ∈ st.notReady, p.1 ∉ st.discarded
  disc_not_inv : ∀ t ∈ st.discarded, t ∉ st.invTasks
  disc_names : ∀ t ∈ st.discarded, t ∈ gNames g
  inter_inv : ∀ p ∈ st.intermediary, p.1 ∈ st.invTasks
  pending_unrec : ∀ t ∈ st.pending, t ∉ keysA st.intermediary
  waiting_sub : ∀ p ∈ st.notReady, ∀ u ∈ p.2, u ∈ depsOf g p.1
  waiting_nodup : ∀ p ∈ st.notReady, p.2.Nodup
  waiting_ne : ∀ p ∈ st.notReady, p.2 ≠ []
  waiting_rec : ∀ p ∈ st.notReady, ∀ u ∈ depsOf g p.1, u ∉ p.2 → u ∈ keysA st.intermediary
  launched_deps : ∀ t ∈ st.invTasks, ∀ u ∈ depsOf g t, u ∈ keysA st.intermediary
  disc_closure : ∀ u ∈ st.discarded, ∀ v ∈ gNames g, u ∈ depsOf g v →
      v ∈ st.invTasks ∨ v ∈ st.discarded
  delayed_eq : st.delayed = firstPropagateExc ω (keysA st.intermediary).reverse
  ev_launch : st.events.filterMap evLaunchName = st.invTasks
  ev_record : st.events.filterMap evRecordName = keysA st.intermediary
  ev_ok1 : ∀ pre v post, st.events = pre ++ TaskEvent.launch v :: post →
      ∀ u ∈ depsOf g v, TaskEvent.record u ∈ post
  ev_ok2 : ∀ pre u post, st.events = pre ++ TaskEvent.record u :: post →
      TaskEvent.launch u ∈ post
  c8closed : ∀ s ∈ keysA st.intermediary, isDiscardChildrenPost (ω s) = true →
      ∀ t, DepReach g t s → t ∈ st.invTasks ∨ t ∈ st.discarded

/-- The full run-state invariant: the core clauses, the partition of the
registered templates into waiting, launched and discarded, and the freshness
of the waiting sets. -/
structure SchedInv (g : Graph) (ω : TName → Outcome α) (st : RunState α)
    extends InvBase g ω st : Prop where
  partition : ∀ t ∈ gNames g, t ∈ keysA st.notReady ∨ t ∈ st.invTasks ∨ t ∈ st.discarded
  waiting_unrec : ∀ p ∈ st.notReady, ∀ u ∈ p.2, u ∉ keysA st.intermediary

/-- The invariant threaded through the dependant loop after s was recorded:
the core clauses and the partition hold, and the only recorded name that may
still sit in a waiting set is s itself, in the waiting set of a dependant the
loop has not visited yet. -/
structure AdvInv (g : Graph) (ω : TName → Outcome α) (s : TName)
    (toProcess : List TName) (st : RunState α) extends InvBase g ω st : Prop where
  partition : ∀ t ∈ gNames g, t ∈ keysA st.notReady ∨ t ∈ st.invTasks ∨ t ∈ st.discarded
  waiting_unrec2 : ∀ p ∈ st.notReady, ∀ u ∈ p.2, u ∈ keysA st.intermediary →
      u = s ∧ p.1 ∈ toProcess

/-- Every launched task is pending or recorded (the top-level loop invariant
restored after each full wake-up). -/
def launchedProcessed {α : Type} (st : RunState α) : Prop :=
  ∀ t ∈ st.invTasks, t ∈ st.pending ∨ t ∈ keysA st.intermediary

/-- First-some choice on options (models the delayed-exception update). -/
def orElseO {α : Type} : Option α → Option α → Option α
  | none, b => b
  | some a, _ => some a

/-- Example graph: a single independent template. -/
def exg1 : Graph := [⟨"a", []⟩]

/-- Example oracle: every task returns 7. -/
def exval7 : TName → Outcome Nat := fun _ => .value 7

/-- Example schedule: one wake-up completing a. -/
def exschedA : List SchedStep := [.batch ["a"]]

/-- Example graph: an independent template plus a two-cycle. -/
def exgCyc : Graph := [⟨"a", []⟩, ⟨"b", ["c"]⟩, ⟨"c", ["b"]⟩]

/-- Example oracle: a propagates exception 7 continuing all, the rest return 0. -/
def exPropA : TName → Outcome Nat :=
  fun t => if t = "a" then .post (.PropagateError 7 .continue_all) else .value 0

/-- Example oracle: every task propagates exception 7 continuing all. -/
def exPropAll : TName → Outcome Nat := fun _ => .post (.PropagateError 7 .continue_all)

/-- Example graph: a chain of two templates. -/
def exgChain : Graph := [⟨"a", []⟩, ⟨"b", ["a"]⟩]

/-- Example oracle: every task returns 0. -/
def exval0 : TName → Outcome Nat := fun _ => .value 0

/-- Example schedule: two wake-ups completing a then b. -/
def exschedAB : List SchedStep := [.batch ["a"], .batch ["b"]]

/-- Example oracle: a propagates exception 5 cancelling all, the rest return 0. -/
def exPropCancel : TName → Outcome Nat :=
  fun t => if t = "a" then .post (.PropagateError 5 .cancel_all) else .value 0

/-- Example oracle: every task returns 0. -/
def exvalC5 : TName → Outcome Nat := fun _ => .value 0

/-- Example handler: a literal substitute result. -/
def exHandler : ExceptionHandler Nat := .result (.ContinueResult 0 .continue_all)

/-- Example callbacks: a names b before b is registered. -/
def exCbs1 : List Callback := [⟨"a", ["b"]⟩, ⟨"b", []⟩]

/-- Example callbacks: b registered before a names it. -/
def exCbs2 : List Callback := [⟨"b", []⟩, ⟨"a", ["b"]⟩]

/-- Example graph: a chain of three templates. -/
def exgChain3 : Graph := [⟨"a", []⟩, ⟨"b", ["a"]⟩, ⟨"c", ["b"]⟩]

/-- Example oracle: a completes with a discard_children result, the rest return 0. -/
def exDiscA : TName → Outcome Nat :=
  fun t => if t = "a" then .post (.ContinueResult 0 .discard_children) else .value 0

/-- Example callbacks: f names itself, g is independent. -/
def exCbsSelf : List Callback := [⟨"f", ["f"]⟩, ⟨"g", []⟩]

/-- Example oracle: every task completes with a cancel_all substitute result. -/
def exContCancel : TName → Outcome Nat := fun _ => .post (.ContinueResult 0 .cancel_all)

/-- Example schedule: one wake-up completing g. -/
def exschedG : List SchedStep := [.batch ["g"]]

/-- Example callbacks: a single callback naming itself. -/
def exCbsSelf1 : List Callback := [⟨"f", ["f"]⟩]

/-- Example sibling handle: one discarded template, nothing else. -/
def exSib : SiblingTasks := ⟨[], [], ["t"], fun _ => []⟩

mutual

/-- Key lemma for claim C6: a system-class exception that is never explicitly
matched resolves to PropagateError with the default cancel-all policy,
whatever the handler. -/
theorem handle_exception_upgrade {α : Type} (isExc : α → Bool)
    (h : ExceptionHandler α) (e : α)
    (he : isExc e = false) (hm : matchedExplicitly h e = false) :
    handle_exception isExc h e false = .PropagateError e .cancel_all :=
  match h with
  | .result r => by simp [handle_exception, matchedExplicitly, he]
  | .fn f => by
      simp only [matchedExplicitly] at hm
      simpa [handle_exception] using handle_exception_upgrade isExc (f e) e he hm
  | .mapping m => by
      simp only [matchedExplicitly] at hm
      simpa [handle_exception] using handle_mapping_no_match isExc m e he hm

/-- mapping-list part of the key lemma for claim C6. -/
theorem handle_mapping_no_match {α : Type} (isExc : α → Bool)
    (m : List ((α → Bool) × ExceptionHandler α)) (e : α)
    (he : isExc e = false) (hm : matchedMapping m e = false) :
    handle_mapping isExc m e = .PropagateError e .cancel_all :=
  match m with
  | [] => by rfl
  | (k, v) :: rest => by
      by_cases hk : k e
      · simp [matchedMapping, hk] at hm
      · simp only [matchedMapping, hk, if_false] at hm
        simpa [handle_mapping, hk] using handle_mapping_no_match isExc rest e he hm

end


/-- Membership in the key list of a filtered association list. -/
theorem mem_keysA_filter_ne {β : Type} (d : List (TName × β)) (s x : TName) :
    x ∈ keysA (d.filter (fun p => p.1 ≠ s)) ↔ x ∈ keysA d ∧ x ≠ s := by
  simp only [keysA, List.mem_map, List.mem_filter, decide_eq_true_eq]
  constructor
  · rintro ⟨p, ⟨hp, hps⟩, rfl⟩
    exact ⟨⟨p, hp, rfl⟩, hps⟩
  · rintro ⟨⟨p, hp, rfl⟩, hps⟩
    exact ⟨p, ⟨hp, hps⟩, rfl⟩

/-- Key membership is monotone along sublists of association lists. -/
theorem keysA_sublist_mem {β : Type} {d1 d : List (TName × β)} (h : d1.Sublist d)
    {x : TName} (hx : x ∈ keysA d1) : x ∈ keysA d := by
  exact (h.map Prod.fst).subset hx

/-- Transitivity of the remove_keys_transitively postcondition. -/
theorem RktPost.trans {β : Type} {rel : TName → List TName}
    {d dm d1 : List (TName × β)} {sink sm sink1 : List TName}
    (h1 : RktPost rel d sink dm sm) (h2 : RktPost rel dm sm d1 sink1) :
    RktPost rel d sink d1 sink1 where
  sub := h2.sub.trans h1.sub
  sink_mono := fun x hx => h2.sink_mono x (h1.sink_mono x hx)
  sink_from := fun x hx => by
    rcases h2.sink_from x hx with h | h
    · rcases h1.sink_from x h with h' | h'
      · exact .inl h'
      · exact .inr h'
    · exact .inr (keysA_sublist_mem h1.sub h)
  cover := fun x hx => by
    rcases h1.cover x hx with h | h
    · rcases h2.cover x h with h' | h'
      · exact .inl h'
      · exact .inr h'
    · exact .inr (h2.sink_mono x h)
  new_removed := fun x hx hnx => by
    by_cases hxm : x ∈ sm
    · intro hxd
      exact h1.new_removed x hxm hnx (keysA_sublist_mem h2.sub hxd)
    · exact h2.new_removed x hx hxm
  closure := fun x hx hnx c hc => by
    by_cases hxm : x ∈ sm
    · intro hcd
      exact h1.closure x hxm hnx c hc (keysA_sublist_mem h2.sub hcd)
    · exact h2.closure x hx hxm c hc

mutual

/-- DFS postcondition of remove_keys_transitively: general shape plus the facts
that the seed and all its related keys end up outside the dictionary. -/
theorem rkt_post {β : Type} (rel : TName → List TName) (fuel : Nat)
    (d : List (TName × β)) (sink : List TName) (seed : TName)
    (d1 : List (TName × β)) (sink1 : List TName)
    (h : remove_keys_transitively rel fuel d sink seed = some (d1, sink1)) :
    RktPost rel d sink d1 sink1 ∧ seed ∉ keysA d1 ∧ ∀ c ∈ rel seed, c ∉ keysA d1 :=
  match fuel with
  | 0 => by simp [remove_keys_transitively] at h
  | fuel + 1 => by
      simp only [remove_keys_transitively] at h
      obtain ⟨hp, hcs⟩ := rkt_children_post rel fuel _ _ _ d1 sink1 h
      have hsub1 : (d.filter (fun p => p.1 ≠ seed)).Sublist d := List.filter_sublist d
      have hdkeys : ∀ x ∈ keysA d1, x ∈ keysA d ∧ x ≠ seed := by
        intro x hx
        exact (mem_keysA_filter_ne d seed x).mp (keysA_sublist_mem hp.sub hx)
      have hseed : seed ∉ keysA d1 := fun hx => (hdkeys seed hx).2 rfl
      refine ⟨⟨hp.sub.trans hsub1, ?_, ?_, ?_, ?_, ?_⟩, hseed, hcs⟩
      · intro x hx
        refine hp.sink_mono x ?_
        by_cases hmem : seed ∈ keysA d <;> simp [hmem, hx]
      · intro x hx
        rcases hp.sink_from x hx with hx1 | hx1
        · by_cases hmem : seed ∈ keysA d
          · simp only [hmem, if_true, List.mem_cons] at hx1
            rcases hx1 with rfl | hx1
            · exact .inr hmem
            · exact .inl hx1
          · simp only [hmem, if_false] at hx1
            exact .inl hx1
        · exact .inr ((mem_keysA_filter_ne d seed x).mp hx1).1
      · intro x hx
        by_cases hxs : x = seed
        · subst hxs
          refine .inr (hp.sink_mono x ?_)
          simp [hx]
        · rcases hp.cover x ((mem_keysA_filter_ne d seed x).mpr ⟨hx, hxs⟩) with h1 | h1
          · exact .inl h1
          · exact .inr h1
      · intro x hx hnx
        by_cases hxin : x ∈ (if seed ∈ keysA d then seed :: sink else sink)
        · by_cases hmem : seed ∈ keysA d
          · simp only [hmem, if_true, List.mem_cons] at hxin
            rcases hxin with rfl | hxin
            · exact hseed
            · exact absurd hxin hnx
          · simp only [hmem, if_false] at hxin
            exact absurd hxin hnx
        · exact hp.new_removed x hx hxin
      · intro x hx hnx c hc
        by_cases hxin : x ∈ (if seed ∈ keysA d then seed :: sink else sink)
        · by_cases hmem : seed ∈ keysA d
          · simp only [hmem, if_true, List.mem_cons] at hxin
            rcases hxin with rfl | hxin
            · exact hcs c hc
            · exact absurd hxin hnx
          · simp only [hmem, if_false] at hxin
            exact absurd hxin hnx
        · exact hp.closure x hx hxin c hc

/-- DFS postcondition of the children loop of remove_keys_transitively. -/
theorem rkt_children_post {β : Type} (rel : TName → List TName) (fuel : Nat)
    (d : List (TName × β)) (sink : List TName) (cs : List TName)
    (d1 : List (TName × β)) (sink1 : List TName)
    (h : rkt_children rel fuel d sink cs = some (d1, sink1)) :
    RktPost rel d sink d1 sink1 ∧ ∀ c ∈ cs, c ∉ keysA d1 :=
  match cs with
  | [] => by
      simp only [rkt_children, Option.some_inj, Prod.mk.injEq] at h
      obtain ⟨rfl, rfl⟩ := h
      exact ⟨⟨List.Sublist.refl d, fun x hx => hx, fun x hx => .inl hx,
        fun x hx => .inl hx, fun x hx hnx => absurd hx hnx,
        fun x hx hnx => absurd hx hnx⟩, by simp⟩
  | c :: cs => by
      simp only [rkt_children] at h
      by_cases hc : c ∈ keysA d
      · simp only [hc, if_true] at h
        rcases hrec : remove_keys_transitively rel fuel d sink c with _ | ⟨dm, sm⟩
        · rw [hrec] at h; simp at h
        · rw [hrec] at h
          obtain ⟨hp1, hcn, _⟩ := rkt_post rel fuel d sink c dm sm hrec
          obtain ⟨hp2, hcs2⟩ := rkt_children_post rel fuel dm sm cs d1 sink1 h
          refine ⟨hp1.trans hp2, ?_⟩
          intro x hx
          rcases List.mem_cons.mp hx with rfl | hx
          · intro hxk
            exact hcn (keysA_sublist_mem hp2.sub hxk)
          · exact hcs2 x hx
      · simp only [hc, if_false] at h
        obtain ⟨hp, hcs2⟩ := rkt_children_post rel fuel d sink cs d1 sink1 h
        refine ⟨hp, ?_⟩
        intro x hx
        rcases List.mem_cons.mp hx with rfl | hx
        · intro hxk
          exact hc (keysA_sublist_mem hp.sub hxk)
        · exact hcs2 x hx

end

mutual

/-- Fuel adequacy of remove_keys_transitively: with fuel beyond the dictionary
size (or at least the size when the seed is present) the recursion never runs
out of fuel.  This is the termination argument of the Python recursion: every
recursive call strictly shrinks the dictionary, so diamonds in the relation
are harmless. -/
theorem rkt_isSome {β : Type} (rel : TName → List TName) (fuel : Nat)
    (d : List (TName × β)) (sink : List TName) (seed : TName)
    (h : d.length < fuel ∨ (seed ∈ keysA d ∧ d.length ≤ fuel)) :
    (remove_keys_transitively rel fuel d sink seed).isSome :=
  match fuel with
  | 0 => by
      rcases h with h | ⟨hm, h⟩
      · omega
      · interval_cases hl : d.length
        · rcases d with _ | _
          · simp [keysA] at hm
          · simp at hl
  | fuel + 1 => by
      simp only [remove_keys_transitively]
      apply rkt_children_isSome
      rcases h with h | ⟨hm, h⟩
      · calc (d.filter (fun p => p.1 ≠ seed)).length ≤ d.length :=
              (List.filter_sublist d).length_le
          _ ≤ fuel := by omega
      · have : (d.filter (fun p => p.1 ≠ seed)).length < d.length := by
          rw [List.length_filter_lt_length_iff_exists]
          simp only [keysA, List.mem_map] at hm
          obtain ⟨p, hp, rfl⟩ := hm
          exact ⟨p, hp, by simp⟩
        omega

/-- Fuel adequacy for the children loop of remove_keys_transitively. -/
theorem rkt_children_isSome {β : Type} (rel : TName → List TName) (fuel : Nat)
    (d : List (TName × β)) (sink : List TName) (cs : List TName)
    (h : d.length ≤ fuel) :
    (rkt_children rel fuel d sink cs).isSome :=
  match cs with
  | [] => by simp [rkt_children]
  | c :: cs => by
      simp only [rkt_children]
      by_cases hc : c ∈ keysA d
      · simp only [hc, if_true]
        have hsome := rkt_isSome rel fuel d sink c (.inr ⟨hc, h⟩)
        rcases hrec : remove_keys_transitively rel fuel d sink c with _ | ⟨dm, sm⟩
        · rw [hrec] at hsome; simp at hsome
        · obtain ⟨hp, _, _⟩ := rkt_post rel fuel d sink c dm sm hrec
          exact rkt_children_isSome rel fuel dm sm cs (hp.sub.length_le.trans h)
      · simp only [hc, if_false]
        exact rkt_children_isSome rel fuel d sink cs h

end

/-- The canonical-fuel wrapper always runs the DFS to completion and therefore
satisfies the DFS postcondition. -/
theorem removeKeysTransitively_post {β : Type} (d : List (TName × β))
    (rel : TName → List TName) (seed : TName) (sink : List TName) :
    RktPost rel d sink (removeKeysTransitively d rel seed sink).1
      (removeKeysTransitively d rel seed sink).2 ∧
    seed ∉ keysA (removeKeysTransitively d rel seed sink).1 ∧
    ∀ c ∈ rel seed, c ∉ keysA (removeKeysTransitively d rel seed sink).1 := by
  have hs := rkt_isSome rel (d.length + 1) d sink seed (.inl (by omega))
  rcases hrec : remove_keys_transitively rel (d.length + 1) d sink seed with _ | ⟨d1, sink1⟩
  · rw [hrec] at hs; simp at hs
  · have := rkt_post rel (d.length + 1) d sink seed d1 sink1 hrec
    simpa [removeKeysTransitively, hrec] using this

/-- lookupA misses exactly the keys outside the key list. -/
theorem lookupA_eq_none_iff {β : Type} (l : List (TName × β)) (k : TName) :
    lookupA l k = none ↔ k ∉ keysA l := by
  induction l with
  | nil => simp [lookupA, keysA]
  | cons p rest ih =>
      obtain ⟨k1, v⟩ := p
      by_cases hk : k1 = k
      · subst hk
        simp [lookupA, keysA]
      · simp [lookupA, keysA, hk, ih, Ne.symm hk]
      
/-- lookupA across an append: the left list wins when it has the key. -/
theorem lookupA_append {β : Type} (l1 l2 : List (TName × β)) (k : TName) :
    lookupA (l1 ++ l2) k =
      match lookupA l1 k with
      | some v => some v
      | none => lookupA l2 k := by
  induction l1 with
  | nil => simp [lookupA]
  | cons p rest ih =>
      obtain ⟨k1, v⟩ := p
      by_cases hk : k1 = k
      · subst hk
        simp [lookupA]
      · simp [lookupA, hk, ih]

/-- lookupA after filtering out a key: the filtered key is gone. -/
theorem lookupA_filter_self {β : Type} (l : List (TName × β)) (k : TName) :
    lookupA (l.filter (fun p => p.1 ≠ k)) k = none := by
  rw [lookupA_eq_none_iff]
  intro h
  exact ((mem_keysA_filter_ne l k k).mp h).2 rfl

/-- lookupA after filtering out another key is unchanged. -/
theorem lookupA_filter_other {β : Type} (l : List (TName × β)) (k k1 : TName)
    (h : k1 ≠ k) : lookupA (l.filter (fun p => p.1 ≠ k)) k1 = lookupA l k1 := by
  induction l with
  | nil => simp [lookupA]
  | cons p rest ih =>
      obtain ⟨k2, v⟩ := p
      by_cases hk2 : k2 = k
      · rw [List.filter_cons_of_neg (by simp [hk2])]
        rw [ih]
        have hne : ¬ (k2 = k1) := fun hh => h (hh ▸ hk2)
        simp [lookupA, hne]
      · rw [List.filter_cons_of_pos (by simp [hk2])]
        by_cases hk1 : k2 = k1
        · subst hk1
          simp [lookupA]
        · simp only [lookupA, if_neg hk1]
          exact ih

theorem addToEntry_same (l : List (TName × List TName)) (k n x : TName) :
    x ∈ (lookupA (addToEntry l k n) k).getD [] ↔
      x ∈ (lookupA l k).getD [] ∨ x = n := by
  induction l with
  | nil => simp [addToEntry, lookupA]
  | cons p rest ih =>
      obtain ⟨k1, v⟩ := p
      by_cases hk : k1 = k
      · subst hk
        by_cases hn : n ∈ v
        · simp only [addToEntry, if_pos rfl, if_pos hn, lookupA, Option.getD_some]
          exact ⟨fun hh => .inl hh, fun hh => hh.elim id (fun hx => hx ▸ hn)⟩
        · simp [addToEntry, lookupA, hn, List.mem_append]
      · simp [addToEntry, lookupA, hk, ih]

theorem addToEntry_other (l : List (TName × List TName)) (k n k1 : TName)
    (h : k1 ≠ k) : lookupA (addToEntry l k n) k1 = lookupA l k1 := by
  induction l with
  | nil =>
      have hne : ¬ (k = k1) := fun hh => h hh.symm
      simp [addToEntry, lookupA, hne]
  | cons p rest ih =>
      obtain ⟨k2, v⟩ := p
      by_cases hk : k2 = k
      · subst hk
        have hne : ¬ (k2 = k1) := fun hh => h hh.symm
        simp [addToEntry, lookupA, hne]
      · simp [addToEntry, lookupA, hk, ih]

/-- addToEntry guarantees an entry at its key. -/
theorem addToEntry_isSome_self (l : List (TName × List TName)) (k n : TName) :
    lookupA (addToEntry l k n) k ≠ none := by
  intro hnone
  have := (addToEntry_same l k n n).mpr (.inr rfl)
  rw [hnone] at this
  simp at this

/-- addToEntry never deletes entries. -/
theorem addToEntry_preserves_isSome (l : List (TName × List TName)) (k n k1 : TName)
    (h : lookupA l k1 ≠ none) : lookupA (addToEntry l k n) k1 ≠ none := by
  by_cases hk : k1 = k
  · subst hk
    exact addToEntry_isSome_self l k1 n
  · rw [addToEntry_other l k n k1 hk]
    exact h

/-- The pending-keyword-users update loop of register, at the touched keys. -/
theorem foldl_addToEntry_same (kws : List TName) (l : List (TName × List TName))
    (n k x : TName) :
    x ∈ (lookupA (kws.foldl (fun ku kw => addToEntry ku kw n) l) k).getD [] ↔
      x ∈ (lookupA l k).getD [] ∨ (x = n ∧ k ∈ kws) := by
  induction kws generalizing l with
  | nil => simp
  | cons kw rest ih =>
      simp only [List.foldl_cons]
      rw [ih]
      by_cases hk : k = kw
      · subst hk
        rw [addToEntry_same]
        simp only [List.mem_cons, true_or, and_true]
        tauto
      · rw [addToEntry_other l kw n k hk]
        simp only [List.mem_cons]
        have hne : ¬ (k = kw) := hk
        tauto

/-- The pending-keyword-users update loop of register: an entry is absent
afterwards iff it was absent before and the key was not touched. -/
theorem foldl_addToEntry_none (kws : List TName) (l : List (TName × List TName))
    (n k : TName) :
    lookupA (kws.foldl (fun ku kw => addToEntry ku kw n) l) k = none ↔
      lookupA l k = none ∧ k ∉ kws := by
  induction kws generalizing l with
  | nil => simp
  | cons kw rest ih =>
      simp only [List.foldl_cons, ih, List.mem_cons]
      by_cases hk : k = kw
      · subst hk
        constructor
        · rintro ⟨h, _⟩
          exact absurd h (addToEntry_isSome_self l k n)
        · rintro ⟨_, h⟩
          exact absurd (.inl rfl) h
      · rw [addToEntry_other l kw n k hk]
        constructor
        · rintro ⟨h1, h2⟩
          exact ⟨h1, fun hm => hm.elim (fun he => hk he) h2⟩
        · rintro ⟨h1, h2⟩
          exact ⟨h1, fun hm => h2 (.inr hm)⟩

/-- addDep at the touched key: the dependency is added when the entry exists. -/
theorem addDep_same (ts : List (TName × List TName)) (u n x : TName) :
    x ∈ (lookupA (addDep ts u n) u).getD [] ↔
      x ∈ (lookupA ts u).getD [] ∨ (u ∈ keysA ts ∧ x = n) := by
  induction ts with
  | nil => simp [addDep, lookupA, keysA]
  | cons p rest ih =>
      obtain ⟨k, v⟩ := p
      by_cases hk : k = u
      · have hu : u ∈ keysA ((k, v) :: rest) := by simp [keysA, hk]
        simp only [addDep, if_pos hk, lookupA, if_pos hk, Option.getD_some, hu, true_and]
        by_cases hn : n ∈ v
        · simp only [if_pos hn]
          exact ⟨fun h => .inl h, fun h => h.elim id (fun hx => hx ▸ hn)⟩
        · simp only [if_neg hn, List.mem_append, List.mem_singleton]
      · simp only [addDep, if_neg hk, lookupA, if_neg hk]
        rw [ih]
        have huk : u ∈ keysA ((k, v) :: rest) ↔ u ∈ keysA rest := by
          simp only [keysA, List.map_cons, List.mem_cons]
          constructor
          · intro h
            rcases h with he | h
            · exact absurd he.symm hk
            · exact h
          · exact fun h => .inr h
        rw [huk]

theorem addDep_other (ts : List (TName × List TName)) (u n y : TName) (h : y ≠ u) :
    lookupA (addDep ts u n) y = lookupA ts y := by
  induction ts with
  | nil => simp [addDep]
  | cons p rest ih =>
      obtain ⟨k, v⟩ := p
      by_cases hk : k = u
      · have hne : ¬ (k = y) := fun hh => h (hh ▸ hk)
        simp only [addDep, if_pos hk, lookupA, if_neg hne]
        exact ih
      · simp only [addDep, if_neg hk, lookupA]
        by_cases hky : k = y
        · simp [hky]
        · simp only [if_neg hky]
          exact ih

theorem keysA_addDep (ts : List (TName × List TName)) (u n : TName) :
    keysA (addDep ts u n) = keysA ts := by
  induction ts with
  | nil => rfl
  | cons p rest ih =>
      obtain ⟨k, v⟩ := p
      by_cases hk : k = u
      · simp only [addDep, if_pos hk, keysA, List.map_cons]
        rw [show List.map Prod.fst (addDep rest u n) = keysA (addDep rest u n) from rfl, ih]
        rfl
      · simp only [addDep, if_neg hk, keysA, List.map_cons]
        rw [show List.map Prod.fst (addDep rest u n) = keysA (addDep rest u n) from rfl, ih]
        rfl

theorem foldl_addDep_mem (users : List TName) (ts : List (TName × List TName))
    (n y x : TName) :
    x ∈ (lookupA (users.foldl (fun t u => addDep t u n) ts) y).getD [] ↔
      x ∈ (lookupA ts y).getD [] ∨ (y ∈ users ∧ y ∈ keysA ts ∧ x = n) := by
  induction users generalizing ts with
  | nil => simp
  | cons u rest ih =>
      simp only [List.foldl_cons]
      rw [ih, keysA_addDep]
      by_cases hy : y = u
      · subst hy
        rw [addDep_same]
        simp only [List.mem_cons, true_or, true_and]
        tauto
      · rw [addDep_other ts u n y hy]
        simp only [List.mem_cons]
        have hne : ¬ (y = u) := hy
        tauto

theorem foldl_addDep_keys (users : List TName) (ts : List (TName × List TName))
    (n : TName) :
    keysA (users.foldl (fun t u => addDep t u n) ts) = keysA ts := by
  induction users generalizing ts with
  | nil => rfl
  | cons u rest ih => simp only [List.foldl_cons, ih, keysA_addDep]

/-- keysA distributes over append. -/
theorem keysA_append {β : Type} (l1 l2 : List (TName × β)) :
    keysA (l1 ++ l2) = keysA l1 ++ keysA l2 := by
  simp [keysA]

/-- lookupA hits exactly the keys in the key list. -/
theorem lookupA_ne_none_iff {β : Type} (l : List (TName × β)) (k : TName) :
    lookupA l k ≠ none ↔ k ∈ keysA l := by
  rw [Ne, lookupA_eq_none_iff, not_not]

/-- The value stored by addDep at the touched key. -/
theorem addDep_lookup_val (ts : List (TName × List TName)) (u n : TName) :
    lookupA (addDep ts u n) u =
      (lookupA ts u).map (fun v => if n ∈ v then v else v ++ [n]) := by
  induction ts with
  | nil => simp [addDep, lookupA]
  | cons p rest ih =>
      obtain ⟨k, v⟩ := p
      by_cases hk : k = u
      · simp only [addDep, if_pos hk, lookupA, if_pos hk]
        rfl
      · simp only [addDep, if_neg hk, lookupA, if_neg hk]
        exact ih

/-- addDep preserves duplicate-freedom of every stored dependency set. -/
theorem addDep_nodup (ts : List (TName × List TName)) (u n y : TName)
    (h : ((lookupA ts y).getD []).Nodup) :
    ((lookupA (addDep ts u n) y).getD []).Nodup := by
  by_cases hy : y = u
  · subst hy
    rw [addDep_lookup_val]
    rcases hv : lookupA ts y with _ | v
    · exact List.nodup_nil
    · rw [hv] at h
      simp only [Option.getD_some] at h
      show (if n ∈ v then v else v ++ [n]).Nodup
      by_cases hn : n ∈ v
      · simpa [hn] using h
      · simp only [if_neg hn]
        exact List.Nodup.append h (List.nodup_singleton n)
          (by simpa [List.disjoint_singleton] using hn)
  · rw [addDep_other ts u n y hy]
    exact h

/-- The dependant-rewrite loop preserves duplicate-freedom of the stored
dependency sets. -/
theorem foldl_addDep_nodup (users : List TName) (ts : List (TName × List TName))
    (n y : TName) (h : ((lookupA ts y).getD []).Nodup) :
    ((lookupA (users.foldl (fun t u => addDep t u n) ts) y).getD []).Nodup := by
  induction users generalizing ts with
  | nil => exact h
  | cons u rest ih =>
      simp only [List.foldl_cons]
      exact ih _ (addDep_nodup ts u n y h)

/-- lookupA across an append when the left list has the key. -/
theorem lookupA_append_left {β : Type} (l1 l2 : List (TName × β)) (k : TName)
    (h : lookupA l1 k ≠ none) : lookupA (l1 ++ l2) k = lookupA l1 k := by
  rw [lookupA_append]
  rcases hv : lookupA l1 k with _ | v
  · exact absurd hv h
  · rfl

/-- lookupA across an append when the left list misses the key. -/
theorem lookupA_append_right {β : Type} (l1 l2 : List (TName × β)) (k : TName)
    (h : lookupA l1 k = none) : lookupA (l1 ++ l2) k = lookupA l2 k := by
  rw [lookupA_append, h]

/-- One registration step preserves the registration invariant: the new
template enters with its already-satisfiable dependencies, and every pending
keyword user of the new name is rewritten into a dependant. -/
theorem register_step (processed : List Callback) (s : DagRegState) (cb : Callback)
    (hinv : RegInv processed s)
    (hnodp : (processed.map Callback.name).Nodup)
    (hfresh : cb.name ∉ processed.map Callback.name)
    (hpn : cb.params.Nodup) :
    ∃ s1, register s cb = .ok s1 ∧ RegInv (processed ++ [cb]) s1 := by
  have hkey : cb.name ∉ keysA s.templates := by rw [hinv.keys_eq]; exact hfresh
  set deps0 := cb.params.filter (fun p => p ∈ keysA s.templates) with hdeps0
  set kwargs := cb.params.filter (fun p => p ∉ keysA s.templates) with hkwargs
  set templates1 := s.templates ++ [(cb.name, deps0)] with htemplates1
  set ku1 := kwargs.foldl (fun ku kw => addToEntry ku kw cb.name) s.kwarg_users with hku1
  set users := (lookupA ku1 cb.name).getD [] with husers
  set templates2 := users.foldl (fun ts u => addDep ts u cb.name) templates1 with htemplates2
  set ku2 := ku1.filter (fun p => p.1 ≠ cb.name) with hku2
  have hreg : register s cb = .ok ⟨templates2, ku2⟩ := by
    simp only [register, if_neg hkey]
  have hnone : lookupA s.templates cb.name = none := (lookupA_eq_none_iff _ _).mpr hkey
  have h1 : lookupA templates1 cb.name = some deps0 := by
    rw [htemplates1, lookupA_append_right _ _ _ hnone]
    simp [lookupA]
  have h2 : ∀ y, y ∈ keysA s.templates → lookupA templates1 y = lookupA s.templates y := by
    intro y hy
    rw [htemplates1, lookupA_append_left]
    exact (lookupA_ne_none_iff _ _).mpr hy
  have h3 : keysA templates1 = keysA s.templates ++ [cb.name] := by
    rw [htemplates1, keysA_append]
    rfl
  have h4 : ∀ x, x ∈ kwargs ↔ x ∈ cb.params ∧ x ∉ keysA s.templates := by
    intro x
    rw [hkwargs]
    simp [List.mem_filter]
  have h5 : ∀ x, x ∈ deps0 ↔ x ∈ cb.params ∧ x ∈ keysA s.templates := by
    intro x
    rw [hdeps0]
    simp [List.mem_filter]
  have h6 : ∀ x, x ∈ users ↔
      (∃ cb1 ∈ processed, cb1.name = x ∧ cb.name ∈ cb1.params) ∨
        (x = cb.name ∧ cb.name ∈ cb.params) := by
    intro x
    rw [husers, hku1, foldl_addToEntry_same]
    rw [hinv.users_spec cb.name hfresh x]
    constructor
    · rintro (h | ⟨rfl, hkw⟩)
      · exact .inl h
      · exact .inr ⟨rfl, ((h4 _).mp hkw).1⟩
    · rintro (h | ⟨rfl, hp⟩)
      · exact .inl h
      · exact .inr ⟨rfl, (h4 _).mpr ⟨hp, hkey⟩⟩
  have hname_inj : ∀ cb1 ∈ processed, ∀ cb2 ∈ processed, cb1.name = cb2.name → cb1 = cb2 :=
    fun cb1 h1 cb2 h2 he => List.inj_on_of_nodup_map hnodp h1 h2 he
  have hmemP : ∀ (cb1 : Callback), cb1 ∈ processed → cb1.name ∈ processed.map Callback.name :=
    fun cb1 h => List.mem_map.mpr ⟨cb1, h, rfl⟩
  refine ⟨⟨templates2, ku2⟩, hreg, ?_, ?_, ?_, ?_, ?_⟩
  · -- keys_eq
    show keysA templates2 = (processed ++ [cb]).map Callback.name
    rw [htemplates2, foldl_addDep_keys, h3, hinv.keys_eq]
    simp
  · -- deps_spec
    intro cb1 hcb1 x
    show x ∈ (lookupA templates2 cb1.name).getD [] ↔ _
    rw [htemplates2, foldl_addDep_mem]
    rcases List.mem_append.mp hcb1 with hmem | hmem
    · have hy : cb1.name ∈ keysA s.templates := by
        rw [hinv.keys_eq]; exact hmemP cb1 hmem
      rw [h2 cb1.name hy, hinv.deps_spec cb1 hmem x]
      have husers1 : cb1.name ∈ users ↔ cb.name ∈ cb1.params := by
        rw [h6]
        constructor
        · rintro (⟨cb2, hcb2, he, hp⟩ | ⟨he, _⟩)
          · rw [← hname_inj cb2 hcb2 cb1 hmem he]
            exact hp
          · exact absurd (he ▸ hmemP cb1 hmem) hfresh
        · intro hp
          exact .inl ⟨cb1, hmem, rfl, hp⟩
      have hkeys1 : cb1.name ∈ keysA templates1 := by
        rw [h3]
        exact List.mem_append.mpr (.inl hy)
      rw [husers1]
      simp only [hkeys1, true_and, List.map_append, List.map_cons, List.map_nil,
        List.mem_append, List.mem_singleton]
      constructor
      · rintro (⟨hp, hP⟩ | ⟨hp, rfl⟩)
        · exact ⟨hp, .inl hP⟩
        · exact ⟨hp, .inr rfl⟩
      · rintro ⟨hp, hP | rfl⟩
        · exact .inl ⟨hp, hP⟩
        · exact .inr ⟨hp, rfl⟩
    · have hcb1cb : cb1 = cb := by simpa using hmem
      subst hcb1cb
      rw [h1]
      simp only [Option.getD_some]
      have husers1 : cb1.name ∈ users ↔ cb1.name ∈ cb1.params := by
        rw [h6]
        constructor
        · rintro (⟨cb2, hcb2, he, hp⟩ | ⟨_, hp⟩)
          · exact absurd (he ▸ hmemP cb2 hcb2) hfresh
          · exact hp
        · intro hp
          exact .inr ⟨rfl, hp⟩
      have hkeys1 : cb1.name ∈ keysA templates1 := by
        rw [h3]
        exact List.mem_append.mpr (.inr (by simp))
      rw [husers1, h5 x]
      simp only [hkeys1, true_and, List.map_append, List.map_cons, List.map_nil,
        List.mem_append, List.mem_singleton, hinv.keys_eq]
      constructor
      · rintro (⟨hp, hP⟩ | ⟨hp, rfl⟩)
        · exact ⟨hp, .inl hP⟩
        · exact ⟨hp, .inr rfl⟩
      · rintro ⟨hp, hP | rfl⟩
        · exact .inl ⟨hp, hP⟩
        · exact .inr ⟨hp, rfl⟩
  · -- users_spec
    intro k hk x
    simp only [List.map_append, List.map_cons, List.map_nil, List.mem_append,
      List.mem_singleton] at hk
    push_neg at hk
    obtain ⟨hkP, hkcb⟩ := hk
    show x ∈ (lookupA ku2 k).getD [] ↔ _
    rw [hku2, lookupA_filter_other _ _ _ hkcb, hku1, foldl_addToEntry_same,
      hinv.users_spec k hkP x]
    constructor
    · rintro (⟨cb1, hcb1, rfl, hp⟩ | ⟨rfl, hkw⟩)
      · exact ⟨cb1, List.mem_append.mpr (.inl hcb1), rfl, hp⟩
      · exact ⟨cb, List.mem_append.mpr (.inr (by simp)), rfl, ((h4 _).mp hkw).1⟩
    · rintro ⟨cb1, hcb1, rfl, hp⟩
      rcases List.mem_append.mp hcb1 with hmem | hmem
      · exact .inl ⟨cb1, hmem, rfl, hp⟩
      · have : cb1 = cb := by simpa using hmem
        subst this
        refine .inr ⟨rfl, (h4 _).mpr ⟨hp, ?_⟩⟩
        rw [hinv.keys_eq]
        exact hkP
  · -- users_none
    intro k hk
    simp only [List.map_append, List.map_cons, List.map_nil, List.mem_append,
      List.mem_singleton] at hk
    show lookupA ku2 k = none
    rcases hk with hkP | rfl
    · have hkcb : k ≠ cb.name := fun he => hfresh (he ▸ hkP)
      rw [hku2, lookupA_filter_other _ _ _ hkcb, hku1, foldl_addToEntry_none]
      refine ⟨hinv.users_none k hkP, ?_⟩
      intro hkw
      have := ((h4 k).mp hkw).2
      rw [hinv.keys_eq] at this
      exact this hkP
    · rw [hku2]
      exact lookupA_filter_self _ _
  · -- deps_nodup
    intro cb1 hcb1
    show ((lookupA templates2 cb1.name).getD []).Nodup
    rw [htemplates2]
    apply foldl_addDep_nodup
    rcases List.mem_append.mp hcb1 with hmem | hmem
    · have hy : cb1.name ∈ keysA s.templates := by
        rw [hinv.keys_eq]; exact hmemP cb1 hmem
      rw [h2 cb1.name hy]
      exact hinv.deps_nodup cb1 hmem
    · have : cb1 = cb := by simpa using hmem
      subst this
      rw [h1]
      simp only [Option.getD_some, hdeps0]
      exact hpn.filter _

/-- The empty Dagather satisfies the registration invariant. -/
theorem regInv_empty : RegInv [] emptyReg := by
  refine ⟨rfl, ?_, ?_, ?_, ?_⟩
  · intro cb hcb
    simp at hcb
  · intro k _ x
    simp [emptyReg, lookupA]
  · intro k hk
    simp at hk
  · intro cb hcb
    simp at hcb

/-- Registering a duplicate-free batch of callbacks from any invariant state
succeeds and preserves the invariant. -/
theorem registerAll_go (rest : List Callback) (processed : List Callback)
    (s : DagRegState) (hinv : RegInv processed s)
    (hnd : ((processed ++ rest).map Callback.name).Nodup)
    (hpn : ∀ cb ∈ rest, cb.params.Nodup) :
    ∃ s1, rest.foldlM register s = .ok s1 ∧ RegInv (processed ++ rest) s1 := by
  induction rest generalizing processed s with
  | nil =>
      refine ⟨s, rfl, ?_⟩
      simpa using hinv
  | cons cb rest ih =>
      have hnodp : (processed.map Callback.name).Nodup := by
        rw [List.map_append] at hnd
        exact (List.nodup_append.mp hnd).1
      have hfresh : cb.name ∉ processed.map Callback.name := by
        intro hmem
        rw [List.map_append] at hnd
        have hdisj := (List.nodup_append.mp hnd).2.2
        exact hdisj hmem (by simp)
      obtain ⟨s1, hreg, hinv1⟩ := register_step processed s cb hinv hnodp hfresh
        (hpn cb (by simp))
      have hnd1 : (((processed ++ [cb]) ++ rest).map Callback.name).Nodup := by
        simpa using hnd
      obtain ⟨s2, hfold, hinv2⟩ := ih (processed ++ [cb]) s1 hinv1 hnd1
        (fun c hc => hpn c (by simp [hc]))
      refine ⟨s2, ?_, ?_⟩
      · rw [List.foldlM_cons, hreg]
        exact hfold
      · simpa using hinv2
  
/-- registerAll of duplicate-free callbacks succeeds, and the final dependency
set of every callback consists exactly of its parameter names that are
registered names: the final graph does not depend on registration order. -/
theorem registerAll_spec (cbs : List Callback)
    (hnd : (cbs.map Callback.name).Nodup)
    (hpn : ∀ cb ∈ cbs, cb.params.Nodup) :
    ∃ s, registerAll cbs = .ok s ∧ RegInv cbs s := by
  obtain ⟨s, hfold, hinv⟩ := registerAll_go cbs [] emptyReg regInv_empty (by simpa using hnd) hpn
  exact ⟨s, hfold, by simpa using hinv⟩

/-- Record events correspond to intermediary keys through ev_record. -/
theorem record_mem_iff {evs : List TaskEvent} {L : List TName}
    (h : evs.filterMap evRecordName = L) (u : TName) :
    TaskEvent.record u ∈ evs ↔ u ∈ L := by
  subst h
  rw [List.mem_filterMap]
  constructor
  · intro hm
    exact ⟨TaskEvent.record u, hm, rfl⟩
  · rintro ⟨e, he, hval⟩
    cases e with
    | launch t => simp [evRecordName] at hval
    | record t =>
        simp only [evRecordName, Option.some_inj] at hval
        exact hval ▸ he

/-- Launch events correspond to launched templates through ev_launch. -/
theorem launch_mem_iff {evs : List TaskEvent} {L : List TName}
    (h : evs.filterMap evLaunchName = L) (u : TName) :
    TaskEvent.launch u ∈ evs ↔ u ∈ L := by
  subst h
  rw [List.mem_filterMap]
  constructor
  · intro hm
    exact ⟨TaskEvent.launch u, hm, rfl⟩
  · rintro ⟨e, he, hval⟩
    cases e with
    | record t => simp [evLaunchName] at hval
    | launch t =>
        simp only [evLaunchName, Option.some_inj] at hval
        exact hval ▸ he

/-- Unfolding graph well-formedness: distinct names. -/
theorem graphWF_names_nodup {g : Graph} (h : graphWF g = true) : (gNames g).Nodup := by
  simp only [graphWF, Bool.and_eq_true, decide_eq_true_eq] at h
  exact h.1

/-- Unfolding graph well-formedness: per-template dependency facts. -/
theorem graphWF_deps {g : Graph} (h : graphWF g = true) (t : TaskTemplate) (ht : t ∈ g) :
    t.dependencies.Nodup ∧ ∀ d ∈ t.dependencies, d ∈ gNames g := by
  simp only [graphWF, Bool.and_eq_true, decide_eq_true_eq, List.all_eq_true] at h
  obtain ⟨-, h2⟩ := h
  obtain ⟨hnd, hsub⟩ := h2 t ht
  exact ⟨hnd, fun d hd => by simpa using hsub d hd⟩

/-- With distinct names, find? by name returns the declared template. -/
theorem find?_name_eq {g : Graph} (hnd : (gNames g).Nodup) (t : TaskTemplate)
    (ht : t ∈ g) : g.find? (fun u => u.name = t.name) = some t := by
  induction g with
  | nil => simp at ht
  | cons t0 rest ih =>
      rcases List.mem_cons.mp ht with rfl | hmem
      · have hp : decide (t.name = t.name) = true := by simp
        rw [List.find?_cons_of_pos rest hp]
      · simp only [gNames, List.map_cons, List.nodup_cons] at hnd
        have he : ¬ (t0.name = t.name) :=
          fun he => hnd.1 (he ▸ List.mem_map.mpr ⟨t, hmem, rfl⟩)
        have hne : ¬ (decide (t0.name = t.name) = true) := by simp [he]
        rw [List.find?_cons_of_neg rest hne]
        exact ih hnd.2 hmem

/-- With distinct names, depsOf returns the declared dependency set. -/
theorem depsOf_eq {g : Graph} (h : graphWF g = true) (t : TaskTemplate) (ht : t ∈ g) :
    depsOf g t.name = t.dependencies := by
  unfold depsOf
  rw [find?_name_eq (graphWF_names_nodup h) t ht]

/-- A template with a dependency is registered. -/
theorem mem_gNames_of_depsOf {g : Graph} {u v : TName} (h : u ∈ depsOf g v) :
    v ∈ gNames g := by
  unfold depsOf at h
  rcases hf : g.find? (fun t => t.name = v) with _ | t
  · rw [hf] at h
    simp at h
  · have := List.find?_some hf
    have hmem := List.mem_of_find?_eq_some hf
    simp only [decide_eq_true_eq] at this
    exact this ▸ List.mem_map.mpr ⟨t, hmem, rfl⟩

/-- Dependencies of registered templates are registered (well-formed graphs). -/
theorem mem_gNames_of_dep {g : Graph} (hwf : graphWF g = true) {u v : TName}
    (h : u ∈ depsOf g v) : u ∈ gNames g := by
  unfold depsOf at h
  rcases hf : g.find? (fun t => t.name = v) with _ | t
  · rw [hf] at h
    simp at h
  · rw [hf] at h
    exact (graphWF_deps hwf t (List.mem_of_find?_eq_some hf)).2 u h

/-- Membership in the dependant set, phrased through depsOf. -/
theorem mem_dependants_iff {g : Graph} (hwf : graphWF g = true) (s v : TName) :
    v ∈ dependants g s ↔ v ∈ gNames g ∧ s ∈ depsOf g v := by
  unfold dependants
  rw [List.mem_map]
  constructor
  · rintro ⟨t, htf, rfl⟩
    rw [List.mem_filter] at htf
    obtain ⟨htg, hsd⟩ := htf
    refine ⟨List.mem_map.mpr ⟨t, htg, rfl⟩, ?_⟩
    rw [depsOf_eq hwf t htg]
    simpa using hsd
  · rintro ⟨hv, hs⟩
    obtain ⟨t, htg, rfl⟩ := List.mem_map.mp hv
    rw [depsOf_eq hwf t htg] at hs
    exact ⟨t, List.mem_filter.mpr ⟨htg, by simpa using hs⟩, rfl⟩

/-- A member of the key list has an entry. -/
theorem exists_of_mem_keysA {β : Type} {l : List (TName × β)} {k : TName}
    (h : k ∈ keysA l) : ∃ p ∈ l, p.1 = k := by
  obtain ⟨p, hp, he⟩ := List.mem_map.mp h
  exact ⟨p, hp, he⟩

/-- An entry key is in the key list. -/
theorem mem_keysA_of_mem {β : Type} {l : List (TName × β)} {p : TName × β}
    (h : p ∈ l) : p.1 ∈ keysA l :=
  List.mem_map.mpr ⟨p, h, rfl⟩

/-- The cancel-policy machine preserves the scheduler invariant, for every
policy and seed. -/
theorem applyPolicy_inv {α : Type} {g : Graph} {ω : TName → Outcome α}
    (hwf : graphWF g = true) {st : RunState α} (s : TName) (cp : CancelPolicy)
    (hinv : SchedInv g ω st) : SchedInv g ω (applyPolicy g st s cp) := by
  cases cp with
  | continue_all => exact hinv
  | cancel_all =>
      refine ⟨⟨hinv.pending_inv, hinv.inv_nodup, hinv.inv_names, by simp [applyPolicy, keysA],
        ?_, ?_, ?_, ?_, ?_, hinv.inter_inv, hinv.pending_unrec, ?_, ?_, ?_, ?_,
        hinv.launched_deps, ?_, hinv.delayed_eq, hinv.ev_launch, hinv.ev_record,
        hinv.ev_ok1, hinv.ev_ok2, ?_⟩, ?_, ?_⟩ <;>
        simp only [applyPolicy, List.mem_append]
      · intro p hp
        simp at hp
      · intro p hp
        simp at hp
      · intro p hp
        simp at hp
      · intro t ht
        rcases ht with ht | ht
        · exact hinv.disc_not_inv t ht
        · obtain ⟨p, hp, rfl⟩ := exists_of_mem_keysA ht
          exact hinv.nr_not_inv p hp
      · intro t ht
        rcases ht with ht | ht
        · exact hinv.disc_names t ht
        · obtain ⟨p, hp, rfl⟩ := exists_of_mem_keysA ht
          exact hinv.nr_names p hp
      · intro p hp
        simp at hp
      · intro p hp
        simp at hp
      · intro p hp
        simp at hp
      · intro p hp
        simp at hp
      · intro u hu v hv hdep
        rcases hinv.partition v hv with h | h | h
        · exact .inr (.inr h)
        · exact .inl h
        · exact .inr (.inl h)
      · intro s1 hs1 hdc t hreach
        rcases hinv.c8closed s1 hs1 hdc t hreach with h | h
        · exact .inl h
        · exact .inr (.inl h)
      · intro t ht
        rcases hinv.partition t ht with h | h | h
        · exact .inr (.inr (.inr h))
        · exact .inr (.inl h)
        · exact .inr (.inr (.inl h))
      · intro p hp
        simp at hp
  | discard_not_started =>
      refine ⟨⟨hinv.pending_inv, hinv.inv_nodup, hinv.inv_names, by simp [applyPolicy, keysA],
        ?_, ?_, ?_, ?_, ?_, hinv.inter_inv, hinv.pending_unrec, ?_, ?_, ?_, ?_,
        hinv.launched_deps, ?_, hinv.delayed_eq, hinv.ev_launch, hinv.ev_record,
        hinv.ev_ok1, hinv.ev_ok2, ?_⟩, ?_, ?_⟩ <;>
        simp only [applyPolicy, List.mem_append]
      · intro p hp
        simp at hp
      · intro p hp
        simp at hp
      · intro p hp
        simp at hp
      · intro t ht
        rcases ht with ht | ht
        · exact hinv.disc_not_inv t ht
        · obtain ⟨p, hp, rfl⟩ := exists_of_mem_keysA ht
          exact hinv.nr_not_inv p hp
      · intro t ht
        rcases ht with ht | ht
        · exact hinv.disc_names t ht
        · obtain ⟨p, hp, rfl⟩ := exists_of_mem_keysA ht
          exact hinv.nr_names p hp
      · intro p hp
        simp at hp
      · intro p hp
        simp at hp
      · intro p hp
        simp at hp
      · intro p hp
        simp at hp
      · intro u hu v hv hdep
        rcases hinv.partition v hv with h | h | h
        · exact .inr (.inr h)
        · exact .inl h
        · exact .inr (.inl h)
      · intro s1 hs1 hdc t hreach
        rcases hinv.c8closed s1 hs1 hdc t hreach with h | h
        · exact .inl h
        · exact .inr (.inl h)
      · intro t ht
        rcases hinv.partition t ht with h | h | h
        · exact .inr (.inr (.inr h))
        · exact .inr (.inl h)
        · exact .inr (.inr (.inl h))
      · intro p hp
        simp at hp
  | discard_children =>
      obtain ⟨hp, hseed, hrel⟩ :=
        removeKeysTransitively_post st.notReady (dependants g) s st.discarded
      have hsubE : ∀ q ∈ (removeKeysTransitively st.notReady (dependants g) s st.discarded).1,
          q ∈ st.notReady := fun q hq => hp.sub.subset hq
      have hpart : ∀ t ∈ gNames g,
          t ∈ keysA (removeKeysTransitively st.notReady (dependants g) s st.discarded).1 ∨
          t ∈ st.invTasks ∨
          t ∈ (removeKeysTransitively st.notReady (dependants g) s st.discarded).2 := by
        intro t ht
        rcases hinv.partition t ht with h | h | h
        · rcases hp.cover t h with h1 | h1
          · exact .inl h1
          · exact .inr (.inr h1)
        · exact .inr (.inl h)
        · exact .inr (.inr (hp.sink_mono t h))
      refine ⟨⟨hinv.pending_inv, hinv.inv_nodup, hinv.inv_names, ?_,
        ?_, ?_, ?_, ?_, ?_, hinv.inter_inv, hinv.pending_unrec, ?_, ?_, ?_, ?_,
        hinv.launched_deps, ?_, hinv.delayed_eq, hinv.ev_launch, hinv.ev_record,
        hinv.ev_ok1, hinv.ev_ok2, ?_⟩, ?_, ?_⟩ <;>
        simp only [applyPolicy]
      · exact hinv.nr_nodup.sublist (hp.sub.map Prod.fst)
      · exact fun p hq => hinv.nr_names p (hsubE p hq)
      · exact fun p hq => hinv.nr_not_inv p (hsubE p hq)
      · intro p hq hmem
        by_cases hold : p.1 ∈ st.discarded
        · exact hinv.nr_not_disc p (hsubE p hq) hold
        · exact hp.new_removed p.1 hmem hold (mem_keysA_of_mem hq)
      · intro t ht
        rcases hp.sink_from t ht with h | h
        · exact hinv.disc_not_inv t h
        · obtain ⟨p, hq, rfl⟩ := exists_of_mem_keysA h
          exact hinv.nr_not_inv p hq
      · intro t ht
        rcases hp.sink_from t ht with h | h
        · exact hinv.disc_names t h
        · obtain ⟨p, hq, rfl⟩ := exists_of_mem_keysA h
          exact hinv.nr_names p hq
      · exact fun p hq => hinv.waiting_sub p (hsubE p hq)
      · exact fun p hq => hinv.waiting_nodup p (hsubE p hq)
      · exact fun p hq => hinv.waiting_ne p (hsubE p hq)
      · exact fun p hq => hinv.waiting_rec p (hsubE p hq)
      · intro u hu v hv hdep
        by_cases hold : u ∈ st.discarded
        · rcases hinv.disc_closure u hold v hv hdep with h | h
          · exact .inl h
          · exact .inr (hp.sink_mono v h)
        · have hvd : v ∈ dependants g u := (mem_dependants_iff hwf u v).mpr ⟨hv, hdep⟩
          have hnv := hp.closure u hu hold v hvd
          rcases hpart v hv with h | h | h
          · exact absurd h hnv
          · exact .inl h
          · exact .inr h
      · intro s1 hs1 hdc t hreach
        rcases hinv.c8closed s1 hs1 hdc t hreach with h | h
        · exact .inl h
        · exact .inr (hp.sink_mono t h)
      · exact hpart
      · exact fun p hq => hinv.waiting_unrec p (hsubE p hq)


/-- Along a dependency path from a launched template, the target is recorded
(unless the path is trivial): a launched template has all its dependencies
recorded, and recorded templates are launched. -/
theorem reach_launched_recorded {α : Type} {g : Graph} {ω : TName → Outcome α}
    {st : RunState α} (hinv : SchedInv g ω st) {u s : TName}
    (hreach : DepReach g u s) :
    u ∈ st.invTasks → s = u ∨ s ∈ keysA st.intermediary := by
  induction hreach with
  | refl =>
      intro _
      exact .inl rfl
  | step hw hr ih =>
      rename_i t w
      intro hu
      have hwrec : w ∈ keysA st.intermediary := hinv.launched_deps t hu w hw
      have hwinv : w ∈ st.invTasks := by
        obtain ⟨p, hpmem, rfl⟩ := exists_of_mem_keysA hwrec
        exact hinv.inter_inv p hpmem
      rcases ih hwinv with rfl | h
      · exact .inr hwrec
      · exact .inr h

/-- Applying discard_children seeded at a just-completed template s discards
every not-yet-launched template from which s is reachable via the dependency
relation. -/
theorem discard_children_reach {α : Type} {g : Graph} {ω : TName → Outcome α}
    (hwf : graphWF g = true) {st : RunState α} {s : TName}
    (hinv : SchedInv g ω st) (hsinv : s ∈ st.invTasks)
    (hsrec : s ∉ keysA st.intermediary) :
    ∀ t, DepReach g t s →
      t ∈ st.invTasks ∨
      t ∈ (applyPolicy g st s CancelPolicy.discard_children).discarded := by
  obtain ⟨hp, hseed, hrel⟩ :=
    removeKeysTransitively_post st.notReady (dependants g) s st.discarded
  have hpol := applyPolicy_inv hwf s CancelPolicy.discard_children hinv
  intro t hreach
  induction hreach with
  | refl => exact .inl hsinv
  | step hw hr ih =>
      rename_i t0 w
      by_cases ht : t0 ∈ st.invTasks
      · exact .inl ht
      have htg : t0 ∈ gNames g := mem_gNames_of_depsOf hw
      rcases hpol.partition t0 htg with hnr | hinv2 | hdisc
      · exfalso
        rcases ih with hwin | hwdisc
        · rcases reach_launched_recorded hinv hr hwin with rfl | habs
          · have hdep : t0 ∈ dependants g s := (mem_dependants_iff hwf s t0).mpr ⟨htg, hw⟩
            simp only [applyPolicy] at hnr
            exact hrel t0 hdep hnr
          · exact hsrec habs
        · simp only [applyPolicy] at hwdisc hnr
          by_cases hwold : w ∈ st.discarded
          · rcases hinv.disc_closure w hwold t0 htg hw with h | h
            · exact ht h
            · obtain ⟨p, hpm, rfl⟩ := exists_of_mem_keysA hnr
              exact hinv.nr_not_disc p (hp.sub.subset hpm) h
          · have hcl := hp.closure w hwdisc hwold t0
              ((mem_dependants_iff hwf w t0).mpr ⟨htg, hw⟩)
            exact hcl hnr
      · exact .inl hinv2
      · exact .inr hdisc

/-- lookupA results are entries. -/
theorem lookupA_mem {β : Type} {l : List (TName × β)} {k : TName} {w : β}
    (h : lookupA l k = some w) : (k, w) ∈ l := by
  induction l with
  | nil => simp [lookupA] at h
  | cons p rest ih =>
      obtain ⟨k1, v⟩ := p
      by_cases hk : k1 = k
      · simp only [lookupA, if_pos hk] at h
        injection h with h
        rw [← hk, ← h]
        exact List.mem_cons_self _ _
      · simp only [lookupA, if_neg hk] at h
        exact List.mem_cons_of_mem _ (ih h)

/-- setWaiting does not change the key list. -/
theorem keysA_setWaiting (l : List (TName × List TName)) (v : TName) (w1 : List TName) :
    keysA (setWaiting l v w1) = keysA l := by
  induction l with
  | nil => rfl
  | cons p rest ih =>
      obtain ⟨k, w⟩ := p
      by_cases hk : k = v <;>
        simp only [setWaiting, hk, if_pos, if_neg, keysA, List.map_cons] <;>
        simp_all [keysA]

/-- Entries after setWaiting: old entries at other keys, the new waiting set at
the touched key. -/
theorem mem_setWaiting {l : List (TName × List TName)} {v : TName} {w1 : List TName}
    {p : TName × List TName} (h : p ∈ setWaiting l v w1) :
    (p ∈ l ∧ p.1 ≠ v) ∨ (p.1 = v ∧ p.2 = w1 ∧ ∃ w0, (v, w0) ∈ l) := by
  induction l with
  | nil => simp [setWaiting] at h
  | cons q rest ih =>
      obtain ⟨k, w⟩ := q
      by_cases hk : k = v
      · simp only [setWaiting, if_pos hk, List.mem_cons] at h
        rcases h with heq | h
        · subst heq
          exact .inr ⟨hk ▸ rfl, rfl, w, hk ▸ List.mem_cons_self _ _⟩
        · rcases ih h with ⟨hm, hne⟩ | ⟨he, hw, w0, hm⟩
          · exact .inl ⟨List.mem_cons_of_mem _ hm, hne⟩
          · exact .inr ⟨he, hw, w0, List.mem_cons_of_mem _ hm⟩
      · simp only [setWaiting, if_neg hk, List.mem_cons] at h
        rcases h with heq | h
        · subst heq
          exact .inl ⟨List.mem_cons_self _ _, hk⟩
        · rcases ih h with ⟨hm, hne⟩ | ⟨he, hw, w0, hm⟩
          · exact .inl ⟨List.mem_cons_of_mem _ hm, hne⟩
          · exact .inr ⟨he, hw, w0, List.mem_cons_of_mem _ hm⟩

/-- Splitting a cons along an append-cons decomposition. -/
theorem cons_eq_append_cons {γ : Type} {a b : γ} {l pre post : List γ}
    (h : a :: l = pre ++ b :: post) :
    (pre = [] ∧ a = b ∧ l = post) ∨ ∃ pre1, pre = a :: pre1 ∧ l = pre1 ++ b :: post := by
  cases pre with
  | nil =>
      simp only [List.nil_append, List.cons.injEq] at h
      exact .inl ⟨rfl, h.1, h.2⟩
  | cons x pre1 =>
      simp only [List.cons_append, List.cons.injEq] at h
      exact .inr ⟨pre1, by rw [h.1], h.2⟩

/-- Intermediary keys are launched templates. -/
theorem interKeys_inv {α : Type} {g : Graph} {ω : TName → Outcome α}
    {st : RunState α} (hinv : InvBase g ω st) {x : TName}
    (hx : x ∈ keysA st.intermediary) : x ∈ st.invTasks := by
  obtain ⟨p, hp, rfl⟩ := exists_of_mem_keysA hx
  exact hinv.inter_inv p hp

/-- One step of the dependant loop preserves the loop invariant. -/
theorem advanceOne_adv {α : Type} {g : Graph} {ω : TName → Outcome α}
    (hwf : graphWF g = true) {s v : TName} {vs : List TName} {st : RunState α}
    (hs : s ∈ keysA st.intermediary)
    (hadv : AdvInv g ω s (v :: vs) st) :
    AdvInv g ω s vs (advanceOne st s v) := by
  unfold advanceOne
  rcases hl : lookupA st.notReady v with _ | w
  · refine ⟨hadv.toInvBase, hadv.partition, ?_⟩
    intro p hp u hu hurec
    obtain ⟨rfl, hmem⟩ := hadv.waiting_unrec2 p hp u hu hurec
    refine ⟨rfl, ?_⟩
    rcases List.mem_cons.mp hmem with heq | hmem2
    · exfalso
      have : lookupA st.notReady v ≠ none :=
        (lookupA_ne_none_iff _ _).mpr (heq ▸ mem_keysA_of_mem hp)
      exact this hl
    · exact hmem2
  · have hvw : (v, w) ∈ st.notReady := lookupA_mem hl
    have hwnd : w.Nodup := hadv.waiting_nodup _ hvw
    have hvg : v ∈ gNames g := hadv.nr_names _ hvw
    have hvKinv : v ∉ st.invTasks := hadv.nr_not_inv _ hvw
    have hvKdisc : v ∉ st.discarded := hadv.nr_not_disc _ hvw
    by_cases hempty : (w.erase s).isEmpty
    · simp only [hempty, if_true]
      have herase : w.erase s = [] := by simpa using hempty
      have hw_sub_s : ∀ x ∈ w, x = s := by
        intro x hx
        by_contra hne
        have : x ∈ w.erase s := (List.mem_erase_of_ne hne).mpr hx
        rw [herase] at this
        simp at this
      have hvdeps : ∀ u ∈ depsOf g v, u ∈ keysA st.intermediary := by
        intro u hu
        by_cases huw : u ∈ w
        · rw [hw_sub_s u huw]
          exact hs
        · exact hadv.waiting_rec _ hvw u hu huw
      have hfsub : ∀ p ∈ st.notReady.filter (fun p => p.1 ≠ v), p ∈ st.notReady ∧ p.1 ≠ v := by
        intro p hp
        have := List.mem_filter.mp hp
        exact ⟨this.1, by simpa using this.2⟩
      refine ⟨⟨?_, ?_, ?_, ?_, ?_, ?_, ?_, ?_, ?_, ?_, ?_, ?_, ?_, ?_, ?_, ?_, ?_, ?_,
        ?_, ?_, ?_, ?_, ?_⟩, ?_, ?_⟩
      · intro t ht
        rcases List.mem_cons.mp ht with rfl | ht
        · exact List.mem_cons_self _ _
        · exact List.mem_cons_of_mem _ (hadv.pending_inv t ht)
      · exact List.nodup_cons.mpr ⟨hvKinv, hadv.inv_nodup⟩
      · intro t ht
        rcases List.mem_cons.mp ht with rfl | ht
        · exact hvg
        · exact hadv.inv_names t ht
      · exact hadv.nr_nodup.sublist ((List.filter_sublist _).map Prod.fst)
      · exact fun p hp => hadv.nr_names p (hfsub p hp).1
      · intro p hp
        obtain ⟨hm, hne⟩ := hfsub p hp
        intro hmem
        rcases List.mem_cons.mp hmem with heq | hmem2
        · exact hne heq
        · exact hadv.nr_not_inv p hm hmem2
      · exact fun p hp => hadv.nr_not_disc p (hfsub p hp).1
      · intro t ht
        intro hmem
        rcases List.mem_cons.mp hmem with rfl | hmem2
        · exact hvKdisc ht
        · exact hadv.disc_not_inv t ht hmem2
      · exact hadv.disc_names
      · exact fun p hp => List.mem_cons_of_mem _ (hadv.inter_inv p hp)
      · intro t ht
        rcases List.mem_cons.mp ht with rfl | ht
        · intro hk
          exact hvKinv (interKeys_inv hadv.toInvBase hk)
        · exact hadv.pending_unrec t ht
      · exact fun p hp => hadv.waiting_sub p (hfsub p hp).1
      · exact fun p hp => hadv.waiting_nodup p (hfsub p hp).1
      · exact fun p hp => hadv.waiting_ne p (hfsub p hp).1
      · exact fun p hp => hadv.waiting_rec p (hfsub p hp).1
      · intro t ht
        rcases List.mem_cons.mp ht with rfl | ht
        · exact hvdeps
        · exact hadv.launched_deps t ht
      · intro u hu v1 hv1 hdep
        rcases hadv.disc_closure u hu v1 hv1 hdep with h | h
        · exact .inl (List.mem_cons_of_mem _ h)
        · exact .inr h
      · exact hadv.delayed_eq
      · show List.filterMap evLaunchName (TaskEvent.launch v :: st.events) = v :: st.invTasks
        rw [List.filterMap_cons]
        simp only [evLaunchName]
        rw [hadv.ev_launch]
      · show List.filterMap evRecordName (TaskEvent.launch v :: st.events) = keysA st.intermediary
        rw [List.filterMap_cons]
        simp only [evRecordName]
        rw [hadv.ev_record]
      · intro pre v0 post hsplit u hu
        rcases cons_eq_append_cons hsplit with ⟨hpre, hev, hpost⟩ | ⟨pre1, hpre, hrest⟩
        · injection hev with hev
          subst hev hpost
          exact (record_mem_iff hadv.ev_record u).mpr (hvdeps u hu)
        · exact hadv.ev_ok1 pre1 v0 post hrest u hu
      · intro pre u post hsplit
        rcases cons_eq_append_cons hsplit with ⟨hpre, hev, hpost⟩ | ⟨pre1, hpre, hrest⟩
        · exact absurd hev (by simp)
        · exact hadv.ev_ok2 pre1 u post hrest
      · intro s1 hs1 hdc t hreach
        rcases hadv.c8closed s1 hs1 hdc t hreach with h | h
        · exact .inl (List.mem_cons_of_mem _ h)
        · exact .inr h
      · intro t ht
        rcases hadv.partition t ht with h | h | h
        · by_cases hteq : t = v
          · exact .inr (.inl (hteq ▸ List.mem_cons_self _ _))
          · refine .inl ?_
            obtain ⟨p, hp, rfl⟩ := exists_of_mem_keysA h
            refine mem_keysA_of_mem (List.mem_filter.mpr ⟨hp, by simpa using hteq⟩)
        · exact .inr (.inl (List.mem_cons_of_mem _ h))
        · exact .inr (.inr h)
      · intro p hp u hu hurec
        obtain ⟨hm, hne⟩ := hfsub p hp
        obtain ⟨rfl, hmem⟩ := hadv.waiting_unrec2 p hm u hu hurec
        refine ⟨rfl, ?_⟩
        rcases List.mem_cons.mp hmem with heq | hmem2
        · exact absurd heq hne
        · exact hmem2
    · simp only [hempty, if_false]
      have hne_nil : w.erase s ≠ [] := by
        intro h
        rw [h] at hempty
        simp at hempty
      have hsetE : ∀ p ∈ setWaiting st.notReady v (w.erase s),
          (p ∈ st.notReady ∧ p.1 ≠ v) ∨ (p.1 = v ∧ p.2 = w.erase s) := by
        intro p hp
        rcases mem_setWaiting hp with ⟨hm, hne⟩ | ⟨he, hw, _⟩
        · exact .inl ⟨hm, hne⟩
        · exact .inr ⟨he, hw⟩
      refine ⟨⟨hadv.pending_inv, hadv.inv_nodup, hadv.inv_names, ?_, ?_, ?_, ?_,
        hadv.disc_not_inv, hadv.disc_names, hadv.inter_inv, hadv.pending_unrec,
        ?_, ?_, ?_, ?_, hadv.launched_deps, hadv.disc_closure, hadv.delayed_eq,
        hadv.ev_launch, hadv.ev_record, hadv.ev_ok1, hadv.ev_ok2, hadv.c8closed⟩,
        ?_, ?_⟩
      · show (keysA (setWaiting st.notReady v (w.erase s))).Nodup
        rw [keysA_setWaiting]
        exact hadv.nr_nodup
      · intro p hp
        rcases hsetE p hp with ⟨hm, _⟩ | ⟨he, _⟩
        · exact hadv.nr_names p hm
        · exact he ▸ hvg
      · intro p hp
        rcases hsetE p hp with ⟨hm, _⟩ | ⟨he, _⟩
        · exact hadv.nr_not_inv p hm
        · exact he ▸ hvKinv
      · intro p hp
        rcases hsetE p hp with ⟨hm, _⟩ | ⟨he, _⟩
        · exact hadv.nr_not_disc p hm
        · exact he ▸ hvKdisc
      · intro p hp u hu
        rcases hsetE p hp with ⟨hm, _⟩ | ⟨he, hw⟩
        · exact hadv.waiting_sub p hm u hu
        · rw [hw] at hu
          exact he ▸ hadv.waiting_sub _ hvw u (List.erase_subset _ _ hu)
      · intro p hp
        rcases hsetE p hp with ⟨hm, _⟩ | ⟨_, hw⟩
        · exact hadv.waiting_nodup p hm
        · rw [hw]
          exact hwnd.erase s
      · intro p hp
        rcases hsetE p hp with ⟨hm, _⟩ | ⟨_, hw⟩
        · exact hadv.waiting_ne p hm
        · rw [hw]
          exact hne_nil
      · intro p hp u hu hnw
        rcases hsetE p hp with ⟨hm, _⟩ | ⟨he, hw⟩
        · exact hadv.waiting_rec p hm u hu hnw
        · by_cases hus : u = s
          · exact hus ▸ hs
          · refine hadv.waiting_rec _ hvw u (he ▸ hu) ?_
            intro huw
            rw [hw] at hnw
            exact hnw ((List.mem_erase_of_ne hus).mpr huw)
      · intro t ht
        rcases hadv.partition t ht with h | h | h
        · refine .inl ?_
          show t ∈ keysA (setWaiting st.notReady v (w.erase s))
          rw [keysA_setWaiting]
          exact h
        · exact .inr (.inl h)
        · exact .inr (.inr h)
      · intro p hp u hu hurec
        rcases hsetE p hp with ⟨hm, hne⟩ | ⟨he, hw⟩
        · obtain ⟨rfl, hmem⟩ := hadv.waiting_unrec2 p hm u hu hurec
          refine ⟨rfl, ?_⟩
          rcases List.mem_cons.mp hmem with heq | hmem2
          · exact absurd heq hne
          · exact hmem2
        · exfalso
          rw [hw] at hu
          obtain ⟨rfl, -⟩ := hadv.waiting_unrec2 (v, w) hvw u (List.erase_subset _ _ hu) hurec
          exact ((hwnd.mem_erase_iff).mp hu).1 rfl

/-- advanceOne leaves the intermediary, discarded set and delayed exception
unchanged. -/
theorem advanceOne_effects {α : Type} (st : RunState α) (s v : TName) :
    (advanceOne st s v).intermediary = st.intermediary ∧
    (advanceOne st s v).discarded = st.discarded ∧
    (advanceOne st s v).delayed = st.delayed := by
  unfold advanceOne
  rcases lookupA st.notReady v with _ | w
  · exact ⟨rfl, rfl, rfl⟩
  · by_cases hempty : (w.erase s).isEmpty <;> simp [hempty, launchTask]

/-- advanceOne only grows the launched set. -/
theorem advanceOne_inv_mono {α : Type} (st : RunState α) (s v : TName) :
    ∀ t ∈ st.invTasks, t ∈ (advanceOne st s v).invTasks := by
  unfold advanceOne
  rcases lookupA st.notReady v with _ | w
  · exact fun t ht => ht
  · by_cases hempty : (w.erase s).isEmpty <;> simp only [hempty, if_true, if_false]
    · exact fun t ht => List.mem_cons_of_mem _ ht
    · exact fun t ht => ht

/-- New pending tasks of advanceOne were not launched before. -/
theorem advanceOne_pending {α : Type} (st : RunState α) (s v : TName)
    (hinv : ∀ p ∈ st.notReady, p.1 ∉ st.invTasks) :
    ∀ t ∈ (advanceOne st s v).pending, t ∈ st.pending ∨ t ∉ st.invTasks := by
  unfold advanceOne
  rcases hl : lookupA st.notReady v with _ | w
  · exact fun t ht => .inl ht
  · by_cases hempty : (w.erase s).isEmpty <;> simp only [hempty, if_true, if_false]
    · intro t ht
      rcases List.mem_cons.mp ht with rfl | ht
      · exact .inr (hinv _ (lookupA_mem hl))
      · exact .inl ht
    · exact fun t ht => .inl ht

/-- advanceAll leaves the intermediary unchanged. -/
theorem advanceAll_inter {α : Type} (vs : List TName) (st : RunState α) (s : TName) :
    (advanceAll st s vs).intermediary = st.intermediary := by
  induction vs generalizing st with
  | nil => rfl
  | cons v rest ih =>
      show (advanceAll (advanceOne st s v) s rest).intermediary = _
      rw [ih, (advanceOne_effects st s v).1]

/-- advanceAll only grows the launched set. -/
theorem advanceAll_inv_mono {α : Type} (vs : List TName) (st : RunState α) (s : TName) :
    ∀ t ∈ st.invTasks, t ∈ (advanceAll st s vs).invTasks := by
  induction vs generalizing st with
  | nil => exact fun t ht => ht
  | cons v rest ih =>
      exact fun t ht => ih (advanceOne st s v) t (advanceOne_inv_mono st s v t ht)

/-- advanceOne preserves the fact that waiting templates are unlaunched. -/
theorem advanceOne_nr_pres {α : Type} (st : RunState α) (s v : TName)
    (hinv : ∀ p ∈ st.notReady, p.1 ∉ st.invTasks) :
    ∀ p ∈ (advanceOne st s v).notReady, p.1 ∉ (advanceOne st s v).invTasks := by
  unfold advanceOne
  rcases hl : lookupA st.notReady v with _ | w
  · exact hinv
  · by_cases hempty : (w.erase s).isEmpty <;> simp only [hempty, if_true, if_false]
    · intro p hp
      have hf := List.mem_filter.mp hp
      have hne : p.1 ≠ v := by simpa using hf.2
      intro hmem
      rcases List.mem_cons.mp hmem with heq | hmem2
      · exact hne heq
      · exact hinv p hf.1 hmem2
    · intro p hp
      rcases mem_setWaiting hp with ⟨hm, _⟩ | ⟨he, _, w0, hm⟩
      · exact hinv p hm
      · rw [he]
        exact hinv (v, w0) hm

/-- New pending tasks of advanceAll were not launched before it ran. -/
theorem advanceAll_pending {α : Type} (vs : List TName) (st : RunState α) (s : TName)
    (hinv : ∀ p ∈ st.notReady, p.1 ∉ st.invTasks) :
    ∀ t ∈ (advanceAll st s vs).pending, t ∈ st.pending ∨ t ∉ st.invTasks := by
  induction vs generalizing st with
  | nil => exact fun t ht => .inl ht
  | cons v rest ih =>
      intro t ht
      have hstep := ih (advanceOne st s v) (advanceOne_nr_pres st s v hinv) t ht
      rcases hstep with h | h
      · exact advanceOne_pending st s v hinv t h
      · refine .inr ?_
        intro hmem
        exact h (advanceOne_inv_mono st s v t hmem)

/-- The first propagated exception across an append of completion orders. -/
theorem firstPropagateExc_append {α : Type} (ω : TName → Outcome α)
    (l1 l2 : List TName) :
    firstPropagateExc ω (l1 ++ l2) =
      orElseO (firstPropagateExc ω l1) (firstPropagateExc ω l2) := by
  induction l1 with
  | nil => simp [firstPropagateExc, orElseO]
  | cons t rest ih =>
      simp only [List.cons_append, firstPropagateExc, List.findSome?_cons] at ih ⊢
      rcases propagateExcOf (ω t) with _ | e
      · exact ih
      · rfl

/-- The first propagated exception of a single completion. -/
theorem firstPropagateExc_singleton {α : Type} (ω : TName → Outcome α) (s : TName) :
    firstPropagateExc ω [s] = propagateExcOf (ω s) := by
  simp only [firstPropagateExc, List.findSome?_cons]
  rcases propagateExcOf (ω s) with _ | e <;> simp [List.findSome?]

/-- applyPolicy never touches the pending set, the launched set, the
intermediary, the delayed exception or the event trace. -/
theorem applyPolicy_effects {α : Type} (g : Graph) (st : RunState α) (s : TName)
    (cp : CancelPolicy) :
    (applyPolicy g st s cp).pending = st.pending ∧
    (applyPolicy g st s cp).invTasks = st.invTasks ∧
    (applyPolicy g st s cp).intermediary = st.intermediary ∧
    (applyPolicy g st s cp).delayed = st.delayed ∧
    (applyPolicy g st s cp).events = st.events := by
  cases cp <;> exact ⟨rfl, rfl, rfl, rfl, rfl⟩

/-- Recording the outcome of a just-completed template s (with the delayed
exception updated by its propagated error, if any) yields the dependant-loop
invariant for the loop over dependants g s. -/
theorem record_adv {α : Type} {g : Graph} {ω : TName → Outcome α}
    (hwf : graphWF g = true) {st1 : RunState α} {s : TName} (val : α) (d2 : Option α)
    (hinv : SchedInv g ω st1)
    (hs_inv : s ∈ st1.invTasks) (hs_rec : s ∉ keysA st1.intermediary)
    (hs_pend : s ∉ st1.pending)
    (hd2 : d2 = orElseO st1.delayed (propagateExcOf (ω s)))
    (hc8new : isDiscardChildrenPost (ω s) = true →
      ∀ t, DepReach g t s → t ∈ st1.invTasks ∨ t ∈ st1.discarded) :
    AdvInv g ω s (dependants g s) (recordOutcome { st1 with delayed := d2 } s val) := by
  refine ⟨⟨hinv.pending_inv, hinv.inv_nodup, hinv.inv_names, hinv.nr_nodup,
    hinv.nr_names, hinv.nr_not_inv, hinv.nr_not_disc, hinv.disc_not_inv,
    hinv.disc_names, ?_, ?_, hinv.waiting_sub, hinv.waiting_nodup, hinv.waiting_ne,
    ?_, ?_, hinv.disc_closure, ?_, ?_, ?_, ?_, ?_, ?_⟩, hinv.partition, ?_⟩
  · intro p hp
    rcases List.mem_cons.mp hp with heq | hp2
    · rw [heq]
      exact hs_inv
    · exact hinv.inter_inv p hp2
  · intro t ht hmem
    have hmem2 : t ∈ s :: keysA st1.intermediary := hmem
    rcases List.mem_cons.mp hmem2 with heq | hmem3
    · exact hs_pend (heq ▸ ht)
    · exact hinv.pending_unrec t ht hmem3
  · intro p hp u hu hnw
    exact List.mem_cons_of_mem _ (hinv.waiting_rec p hp u hu hnw)
  · intro t ht u hu
    exact List.mem_cons_of_mem _ (hinv.launched_deps t ht u hu)
  · show d2 = firstPropagateExc ω (keysA ((s, val) :: st1.intermediary)).reverse
    show d2 = firstPropagateExc ω (s :: keysA st1.intermediary).reverse
    rw [List.reverse_cons, firstPropagateExc_append, firstPropagateExc_singleton,
      hd2, hinv.delayed_eq]
  · show List.filterMap evLaunchName (TaskEvent.record s :: st1.events) = st1.invTasks
    rw [List.filterMap_cons]
    simp only [evLaunchName]
    exact hinv.ev_launch
  · show List.filterMap evRecordName (TaskEvent.record s :: st1.events) =
      keysA ((s, val) :: st1.intermediary)
    rw [List.filterMap_cons]
    simp only [evRecordName]
    show s :: List.filterMap evRecordName st1.events = s :: keysA st1.intermediary
    rw [hinv.ev_record]
  · intro pre v0 post hsplit u hu
    rcases cons_eq_append_cons hsplit with ⟨hpre, hev, hpost⟩ | ⟨pre1, hpre, hrest⟩
    · exact absurd hev (by simp)
    · exact hinv.ev_ok1 pre1 v0 post hrest u hu
  · intro pre u post hsplit
    rcases cons_eq_append_cons hsplit with ⟨hpre, hev, hpost⟩ | ⟨pre1, hpre, hrest⟩
    · injection hev with hev
      rw [← hpost, ← hev]
      exact (launch_mem_iff hinv.ev_launch s).mpr hs_inv
    · exact hinv.ev_ok2 pre1 u post hrest
  · intro s1 hs1 hdc t hreach
    show t ∈ st1.invTasks ∨ t ∈ st1.discarded
    rcases List.mem_cons.mp hs1 with heq | hs2
    · subst heq
      exact hc8new hdc t hreach
    · exact hinv.c8closed s1 hs2 hdc t hreach
  · intro p hp u hu hurec
    rcases List.mem_cons.mp hurec with heq | hurec2
    · subst heq
      refine ⟨rfl, ?_⟩
      refine (mem_dependants_iff hwf u p.1).mpr ⟨hinv.nr_names p hp, ?_⟩
      exact hinv.waiting_sub p hp u hu
    · exact absurd hurec2 (hinv.waiting_unrec p hp u hu)

/-- The dependant loop restores the scheduler invariant. -/
theorem advanceAll_inv {α : Type} {g : Graph} {ω : TName → Outcome α}
    (hwf : graphWF g = true) {s : TName} (vs : List TName) (st : RunState α)
    (hs : s ∈ keysA st.intermediary) (hadv : AdvInv g ω s vs st) :
    SchedInv g ω (advanceAll st s vs) := by
  induction vs generalizing st with
  | nil =>
      refine ⟨hadv.toInvBase, hadv.partition, ?_⟩
      intro p hp u hu hurec
      have := (hadv.waiting_unrec2 p hp u hu hurec).2
      simp at this
  | cons v rest ih =>
      show SchedInv g ω (advanceAll (advanceOne st s v) s rest)
      refine ih (advanceOne st s v) ?_ (advanceOne_adv hwf hs hadv)
      have := (advanceOne_effects st s v).1
      show s ∈ keysA (advanceOne st s v).intermediary
      rw [this]
      exact hs

/-- orElseO with a missing second choice. -/
theorem orElseO_none_right {α : Type} (a : Option α) : orElseO a none = a := by
  cases a <;> rfl

/-- Processing one completed task preserves the scheduler invariant. -/
theorem processOne_inv {α : Type} {g : Graph} {ω : TName → Outcome α}
    (hwf : graphWF g = true) {st : RunState α} {s : TName}
    (hinv : SchedInv g ω st) (hs_inv : s ∈ st.invTasks)
    (hs_rec : s ∉ keysA st.intermediary) (hs_pend : s ∉ st.pending) :
    SchedInv g ω (processOne g ω st s) := by
  unfold processOne
  rcases hω : ω s with v | r
  · refine advanceAll_inv hwf (dependants g s) _ (List.mem_cons_self s _) ?_
    refine record_adv hwf v st.delayed hinv hs_inv hs_rec hs_pend ?_ ?_
    · rw [hω]
      simp only [propagateExcOf]
      rw [orElseO_none_right]
    · intro hdc
      rw [hω] at hdc
      simp [isDiscardChildrenPost] at hdc
  · have hinv1 := applyPolicy_inv hwf s r.cancel_policy hinv
    have heff := applyPolicy_effects g st s r.cancel_policy
    have hs_inv1 : s ∈ (applyPolicy g st s r.cancel_policy).invTasks := by
      rw [heff.2.1]
      exact hs_inv
    have hs_rec1 : s ∉ keysA (applyPolicy g st s r.cancel_policy).intermediary := by
      rw [heff.2.2.1]
      exact hs_rec
    have hs_pend1 : s ∉ (applyPolicy g st s r.cancel_policy).pending := by
      rw [heff.1]
      exact hs_pend
    have hc8 : isDiscardChildrenPost (ω s) = true → ∀ t, DepReach g t s →
        t ∈ (applyPolicy g st s r.cancel_policy).invTasks ∨
        t ∈ (applyPolicy g st s r.cancel_policy).discarded := by
      intro hdc
      have hcp : r.cancel_policy = CancelPolicy.discard_children := by
        rw [hω] at hdc
        simpa [isDiscardChildrenPost] using hdc
      rw [hcp]
      intro t hreach
      rcases discard_children_reach hwf hinv hs_inv hs_rec t hreach with h | h
      · refine .inl ?_
        rw [(applyPolicy_effects g st s CancelPolicy.discard_children).2.1]
        exact h
      · exact .inr h
    rcases r with ⟨v, cp⟩ | ⟨e, cp⟩
    · -- ContinueResult v cp
      refine advanceAll_inv hwf (dependants g s) _ (List.mem_cons_self s _) ?_
      refine record_adv hwf v (applyPolicy g st s cp).delayed hinv1 hs_inv1 hs_rec1
        hs_pend1 ?_ hc8
      rw [hω]
      show (applyPolicy g st s cp).delayed = orElseO (applyPolicy g st s cp).delayed none
      rw [orElseO_none_right]
    · -- PropagateError e cp
      have hupd : updateDelayed (applyPolicy g st s cp) e =
          { applyPolicy g st s cp with
            delayed := orElseO (applyPolicy g st s cp).delayed (some e) } := by
        unfold updateDelayed
        rcases hd : (applyPolicy g st s cp).delayed with _ | x
        · rfl
        · show applyPolicy g st s cp = _
          have hred : orElseO (some x) (some e) = some x := rfl
          rw [hred, ← hd]
      show SchedInv g ω (advanceAll
        (recordOutcome (updateDelayed (applyPolicy g st s cp) e) s e) s (dependants g s))
      rw [hupd]
      refine advanceAll_inv hwf (dependants g s) _ (List.mem_cons_self s _) ?_
      refine record_adv hwf e (orElseO (applyPolicy g st s cp).delayed (some e)) hinv1
        hs_inv1 hs_rec1 hs_pend1 ?_ hc8
      rw [hω]
      rfl

/-- updateDelayed only touches the delayed exception. -/
theorem updateDelayed_effects {α : Type} (st : RunState α) (e : α) :
    (updateDelayed st e).pending = st.pending ∧
    (updateDelayed st e).invTasks = st.invTasks ∧
    (updateDelayed st e).intermediary = st.intermediary ∧
    (updateDelayed st e).notReady = st.notReady := by
  unfold updateDelayed
  split <;> exact ⟨rfl, rfl, rfl, rfl⟩

/-- advanceOne only grows the pending set. -/
theorem advanceOne_pending_mono {α : Type} (st : RunState α) (s v : TName) :
    ∀ t ∈ st.pending, t ∈ (advanceOne st s v).pending := by
  unfold advanceOne
  rcases lookupA st.notReady v with _ | w
  · exact fun t ht => ht
  · by_cases hempty : (w.erase s).isEmpty <;> simp only [hempty, if_true, if_false]
    · exact fun t ht => List.mem_cons_of_mem _ ht
    · exact fun t ht => ht

/-- advanceAll only grows the pending set. -/
theorem advanceAll_pending_mono {α : Type} (vs : List TName) (st : RunState α) (s : TName) :
    ∀ t ∈ st.pending, t ∈ (advanceAll st s vs).pending := by
  induction vs generalizing st with
  | nil => exact fun t ht => ht
  | cons v rest ih =>
      exact fun t ht => ih (advanceOne st s v) t (advanceOne_pending_mono st s v t ht)

/-- A task newly launched by advanceOne is pending afterwards. -/
theorem advanceOne_new_inv {α : Type} (st : RunState α) (s v : TName) :
    ∀ t ∈ (advanceOne st s v).invTasks, t ∈ st.invTasks ∨ t ∈ (advanceOne st s v).pending := by
  unfold advanceOne
  rcases lookupA st.notReady v with _ | w
  · exact fun t ht => .inl ht
  · by_cases hempty : (w.erase s).isEmpty <;> simp only [hempty, if_true, if_false]
    · intro t ht
      rcases List.mem_cons.mp ht with rfl | ht
      · exact .inr (List.mem_cons_self _ _)
      · exact .inl ht
    · exact fun t ht => .inl ht

/-- A task newly launched during advanceAll is pending afterwards. -/
theorem advanceAll_new_inv {α : Type} (vs : List TName) (st : RunState α) (s : TName) :
    ∀ t ∈ (advanceAll st s vs).invTasks,
      t ∈ st.invTasks ∨ t ∈ (advanceAll st s vs).pending := by
  induction vs generalizing st with
  | nil => exact fun t ht => .inl ht
  | cons v rest ih =>
      intro t ht
      rcases ih (advanceOne st s v) t ht with h | h
      · rcases advanceOne_new_inv st s v t h with h2 | h2
        · exact .inl h2
        · exact .inr (advanceAll_pending_mono rest (advanceOne st s v) s t h2)
      · exact .inr h

/-- The intermediary keys after processing one task. -/
theorem processOne_inter {α : Type} (g : Graph) (ω : TName → Outcome α)
    (st : RunState α) (s : TName) :
    keysA (processOne g ω st s).intermediary = s :: keysA st.intermediary := by
  unfold processOne
  rcases hω : ω s with v | r
  · rw [advanceAll_inter]
    rfl
  · rcases r with ⟨v, cp⟩ | ⟨e, cp⟩
    · show keysA (advanceAll
        (recordOutcome (applyPolicy g st s cp) s v) s (dependants g s)).intermediary = _
      rw [advanceAll_inter]
      show s :: keysA (applyPolicy g st s cp).intermediary = _
      rw [(applyPolicy_effects g st s cp).2.2.1]
    · show keysA (advanceAll
        (recordOutcome (updateDelayed (applyPolicy g st s cp) e) s e) s
          (dependants g s)).intermediary = _
      rw [advanceAll_inter]
      show s :: keysA (updateDelayed (applyPolicy g st s cp) e).intermediary = _
      rw [(updateDelayed_effects _ _).2.2.1, (applyPolicy_effects g st s cp).2.2.1]

/-- processOne only grows the launched set. -/
theorem processOne_inv_mono {α : Type} (g : Graph) (ω : TName → Outcome α)
    (st : RunState α) (s : TName) :
    ∀ t ∈ st.invTasks, t ∈ (processOne g ω st s).invTasks := by
  unfold processOne
  rcases hω : ω s with v | r
  · exact fun t ht => advanceAll_inv_mono _ _ _ t ht
  · rcases r with ⟨v, cp⟩ | ⟨e, cp⟩
    · intro t ht
      refine advanceAll_inv_mono _ _ _ t ?_
      show t ∈ (applyPolicy g st s cp).invTasks
      rw [(applyPolicy_effects g st s cp).2.1]
      exact ht
    · intro t ht
      refine advanceAll_inv_mono _ _ _ t ?_
      show t ∈ (updateDelayed (applyPolicy g st s cp) e).invTasks
      rw [(updateDelayed_effects _ _).2.1, (applyPolicy_effects g st s cp).2.1]
      exact ht

/-- processOne only grows the pending set. -/
theorem processOne_pending_mono {α : Type} (g : Graph) (ω : TName → Outcome α)
    (st : RunState α) (s : TName) :
    ∀ t ∈ st.pending, t ∈ (processOne g ω st s).pending := by
  unfold processOne
  rcases hω : ω s with v | r
  · exact fun t ht => advanceAll_pending_mono _ _ _ t ht
  · rcases r with ⟨v, cp⟩ | ⟨e, cp⟩
    · intro t ht
      refine advanceAll_pending_mono _ _ _ t ?_
      show t ∈ (applyPolicy g st s cp).pending
      rw [(applyPolicy_effects g st s cp).1]
      exact ht
    · intro t ht
      refine advanceAll_pending_mono _ _ _ t ?_
      show t ∈ (updateDelayed (applyPolicy g st s cp) e).pending
      rw [(updateDelayed_effects _ _).1, (applyPolicy_effects g st s cp).1]
      exact ht

/-- Waiting templates stay unlaunched across applyPolicy. -/
theorem applyPolicy_nr_sub {α : Type} (g : Graph) (st : RunState α) (s : TName)
    (cp : CancelPolicy) :
    ∀ p ∈ (applyPolicy g st s cp).notReady, p ∈ st.notReady := by
  cases cp with
  | cancel_all => intro p hp; simp [applyPolicy] at hp
  | discard_not_started => intro p hp; simp [applyPolicy] at hp
  | continue_all => exact fun p hp => hp
  | discard_children =>
      intro p hp
      obtain ⟨hpost, -, -⟩ :=
        removeKeysTransitively_post st.notReady (dependants g) s st.discarded
      exact hpost.sub.subset hp

/-- New pending tasks of processOne were not launched before it ran. -/
theorem processOne_pending_src {α : Type} (g : Graph) (ω : TName → Outcome α)
    (st : RunState α) (s : TName)
    (hnr : ∀ p ∈ st.notReady, p.1 ∉ st.invTasks) :
    ∀ t ∈ (processOne g ω st s).pending, t ∈ st.pending ∨ t ∉ st.invTasks := by
  unfold processOne
  rcases hω : ω s with v | r
  · exact advanceAll_pending _ _ _ hnr
  · rcases r with ⟨v, cp⟩ | ⟨e, cp⟩
    · intro t ht
      have hnr1 : ∀ p ∈ (recordOutcome (applyPolicy g st s cp) s v).notReady,
          p.1 ∉ (recordOutcome (applyPolicy g st s cp) s v).invTasks := by
        intro p hp
        show p.1 ∉ (applyPolicy g st s cp).invTasks
        rw [(applyPolicy_effects g st s cp).2.1]
        exact hnr p (applyPolicy_nr_sub g st s cp p hp)
      rcases advanceAll_pending (dependants g s) _ s hnr1 t ht with h | h
      · have h2 : t ∈ (applyPolicy g st s cp).pending := h
        rw [(applyPolicy_effects g st s cp).1] at h2
        exact .inl h2
      · refine .inr ?_
        intro hmem
        refine h ?_
        show t ∈ (applyPolicy g st s cp).invTasks
        rw [(applyPolicy_effects g st s cp).2.1]
        exact hmem
    · intro t ht
      have hnr1 : ∀ p ∈ (recordOutcome (updateDelayed (applyPolicy g st s cp) e) s e).notReady,
          p.1 ∉ (recordOutcome (updateDelayed (applyPolicy g st s cp) e) s e).invTasks := by
        intro p hp
        show p.1 ∉ (updateDelayed (applyPolicy g st s cp) e).invTasks
        rw [(updateDelayed_effects _ _).2.1, (applyPolicy_effects g st s cp).2.1]
        have hp2 : p ∈ (updateDelayed (applyPolicy g st s cp) e).notReady := hp
        rw [(updateDelayed_effects _ _).2.2.2] at hp2
        exact hnr p (applyPolicy_nr_sub g st s cp p hp2)
      rcases advanceAll_pending (dependants g s) _ s hnr1 t ht with h | h
      · have h2 : t ∈ (updateDelayed (applyPolicy g st s cp) e).pending := h
        rw [(updateDelayed_effects _ _).1, (applyPolicy_effects g st s cp).1] at h2
        exact .inl h2
      · refine .inr ?_
        intro hmem
        refine h ?_
        show t ∈ (updateDelayed (applyPolicy g st s cp) e).invTasks
        rw [(updateDelayed_effects _ _).2.1, (applyPolicy_effects g st s cp).2.1]
        exact hmem

/-- A task newly launched by processOne is pending afterwards. -/
theorem processOne_new_inv {α : Type} (g : Graph) (ω : TName → Outcome α)
    (st : RunState α) (s : TName) :
    ∀ t ∈ (processOne g ω st s).invTasks,
      t ∈ st.invTasks ∨ t ∈ (processOne g ω st s).pending := by
  unfold processOne
  rcases hω : ω s with v | r
  · exact advanceAll_new_inv _ _ _
  · rcases r with ⟨v, cp⟩ | ⟨e, cp⟩
    · intro t ht
      rcases advanceAll_new_inv (dependants g s)
          (recordOutcome (applyPolicy g st s cp) s v) s t ht with h | h
      · have h2 : t ∈ (applyPolicy g st s cp).invTasks := h
        rw [(applyPolicy_effects g st s cp).2.1] at h2
        exact .inl h2
      · exact .inr h
    · intro t ht
      rcases advanceAll_new_inv (dependants g s)
          (recordOutcome (updateDelayed (applyPolicy g st s cp) e) s e) s t ht with h | h
      · have h2 : t ∈ (updateDelayed (applyPolicy g st s cp) e).invTasks := h
        rw [(updateDelayed_effects _ _).2.1, (applyPolicy_effects g st s cp).2.1] at h2
        exact .inl h2
      · exact .inr h

/-- Processing a duplicate-free batch of completed, not-yet-recorded tasks
preserves the invariant; the processed tasks become exactly the new recorded
keys, and every newly pending task is freshly launched. -/
theorem processAll_inv {α : Type} {g : Graph} {ω : TName → Outcome α}
    (hwf : graphWF g = true) (done : List TName) (st : RunState α)
    (hinv : SchedInv g ω st) (hnd : done.Nodup)
    (hconds : ∀ t ∈ done, t ∈ st.invTasks ∧ t ∉ keysA st.intermediary ∧ t ∉ st.pending) :
    SchedInv g ω (processAll g ω st done) ∧
    (∀ t ∈ st.invTasks, t ∈ (processAll g ω st done).invTasks) ∧
    (∀ t, t ∈ keysA (processAll g ω st done).intermediary ↔
      t ∈ done ∨ t ∈ keysA st.intermediary) ∧
    (∀ t ∈ st.pending, t ∈ (processAll g ω st done).pending) ∧
    (∀ t ∈ (processAll g ω st done).pending, t ∈ st.pending ∨ t ∉ st.invTasks) ∧
    (∀ t ∈ (processAll g ω st done).invTasks,
      t ∈ st.invTasks ∨ t ∈ (processAll g ω st done).pending) := by
  induction done generalizing st with
  | nil =>
      refine ⟨hinv, fun t ht => ht, fun t => ?_, fun t ht => ht,
        fun t ht => .inl ht, fun t ht => .inl ht⟩
      show t ∈ keysA st.intermediary ↔ t ∈ ([] : List TName) ∨ t ∈ keysA st.intermediary
      simp
  | cons s rest ih =>
      obtain ⟨hs_inv, hs_rec, hs_pend⟩ := hconds s (List.mem_cons_self _ _)
      have hinv1 := processOne_inv hwf hinv hs_inv hs_rec hs_pend
      have hnd1 : rest.Nodup := (List.nodup_cons.mp hnd).2
      have hsrest : s ∉ rest := (List.nodup_cons.mp hnd).1
      have hconds1 : ∀ t ∈ rest, t ∈ (processOne g ω st s).invTasks ∧
          t ∉ keysA (processOne g ω st s).intermediary ∧
          t ∉ (processOne g ω st s).pending := by
        intro t ht
        obtain ⟨h1, h2, h3⟩ := hconds t (List.mem_cons_of_mem _ ht)
        refine ⟨processOne_inv_mono g ω st s t h1, ?_, ?_⟩
        · rw [processOne_inter]
          intro hmem
          rcases List.mem_cons.mp hmem with rfl | hmem2
          · exact hsrest ht
          · exact h2 hmem2
        · intro hmem
          rcases processOne_pending_src g ω st s hinv.nr_not_inv t hmem with h | h
          · exact h3 h
          · exact h h1
      obtain ⟨ha, hb, hc, hd, he, hf⟩ := ih (processOne g ω st s) hinv1 hnd1 hconds1
      refine ⟨ha, ?_, ?_, ?_, ?_, ?_⟩
      · exact fun t ht => hb t (processOne_inv_mono g ω st s t ht)
      · intro t
        show t ∈ keysA (processAll g ω (processOne g ω st s) rest).intermediary ↔ _
        rw [hc t, processOne_inter]
        simp only [List.mem_cons]
        tauto
      · exact fun t ht => hd t (processOne_pending_mono g ω st s t ht)
      · intro t ht
        rcases he t ht with h | h
        · rcases processOne_pending_src g ω st s hinv.nr_not_inv t h with h2 | h2
          · exact .inl h2
          · exact .inr h2
        · refine .inr ?_
          intro hmem
          exact h (processOne_inv_mono g ω st s t hmem)
      · intro t ht
        rcases hf t ht with h | h
        · rcases processOne_new_inv g ω st s t h with h2 | h2
          · exact .inl h2
          · exact .inr (hd t h2)
        · exact .inr h

/-- One wake-up of the scheduler preserves the invariant and the top-level
accounting of launched tasks. -/
theorem processBatch_inv {α : Type} {g : Graph} {ω : TName → Outcome α}
    (hwf : graphWF g = true) {st : RunState α} {done : List TName}
    (hinv : SchedInv g ω st) (hlp : launchedProcessed st)
    (hnd : done.Nodup) (hsub : ∀ x ∈ done, x ∈ st.pending) :
    SchedInv g ω (processBatch g ω st done) ∧
      launchedProcessed (processBatch g ω st done) := by
  set st0 : RunState α := { st with pending := st.pending.filter (fun t => t ∉ done) }
    with hst0
  have hsubp : ∀ t ∈ st0.pending, t ∈ st.pending := by
    intro t ht
    exact (List.mem_filter.mp ht).1
  have hinv0 : SchedInv g ω st0 := by
    refine ⟨⟨?_, hinv.inv_nodup, hinv.inv_names, hinv.nr_nodup, hinv.nr_names,
      hinv.nr_not_inv, hinv.nr_not_disc, hinv.disc_not_inv, hinv.disc_names,
      hinv.inter_inv, ?_, hinv.waiting_sub, hinv.waiting_nodup, hinv.waiting_ne,
      hinv.waiting_rec, hinv.launched_deps, hinv.disc_closure, hinv.delayed_eq,
      hinv.ev_launch, hinv.ev_record, hinv.ev_ok1, hinv.ev_ok2, hinv.c8closed⟩,
      hinv.partition, hinv.waiting_unrec⟩
    · exact fun t ht => hinv.pending_inv t (hsubp t ht)
    · exact fun t ht => hinv.pending_unrec t (hsubp t ht)
  have hconds : ∀ t ∈ done, t ∈ st0.invTasks ∧ t ∉ keysA st0.intermediary ∧
      t ∉ st0.pending := by
    intro t ht
    refine ⟨hinv.pending_inv t (hsub t ht), hinv.pending_unrec t (hsub t ht), ?_⟩
    intro hmem
    have := (List.mem_filter.mp hmem).2
    simp only [decide_eq_true_eq] at this
    exact this ht
  obtain ⟨ha, hb, hc, hd, he, hf⟩ := processAll_inv hwf done st0 hinv0 hnd hconds
  refine ⟨ha, ?_⟩
  intro t ht
  rcases hf t ht with h | h
  · -- t was launched before the batch
    have htst : t ∈ st.invTasks := h
    rcases hlp t htst with hpend | hrec
    · by_cases hdone : t ∈ done
      · exact .inr ((hc t).mpr (.inl hdone))
      · refine .inl (hd t ?_)
        exact List.mem_filter.mpr ⟨hpend, by simpa using hdone⟩
    · exact .inr ((hc t).mpr (.inr hrec))
  · exact .inl h

/-- A sibling cancellation preserves the scheduler invariant and the top-level
accounting: its only state effect is a transitive discard of waiting
templates, identical to a discard_children application seeded at the
cancelled template. -/
theorem siblingCancel_inv {α : Type} {g : Graph} {ω : TName → Outcome α}
    (hwf : graphWF g = true) {st : RunState α} (t : TName)
    (hinv : SchedInv g ω st) (hlp : launchedProcessed st) :
    SchedInv g ω (siblingCancelStep g st t) ∧
      launchedProcessed (siblingCancelStep g st t) := by
  unfold siblingCancelStep
  by_cases h1 : t ∈ st.discarded
  · rw [if_pos h1]
    exact ⟨hinv, hlp⟩
  · rw [if_neg h1]
    by_cases h2 : t ∈ st.invTasks
    · rw [if_pos h2]
      exact ⟨hinv, hlp⟩
    · rw [if_neg h2]
      refine ⟨applyPolicy_inv hwf t CancelPolicy.discard_children hinv, ?_⟩
      intro x hx
      exact hlp x hx

/-- The initial partition establishes the invariant: dependency-free templates
are launched, the rest wait on their full dependency sets. -/
theorem initTemplates_go {α : Type} {g : Graph} {ω : TName → Outcome α}
    (hwf : graphWF g = true) (ts : List TaskTemplate) (st : RunState α)
    (hts : ∀ t ∈ ts, t ∈ g)
    (htsnd : (ts.map TaskTemplate.name).Nodup)
    (hdisj : ∀ t ∈ ts, t.name ∉ st.invTasks ∧ t.name ∉ keysA st.notReady ∧
      t.name ∉ st.discarded)
    (hbase : InvBase g ω st)
    (hpart : ∀ x ∈ gNames g, x ∈ keysA st.notReady ∨ x ∈ st.invTasks ∨
      x ∈ st.discarded ∨ x ∈ ts.map TaskTemplate.name)
    (hinter : st.intermediary = [])
    (hlp : launchedProcessed st) :
    SchedInv g ω (initTemplates st ts) ∧ launchedProcessed (initTemplates st ts) := by
  induction ts generalizing st with
  | nil =>
      refine ⟨⟨hbase, ?_, ?_⟩, hlp⟩
      · intro x hx
        rcases hpart x hx with h | h | h | h
        · exact .inl h
        · exact .inr (.inl h)
        · exact .inr (.inr h)
        · simp at h
      · intro p hp u hu
        show u ∉ keysA st.intermediary
        rw [hinter]
        simp [keysA]
  | cons t rest ih =>
      obtain ⟨hneq_inv, hneq_nr, hneq_disc⟩ := hdisj t (List.mem_cons_self _ _)
      have htg : t ∈ g := hts t (List.mem_cons_self _ _)
      have htgn : t.name ∈ gNames g := List.mem_map.mpr ⟨t, htg, rfl⟩
      have hdeps : depsOf g t.name = t.dependencies := depsOf_eq hwf t htg
      have hrestnd : (rest.map TaskTemplate.name).Nodup := (List.nodup_cons.mp htsnd).2
      have hrestne : t.name ∉ rest.map TaskTemplate.name := (List.nodup_cons.mp htsnd).1
      have hinterk : keysA st.intermediary = [] := by rw [hinter]; rfl
      by_cases hde : t.dependencies.isEmpty
      · have hde2 : t.dependencies = [] := by simpa using hde
        rw [show initTemplates st (t :: rest) =
          initTemplates (launchTask st t.name) rest from by
            show initTemplates (if t.dependencies.isEmpty then launchTask st t.name
              else _) rest = _
            rw [if_pos hde]]
        refine ih (launchTask st t.name) (fun x hx => hts x (List.mem_cons_of_mem _ hx))
          hrestnd ?_ ?_ ?_ ?_ ?_
        · intro x hx
          obtain ⟨h1, h2, h3⟩ := hdisj x (List.mem_cons_of_mem _ hx)
          refine ⟨?_, h2, h3⟩
          intro hmem
          rcases List.mem_cons.mp hmem with heq | hmem2
          · exact hrestne (heq ▸ List.mem_map.mpr ⟨x, hx, rfl⟩)
          · exact h1 hmem2
        · refine ⟨?_, ?_, ?_, hbase.nr_nodup, hbase.nr_names, ?_, hbase.nr_not_disc,
            ?_, hbase.disc_names, ?_, ?_, hbase.waiting_sub, hbase.waiting_nodup,
            hbase.waiting_ne, ?_, ?_, ?_, ?_, ?_, ?_, ?_, ?_, ?_⟩
          · intro x hx
            rcases List.mem_cons.mp hx with rfl | hx2
            · exact List.mem_cons_self _ _
            · exact List.mem_cons_of_mem _ (hbase.pending_inv x hx2)
          · exact List.nodup_cons.mpr ⟨hneq_inv, hbase.inv_nodup⟩
          · intro x hx
            rcases List.mem_cons.mp hx with rfl | hx2
            · exact htgn
            · exact hbase.inv_names x hx2
          · intro p hp hmem
            rcases List.mem_cons.mp hmem with heq | hmem2
            · exact hneq_nr (heq ▸ mem_keysA_of_mem hp)
            · exact hbase.nr_not_inv p hp hmem2
          · intro x hx hmem
            rcases List.mem_cons.mp hmem with rfl | hmem2
            · exact hneq_disc hx
            · exact hbase.disc_not_inv x hx hmem2
          · exact fun p hp => List.mem_cons_of_mem _ (hbase.inter_inv p hp)
          · intro x hx
            show x ∉ keysA st.intermediary
            rw [hinterk]
            simp
          · intro p hp u hu hnw
            exact hbase.waiting_rec p hp u hu hnw
          · intro x hx u hu
            rcases List.mem_cons.mp hx with rfl | hx2
            · rw [hdeps, hde2] at hu
              simp at hu
            · exact hbase.launched_deps x hx2 u hu
          · intro u hu v hv hdep
            rcases hbase.disc_closure u hu v hv hdep with h | h
            · exact .inl (List.mem_cons_of_mem _ h)
            · exact .inr h
          · exact hbase.delayed_eq
          · show List.filterMap evLaunchName (TaskEvent.launch t.name :: st.events) =
              t.name :: st.invTasks
            rw [List.filterMap_cons]
            simp only [evLaunchName]
            rw [hbase.ev_launch]
          · show List.filterMap evRecordName (TaskEvent.launch t.name :: st.events) =
              keysA st.intermediary
            rw [List.filterMap_cons]
            simp only [evRecordName]
            rw [hbase.ev_record]
          · intro pre v0 post hsplit u hu
            rcases cons_eq_append_cons hsplit with ⟨hpre, hev, hpost⟩ | ⟨pre1, hpre, hrest⟩
            · injection hev with hev
              subst hev
              rw [hdeps, hde2] at hu
              simp at hu
            · exact hbase.ev_ok1 pre1 v0 post hrest u hu
          · intro pre u post hsplit
            rcases cons_eq_append_cons hsplit with ⟨hpre, hev, hpost⟩ | ⟨pre1, hpre, hrest⟩
            · exact absurd hev (by simp)
            · exact hbase.ev_ok2 pre1 u post hrest
          · intro s1 hs1 hdc x hreach
            rcases hbase.c8closed s1 hs1 hdc x hreach with h | h
            · exact .inl (List.mem_cons_of_mem _ h)
            · exact .inr h
        · intro x hx
          rcases hpart x hx with h | h | h | h
          · exact .inl h
          · exact .inr (.inl (List.mem_cons_of_mem _ h))
          · exact .inr (.inr (.inl h))
          · rcases List.mem_map.mp h with ⟨tt, htt, rfl⟩
            rcases List.mem_cons.mp htt with rfl | htt2
            · exact .inr (.inl (List.mem_cons_self _ _))
            · exact .inr (.inr (.inr (List.mem_map.mpr ⟨tt, htt2, rfl⟩)))
        · exact hinter
        · intro x hx
          rcases List.mem_cons.mp hx with rfl | hx2
          · exact .inl (List.mem_cons_self _ _)
          · rcases hlp x hx2 with h | h
            · exact .inl (List.mem_cons_of_mem _ h)
            · exact .inr h
      · have hde2 : t.dependencies ≠ [] := by simpa using hde
        rw [show initTemplates st (t :: rest) =
          initTemplates { st with notReady := st.notReady ++ [(t.name, t.dependencies)] }
            rest from by
            show initTemplates (if t.dependencies.isEmpty then _
              else { st with notReady := st.notReady ++ [(t.name, t.dependencies)] })
              rest = _
            rw [if_neg hde]]
        have hmemE : ∀ p, p ∈ st.notReady ++ [(t.name, t.dependencies)] →
            p ∈ st.notReady ∨ p = (t.name, t.dependencies) := by
          intro p hp
          rcases List.mem_append.mp hp with h | h
          · exact .inl h
          · exact .inr (by simpa using h)
        refine ih _ (fun x hx => hts x (List.mem_cons_of_mem _ hx)) hrestnd ?_ ?_ ?_ ?_ ?_
        · intro x hx
          obtain ⟨h1, h2, h3⟩ := hdisj x (List.mem_cons_of_mem _ hx)
          refine ⟨h1, ?_, h3⟩
          show x.name ∉ keysA (st.notReady ++ [(t.name, t.dependencies)])
          rw [keysA_append]
          intro hmem
          rcases List.mem_append.mp hmem with h | h
          · exact h2 h
          · have : x.name = t.name := by simpa [keysA] using h
            exact hrestne (this ▸ List.mem_map.mpr ⟨x, hx, rfl⟩)
        · refine ⟨hbase.pending_inv, hbase.inv_nodup, hbase.inv_names, ?_, ?_, ?_, ?_,
            hbase.disc_not_inv, hbase.disc_names, hbase.inter_inv, hbase.pending_unrec,
            ?_, ?_, ?_, ?_, hbase.launched_deps, hbase.disc_closure, hbase.delayed_eq,
            hbase.ev_launch, hbase.ev_record, hbase.ev_ok1, hbase.ev_ok2, hbase.c8closed⟩
          · show (keysA (st.notReady ++ [(t.name, t.dependencies)])).Nodup
            rw [keysA_append]
            refine List.Nodup.append hbase.nr_nodup (by simp [keysA]) ?_
            intro x hx hmem
            have : x = t.name := by simpa [keysA] using hmem
            exact hneq_nr (this ▸ hx)
          · intro p hp
            rcases hmemE p hp with h | h
            · exact hbase.nr_names p h
            · rw [h]
              exact htgn
          · intro p hp
            rcases hmemE p hp with h | h
            · exact hbase.nr_not_inv p h
            · rw [h]
              exact hneq_inv
          · intro p hp
            rcases hmemE p hp with h | h
            · exact hbase.nr_not_disc p h
            · rw [h]
              exact hneq_disc
          · intro p hp u hu
            rcases hmemE p hp with h | h
            · exact hbase.waiting_sub p h u hu
            · rw [h] at hu ⊢
              show u ∈ depsOf g t.name
              rw [hdeps]
              exact hu
          · intro p hp
            rcases hmemE p hp with h | h
            · exact hbase.waiting_nodup p h
            · rw [h]
              exact (graphWF_deps hwf t htg).1
          · intro p hp
            rcases hmemE p hp with h | h
            · exact hbase.waiting_ne p h
            · rw [h]
              exact hde2
          · intro p hp u hu hnw
            rcases hmemE p hp with h | h
            · exact hbase.waiting_rec p h u hu hnw
            · exfalso
              have hu2 : u ∈ depsOf g t.name := by rw [h] at hu; exact hu
              have hnw2 : u ∉ t.dependencies := by rw [h] at hnw; exact hnw
              rw [hdeps] at hu2
              exact hnw2 hu2
        · intro x hx
          rcases hpart x hx with h | h | h | h
          · refine .inl ?_
            show x ∈ keysA (st.notReady ++ [(t.name, t.dependencies)])
            rw [keysA_append]
            exact List.mem_append.mpr (.inl h)
          · exact .inr (.inl h)
          · exact .inr (.inr (.inl h))
          · rcases List.mem_map.mp h with ⟨tt, htt, rfl⟩
            rcases List.mem_cons.mp htt with rfl | htt2
            · refine .inl ?_
              show tt.name ∈ keysA (st.notReady ++ [(tt.name, tt.dependencies)])
              rw [keysA_append]
              exact List.mem_append.mpr (.inr (by simp [keysA]))
            · exact .inr (.inr (.inr (List.mem_map.mpr ⟨tt, htt2, rfl⟩)))
        · exact hinter
        · exact hlp

/-- The invariant holds right after the initial partition. -/
theorem initState_inv {α : Type} {g : Graph} {ω : TName → Outcome α}
    (hwf : graphWF g = true) :
    SchedInv g ω (initState g) ∧ launchedProcessed (initState g : RunState α) := by
  refine initTemplates_go hwf g emptyRun (fun t ht => ht) (graphWF_names_nodup hwf)
    ?_ ?_ ?_ rfl ?_
  · intro t ht
    refine ⟨?_, ?_, ?_⟩ <;> simp [emptyRun, keysA]
  · refine ⟨fun t ht => absurd ht (by simp [emptyRun]), List.nodup_nil,
      fun t ht => absurd ht (by simp [emptyRun]), List.nodup_nil,
      fun p hp => absurd hp (by simp [emptyRun]),
      fun p hp => absurd hp (by simp [emptyRun]),
      fun p hp => absurd hp (by simp [emptyRun]),
      fun t ht => absurd ht (by simp [emptyRun]),
      fun t ht => absurd ht (by simp [emptyRun]),
      fun p hp => absurd hp (by simp [emptyRun]),
      fun t ht => absurd ht (by simp [emptyRun]),
      fun p hp => absurd hp (by simp [emptyRun]),
      fun p hp => absurd hp (by simp [emptyRun]),
      fun p hp => absurd hp (by simp [emptyRun]),
      fun p hp => absurd hp (by simp [emptyRun]),
      fun t ht => absurd ht (by simp [emptyRun]),
      fun u hu => absurd hu (by simp [emptyRun]),
      rfl, rfl, rfl,
      fun pre v post hsplit =>
        absurd (congrArg List.length hsplit) (by simp [emptyRun]; omega),
      fun pre u post hsplit =>
        absurd (congrArg List.length hsplit) (by simp [emptyRun]; omega),
      fun s1 hs1 => absurd hs1 (by simp [emptyRun, keysA])⟩
  · intro x hx
    exact .inr (.inr (.inr hx))
  · intro x hx
    simp [emptyRun] at hx

/-- One-step unfolding equation for the scheduler loop. -/
theorem runLoop_eq {α : Type} (g : Graph) (ω : TName → Outcome α)
    (sched : List SchedStep) (st : RunState α) :
    runLoop g ω sched st =
      if st.pending.isEmpty then
        if st.notReady.isEmpty then
          match st.delayed with
          | some e => (.raised e, st)
          | none => (.ok (mkResult ω st), st)
        else (.cycle (keysA st.notReady), st)
      else
        match sched with
        | [] => (.outOfSchedule, st)
        | .batch done :: rest => runLoop g ω rest (processBatch g ω st done)
        | .siblingCancel t :: rest => runLoop g ω rest (siblingCancelStep g st t) := by
  cases sched with
  | nil => rfl
  | cons s rest => cases s <;> rfl

/-- With no pending task the loop terminates immediately in its input state. -/
theorem runLoop_stopped {α : Type} {g : Graph} {ω : TName → Outcome α}
    {sched : List SchedStep} {st : RunState α} (h : st.pending.isEmpty) :
    (runLoop g ω sched st).2 = st := by
  rw [runLoop_eq, if_pos h]
  by_cases h2 : st.notReady.isEmpty
  · rw [if_pos h2]
    rcases st.delayed <;> rfl
  · rw [if_neg h2]

/-- The final state of a valid run satisfies the scheduler invariant and the
top-level accounting of launched tasks. -/
theorem runLoop_final_inv {α : Type} {g : Graph} {ω : TName → Outcome α}
    (hwf : graphWF g = true) (sched : List SchedStep) (st : RunState α)
    (hv : validSched g ω sched st = true)
    (hinv : SchedInv g ω st) (hlp : launchedProcessed st) :
    SchedInv g ω (runLoop g ω sched st).2 ∧
      launchedProcessed (runLoop g ω sched st).2 := by
  induction sched generalizing st with
  | nil =>
      by_cases h1 : st.pending.isEmpty
      · rw [runLoop_stopped h1]
        exact ⟨hinv, hlp⟩
      · have : (runLoop g ω [] st).2 = st := by
          rw [runLoop_eq, if_neg h1]
        rw [this]
        exact ⟨hinv, hlp⟩
  | cons step rest ih =>
      by_cases h1 : st.pending.isEmpty
      · rw [runLoop_stopped h1]
        exact ⟨hinv, hlp⟩
      · unfold validSched at hv
        rw [if_neg h1] at hv
        cases step with
        | batch done =>
            simp only [Bool.and_eq_true, decide_eq_true_eq, List.all_eq_true] at hv
            obtain ⟨⟨⟨hne, hnd⟩, hsub⟩, hvrest⟩ := hv
            have hsub2 : ∀ x ∈ done, x ∈ st.pending := by
              intro x hx
              simpa using hsub x hx
            obtain ⟨hinv2, hlp2⟩ := processBatch_inv hwf hinv hlp hnd hsub2
            have : runLoop g ω (SchedStep.batch done :: rest) st =
                runLoop g ω rest (processBatch g ω st done) := by
              rw [runLoop_eq, if_neg h1]
            rw [this]
            exact ih (processBatch g ω st done) hvrest hinv2 hlp2
        | siblingCancel t =>
            obtain ⟨hinv2, hlp2⟩ := siblingCancel_inv hwf t hinv hlp
            have : runLoop g ω (SchedStep.siblingCancel t :: rest) st =
                runLoop g ω rest (siblingCancelStep g st t) := by
              rw [runLoop_eq, if_neg h1]
            rw [this]
            exact ih (siblingCancelStep g st t) hv hinv2 hlp2

/-- Shape of a CycleError termination: pending was empty, not_ready was not,
and the error lists exactly the still-stuck templates. -/
theorem runLoop_cycle_shape {α : Type} {g : Graph} {ω : TName → Outcome α}
    {sched : List SchedStep} {st : RunState α} {stuck : List TName} {final : RunState α}
    (h : runLoop g ω sched st = (.cycle stuck, final)) :
    final.pending.isEmpty ∧ final.notReady ≠ [] ∧ stuck = keysA final.notReady := by
  induction sched generalizing st with
  | nil =>
      rw [runLoop_eq] at h
      by_cases h1 : st.pending.isEmpty
      · rw [if_pos h1] at h
        by_cases h2 : st.notReady.isEmpty
        · rw [if_pos h2] at h
          rcases hd : st.delayed with _ | e1 <;> rw [hd] at h <;> simp at h
        · rw [if_neg h2] at h
          injection h with h3 h4
          injection h3 with h5
          subst h4
          exact ⟨h1, by simpa using h2, h5.symm⟩
      · rw [if_neg h1] at h
        simp at h
  | cons step rest ih =>
      rw [runLoop_eq] at h
      by_cases h1 : st.pending.isEmpty
      · rw [if_pos h1] at h
        by_cases h2 : st.notReady.isEmpty
        · rw [if_pos h2] at h
          rcases hd : st.delayed with _ | e1 <;> rw [hd] at h <;> simp at h
        · rw [if_neg h2] at h
          injection h with h3 h4
          injection h3 with h5
          subst h4
          exact ⟨h1, by simpa using h2, h5.symm⟩
      · rw [if_neg h1] at h
        cases step with
        | batch done => exact ih h
        | siblingCancel t => exact ih h

/-- Shape of a successful termination: everything quiesced with no remembered
exception, and the returned object is built over the final state. -/
theorem runLoop_ok_shape {α : Type} {g : Graph} {ω : TName → Outcome α}
    {sched : List SchedStep} {st : RunState α} {res : DagatherResult α}
    {final : RunState α}
    (h : runLoop g ω sched st = (.ok res, final)) :
    final.pending.isEmpty ∧ final.notReady = [] ∧ final.delayed = none ∧
      res = mkResult ω final := by
  induction sched generalizing st with
  | nil =>
      rw [runLoop_eq] at h
      by_cases h1 : st.pending.isEmpty
      · rw [if_pos h1] at h
        by_cases h2 : st.notReady.isEmpty
        · rw [if_pos h2] at h
          rcases hd : st.delayed with _ | e
          · rw [hd] at h
            injection h with h3 h4
            injection h3 with h5
            subst h4
            exact ⟨h1, by simpa using h2, hd, h5.symm⟩
          · rw [hd] at h
            simp at h
        · rw [if_neg h2] at h
          simp at h
      · rw [if_neg h1] at h
        simp at h
  | cons step rest ih =>
      rw [runLoop_eq] at h
      by_cases h1 : st.pending.isEmpty
      · rw [if_pos h1] at h
        by_cases h2 : st.notReady.isEmpty
        · rw [if_pos h2] at h
          rcases hd : st.delayed with _ | e
          · rw [hd] at h
            injection h with h3 h4
            injection h3 with h5
            subst h4
            exact ⟨h1, by simpa using h2, hd, h5.symm⟩
          · rw [hd] at h
            simp at h
        · rw [if_neg h2] at h
          simp at h
      · rw [if_neg h1] at h
        cases step with
        | batch done => exact ih h
        | siblingCancel t => exact ih h

/-- Shape of a re-raising termination: everything quiesced and the remembered
first propagated exception is raised. -/
theorem runLoop_raised_shape {α : Type} {g : Graph} {ω : TName → Outcome α}
    {sched : List SchedStep} {st : RunState α} {e : α} {final : RunState α}
    (h : runLoop g ω sched st = (.raised e, final)) :
    final.pending.isEmpty ∧ final.notReady = [] ∧ final.delayed = some e := by
  induction sched generalizing st with
  | nil =>
      rw [runLoop_eq] at h
      by_cases h1 : st.pending.isEmpty
      · rw [if_pos h1] at h
        by_cases h2 : st.notReady.isEmpty
        · rw [if_pos h2] at h
          rcases hd : st.delayed with _ | e1
          · rw [hd] at h
            simp at h
          · rw [hd] at h
            injection h with h3 h4
            injection h3 with h5
            subst h4
            exact ⟨h1, by simpa using h2, h5 ▸ hd⟩
        · rw [if_neg h2] at h
          simp at h
      · rw [if_neg h1] at h
        simp at h
  | cons step rest ih =>
      rw [runLoop_eq] at h
      by_cases h1 : st.pending.isEmpty
      · rw [if_pos h1] at h
        by_cases h2 : st.notReady.isEmpty
        · rw [if_pos h2] at h
          rcases hd : st.delayed with _ | e1
          · rw [hd] at h
            simp at h
          · rw [hd] at h
            injection h with h3 h4
            injection h3 with h5
            subst h4
            exact ⟨h1, by simpa using h2, h5 ▸ hd⟩
        · rw [if_neg h2] at h
          simp at h
      · rw [if_neg h1] at h
        cases step with
        | batch done => exact ih h
        | siblingCancel t => exact ih h

/-- Event descent: if v was launched and w is reachable from v along the
dependency relation, then w was launched strictly earlier (events are stored
newest-first, so strictly later in the list), or w = v. -/
theorem reach_launch_before {g : Graph} {evs : List TaskEvent}
    (hok1 : ∀ pre v post, evs = pre ++ TaskEvent.launch v :: post →
      ∀ u ∈ depsOf g v, TaskEvent.record u ∈ post)
    (hok2 : ∀ pre u post, evs = pre ++ TaskEvent.record u :: post →
      TaskEvent.launch u ∈ post)
    {v w : TName} (hr : DepReachTo g w v) :
    ∀ pre post, evs = pre ++ TaskEvent.launch v :: post →
      w = v ∨ TaskEvent.launch w ∈ post := by
  induction hr with
  | refl => exact fun pre post h => .inl rfl
  | step hdep hr2 ih =>
      rename_i t u
      intro pre post h
      have hrec : TaskEvent.record u ∈ post := hok1 pre t post h u hdep
      obtain ⟨pre1, post1, h1⟩ := List.append_of_mem hrec
      have h2 : evs = (pre ++ TaskEvent.launch t :: pre1) ++ TaskEvent.record u :: post1 := by
        rw [h, h1]
        simp
      have hlu : TaskEvent.launch u ∈ post1 := hok2 _ u _ h2
      obtain ⟨pre2, post2, h3⟩ := List.append_of_mem hlu
      have h4 : evs = (pre ++ TaskEvent.launch t :: pre1 ++
          TaskEvent.record u :: pre2) ++ TaskEvent.launch u :: post2 := by
        rw [h, h1, h3]
        simp
      rcases ih _ _ h4 with heq | hmem
      · subst heq
        refine .inr ?_
        rw [h1, h3]
        simp
      · refine .inr ?_
        rw [h1, h3]
        simp [hmem]

/-- A template lying on a dependency cycle is never launched: its launch event
cannot appear in a well-formed event trace. -/
theorem cycle_never_launched_events {g : Graph} {evs : List TaskEvent}
    (hnd : (evs.filterMap evLaunchName).Nodup)
    (hok1 : ∀ pre v post, evs = pre ++ TaskEvent.launch v :: post →
      ∀ u ∈ depsOf g v, TaskEvent.record u ∈ post)
    (hok2 : ∀ pre u post, evs = pre ++ TaskEvent.record u :: post →
      TaskEvent.launch u ∈ post)
    {t : TName} (hc : OnCycle g t) :
    TaskEvent.launch t ∉ evs := by
  intro hmem
  obtain ⟨u, hdep, hr⟩ := hc
  obtain ⟨pre, post, h⟩ := List.append_of_mem hmem
  have hrec : TaskEvent.record u ∈ post := hok1 pre t post h u hdep
  obtain ⟨pre1, post1, h1⟩ := List.append_of_mem hrec
  have h2 : evs = (pre ++ TaskEvent.launch t :: pre1) ++ TaskEvent.record u :: post1 := by
    rw [h, h1]
    simp
  have hlu : TaskEvent.launch u ∈ post1 := hok2 _ u _ h2
  obtain ⟨pre2, post2, h3⟩ := List.append_of_mem hlu
  have h4 : evs = (pre ++ TaskEvent.launch t :: pre1 ++
      TaskEvent.record u :: pre2) ++ TaskEvent.launch u :: post2 := by
    rw [h, h1, h3]
    simp
  have hback := reach_launch_before hok1 hok2 hr _ _ h4
  have hpost : TaskEvent.launch t ∈ post := by
    rcases hback with heq | hmem2
    · subst heq
      rw [h1, h3]
      simp
    · rw [h1, h3]
      simp [hmem2]
  rw [h, List.filterMap_append] at hnd
  have hnd2 := hnd.of_append_right
  have hcons : List.filterMap evLaunchName (TaskEvent.launch t :: post) =
      t :: List.filterMap evLaunchName post := by
    simp [List.filterMap_cons, evLaunchName]
  rw [hcons] at hnd2
  exact (List.nodup_cons.mp hnd2).1 (List.mem_filterMap.mpr ⟨_, hpost, rfl⟩)

/-- At quiescence every dependency a stuck template still waits for is itself
stuck: it cannot be pending (pending is empty), recorded (waiting sets hold no
recorded name), launched-unprocessed (launched tasks are pending or recorded),
or discarded (discarding would have propagated to the waiting template). -/
theorem stuck_dep_stuck {α : Type} {g : Graph} {ω : TName → Outcome α}
    {st : RunState α} (hwf : graphWF g = true)
    (hinv : SchedInv g ω st) (hlp : launchedProcessed st)
    (hpe : st.pending = []) {p : TName × List TName} (hp : p ∈ st.notReady)
    {u : TName} (hu : u ∈ p.2) :
    u ∈ keysA st.notReady := by
  have hdep : u ∈ depsOf g p.1 := hinv.waiting_sub p hp u hu
  have hgn : u ∈ gNames g := mem_gNames_of_dep hwf hdep
  rcases hinv.partition u hgn with h | h | h
  · exact h
  · rcases hlp u h with h2 | h2
    · rw [hpe] at h2
      exact absurd h2 (List.not_mem_nil u)
    · exact absurd h2 (hinv.waiting_unrec p hp u hu)
  · have hv : p.1 ∈ gNames g := hinv.nr_names p hp
    rcases hinv.disc_closure u h p.1 hv hdep with h2 | h2
    · exact absurd h2 (hinv.nr_not_inv p hp)
    · exact absurd h2 (hinv.nr_not_disc p hp)

/-- Pigeonhole: in a finite set S where every member has a dependency inside
S, every member of S reaches a member lying on a dependency cycle. -/
theorem stuck_reaches_cycle {g : Graph} {S : List TName}
    (hstep : ∀ t ∈ S, ∃ u, u ∈ S ∧ u ∈ depsOf g t) :
    ∀ t ∈ S, ∃ s, OnCycle g s ∧ DepReach g t s := by
  classical
  have hfex : ∃ f : TName → TName, ∀ x ∈ S, f x ∈ S ∧ f x ∈ depsOf g x := by
    refine ⟨fun x => if h : ∃ u, u ∈ S ∧ u ∈ depsOf g x then h.choose else x, ?_⟩
    intro x hx
    have h : ∃ u, u ∈ S ∧ u ∈ depsOf g x := hstep x hx
    simp only [dif_pos h]
    exact h.choose_spec
  obtain ⟨f, hf⟩ := hfex
  have hiter : ∀ n, ∀ x ∈ S, f^[n] x ∈ S := by
    intro n
    induction n with
    | zero =>
        intro x hx
        simpa using hx
    | succ n ih =>
        intro x hx
        rw [Function.iterate_succ_apply]
        exact ih (f x) (hf x hx).1
  have hreach : ∀ n, ∀ x ∈ S, DepReachTo g (f^[n] x) x := by
    intro n
    induction n with
    | zero =>
        intro x _
        rw [Function.iterate_zero_apply]
        exact .refl
    | succ n ih =>
        intro x hx
        rw [Function.iterate_succ_apply]
        exact DepReachTo.step (hf x hx).2 (ih (f x) (hf x hx).1)
  intro t ht
  have hmaps : ∀ i ∈ Finset.range (S.length + 1), f^[i] t ∈ S.toFinset :=
    fun i _ => List.mem_toFinset.mpr (hiter i t ht)
  have hcard : S.toFinset.card < (Finset.range (S.length + 1)).card := by
    rw [Finset.card_range]
    exact Nat.lt_succ_of_le S.toFinset_card_le
  obtain ⟨i, hi, j, hj, hne, heq⟩ :=
    Finset.exists_ne_map_eq_of_card_lt_of_maps_to hcard hmaps
  have key : ∀ i j : ℕ, i < j → f^[i] t = f^[j] t →
      ∃ s, OnCycle g s ∧ DepReach g t s := by
    intro i j hij heq2
    have hsS : f^[i] t ∈ S := hiter i t ht
    have h5 : f^[j - i] (f^[i] t) = f^[i] t := by
      rw [← Function.iterate_add_apply]
      rw [show j - i + i = j from by omega]
      exact heq2.symm
    have h6 : f^[j - i - 1] (f (f^[i] t)) = f^[j - i] (f^[i] t) := by
      conv_rhs => rw [show j - i = (j - i - 1) + 1 from by omega]
      rw [Function.iterate_succ_apply]
    have hcyc : OnCycle g (f^[i] t) := by
      refine ⟨f (f^[i] t), (hf _ hsS).2, ?_⟩
      show DepReachTo g (f^[i] t) (f (f^[i] t))
      have hr2 : DepReachTo g (f^[j - i - 1] (f (f^[i] t))) (f (f^[i] t)) :=
        hreach _ _ (hf _ hsS).1
      rw [h6, h5] at hr2
      exact hr2
    exact ⟨f^[i] t, hcyc, hreach i t ht⟩
  rcases Nat.lt_trichotomy i j with hij | hij | hij
  · exact key i j hij heq
  · exact absurd hij hne
  · exact key j i hij heq.symm

/-- Lookup in the tabulated result mapping returns the tabulated outcome. -/
theorem lookupA_map_outcome {β : Type} (f : TName → β) (L : List TName) (t : TName)
    (h : t ∈ L) : lookupA (L.map (fun x => (x, f x))) t = some (f t) := by
  induction L with
  | nil => simp at h
  | cons a l ih =>
      simp only [List.map_cons, lookupA]
      by_cases ha : a = t
      · subst ha
        rw [if_pos rfl]
      · rw [if_neg ha]
        rcases List.mem_cons.mp h with h1 | h1
        · exact absurd h1.symm ha
        · exact ih h1

/-- When no exception was remembered, no completed template propagated one. -/
theorem firstPropagateExc_none {α : Type} {ω : TName → Outcome α} {L : List TName}
    (h : firstPropagateExc ω L = none) : ∀ t ∈ L, propagateExcOf (ω t) = none := by
  induction L with
  | nil => simp
  | cons a l ih =>
      intro t ht
      unfold firstPropagateExc at h
      rw [List.findSome?_cons] at h
      rcases hp : propagateExcOf (ω a) with _ | e
      · rw [hp] at h
        rcases List.mem_cons.mp ht with h1 | h1
        · exact h1 ▸ hp
        · exact ih h t h1
      · rw [hp] at h
        simp at h

/-- The scheduler view of a registration state resolves dependency sets through
the template dictionary. -/
theorem depsOf_toGraph_list (ts : List (TName × List TName)) (v : TName) :
    depsOf (ts.map (fun p => ⟨p.1, p.2⟩)) v = (lookupA ts v).getD [] := by
  induction ts with
  | nil => rfl
  | cons p rest ih =>
      obtain ⟨k, w⟩ := p
      simp only [List.map_cons]
      by_cases h : k = v
      · unfold depsOf
        rw [List.find?_cons_of_pos _ (by simpa using h)]
        show w = (lookupA ((k, w) :: rest) v).getD []
        unfold lookupA
        rw [if_pos h]
        rfl
      · unfold depsOf
        rw [List.find?_cons_of_neg _ (by simpa using h)]
        show depsOf (List.map (fun p => (⟨p.1, p.2⟩ : TaskTemplate)) rest) v =
          (lookupA ((k, w) :: rest) v).getD []
        unfold lookupA
        rw [if_neg h]
        exact ih

/-- depsOf over toGraph is dictionary lookup in the registration state. -/
theorem depsOf_toGraph (s : DagRegState) (v : TName) :
    depsOf (toGraph s) v = (lookupA s.templates v).getD [] :=
  depsOf_toGraph_list s.templates v

/-- The registered names of the scheduler view are the template keys. -/
theorem gNames_toGraph (s : DagRegState) : gNames (toGraph s) = keysA s.templates := by
  unfold gNames toGraph keysA
  rw [List.map_map]
  rfl

/-- With duplicate-free keys, dictionary lookup returns the stored value of any
member entry. -/
theorem lookupA_of_mem_nodup {β : Type} {l : List (TName × β)}
    (hnd : (keysA l).Nodup) {p : TName × β} (hp : p ∈ l) :
    lookupA l p.1 = some p.2 := by
  induction l with
  | nil => simp at hp
  | cons q rest ih =>
      simp only [keysA, List.map_cons, List.nodup_cons] at hnd
      rcases List.mem_cons.mp hp with rfl | hmem
      · show lookupA (p :: rest) p.1 = some p.2
        unfold lookupA
        rw [if_pos rfl]
      · unfold lookupA
        by_cases hq : q.1 = p.1
        · exact absurd (hq ▸ mem_keysA_of_mem hmem) hnd.1
        · rw [if_neg hq]
          exact ih hnd.2 hmem

/-- The graph built by a successful registration is well-formed. -/
theorem registerAll_graphWF {cbs : List Callback} {s : DagRegState}
    (hnd : (cbs.map Callback.name).Nodup) (hinv : RegInv cbs s) :
    graphWF (toGraph s) = true := by
  have hkeys : keysA s.templates = cbs.map Callback.name := hinv.keys_eq
  have hknd : (keysA s.templates).Nodup := hkeys ▸ hnd
  simp only [graphWF, Bool.and_eq_true, decide_eq_true_eq, List.all_eq_true]
  constructor
  · rw [gNames_toGraph, hkeys]
    exact hnd
  · intro t ht
    obtain ⟨p, hp, hpe⟩ := List.mem_map.mp ht
    have hk : p.1 ∈ keysA s.templates := mem_keysA_of_mem hp
    obtain ⟨cb, hcb, hcbn⟩ := List.mem_map.mp (hkeys ▸ hk)
    have hlook : lookupA s.templates p.1 = some p.2 := lookupA_of_mem_nodup hknd hp
    have hval : (lookupA s.templates cb.name).getD [] = p.2 := by
      rw [hcbn, hlook]
      rfl
    constructor
    · rw [← hpe]
      exact hval ▸ hinv.deps_nodup cb hcb
    · intro d hd
      rw [← hpe] at hd
      have hd1 : d ∈ p.2 := hd
      have hd2 : d ∈ (lookupA s.templates cb.name).getD [] := by
        rw [hval]
        exact hd1
      have hmem := (hinv.deps_spec cb hcb d).mp hd2
      rw [gNames_toGraph, hkeys]
      exact hmem.2

/-- C6: a system/cancellation-class exception raised by a callback that no
exception-class mapping matched explicitly is delivered as PropagateError
carrying that exception, whatever PostErrorResult the handler would have
resolved to. -/
theorem system_exception_upgraded {α : Type} (isExc : α → Bool)
    (h : ExceptionHandler α) (e : α)
    (he : isExc e = false) (hm : matchedExplicitly h e = false) :
    safe_call isExc h (.raises e) = .ok (.post (.PropagateError e .cancel_all)) := by
  have h1 : safe_call isExc h (.raises e) =
      .ok (.post (handle_exception isExc h e false)) := rfl
  rw [h1, handle_exception_upgrade isExc h e he hm]

/-- Witness for system_exception_upgraded: a non-Exception value routed through
a literal ContinueResult handler still propagates. -/
theorem system_exception_upgraded_witness :
    (fun _ : Nat => false) 3 = false ∧
    matchedExplicitly exHandler 3 = false ∧
    safe_call (fun _ => false) exHandler (.raises 3) =
      .ok (.post (.PropagateError 3 .cancel_all)) :=
  ⟨rfl, rfl, system_exception_upgraded (fun _ => false) exHandler 3 rfl rfl⟩

/-- C10: sibling-introspection on a discarded template: cancel raises
DiscardedTask while state_of returns the discarded state without raising. -/
theorem discarded_cancel_raises (s : SiblingTasks) (t : TName) (ht : t ∈ s.discarded) :
    s.cancel t = .error .mk ∧ s.state_of t = .discarded := by
  have htask : s.task t = .error .mk := by
    unfold SiblingTasks.task
    rw [if_pos ht]
  constructor
  · unfold SiblingTasks.cancel
    rw [htask]
  · unfold SiblingTasks.state_of
    rw [htask]

/-- Witness for discarded_cancel_raises on a concrete sibling handle. -/
theorem discarded_cancel_raises_witness :
    "t" ∈ exSib.discarded ∧
    exSib.cancel "t" = .error .mk ∧ exSib.state_of "t" = .discarded :=
  ⟨by decide, (discarded_cancel_raises exSib "t" (by decide)).1,
    (discarded_cancel_raises exSib "t" (by decide)).2⟩

/-- C7: registration order does not change the final dependency sets: for any
two registration orders of the same callbacks, each template ends with the
same dependency set. -/
theorem registration_order_irrelevant {cbs1 cbs2 : List Callback}
    (hperm : List.Perm cbs1 cbs2)
    (hnd : (cbs1.map Callback.name).Nodup)
    (hpn : ∀ cb ∈ cbs1, cb.params.Nodup)
    {s1 s2 : DagRegState}
    (h1 : registerAll cbs1 = .ok s1) (h2 : registerAll cbs2 = .ok s2)
    {cb : Callback} (hcb : cb ∈ cbs1) (x : TName) :
    x ∈ (lookupA s1.templates cb.name).getD [] ↔
      x ∈ (lookupA s2.templates cb.name).getD [] := by
  have hnd2 : (cbs2.map Callback.name).Nodup :=
    (hperm.map Callback.name).nodup_iff.mp hnd
  have hpn2 : ∀ c ∈ cbs2, c.params.Nodup := fun c hc => hpn c (hperm.mem_iff.mpr hc)
  obtain ⟨t1, hr1, hinv1⟩ := registerAll_spec cbs1 hnd hpn
  obtain ⟨t2, hr2, hinv2⟩ := registerAll_spec cbs2 hnd2 hpn2
  rw [h1] at hr1
  rw [h2] at hr2
  injection hr1 with hr1
  injection hr2 with hr2
  subst hr1
  subst hr2
  rw [hinv1.deps_spec cb hcb x, hinv2.deps_spec cb (hperm.mem_iff.mp hcb) x]
  constructor
  · rintro ⟨hx, hn⟩
    exact ⟨hx, (hperm.map Callback.name).mem_iff.mp hn⟩
  · rintro ⟨hx, hn⟩
    exact ⟨hx, (hperm.map Callback.name).mem_iff.mpr hn⟩

/-- Witness for registration_order_irrelevant: registering a before b (a names
b early) gives a the same dependency set as registering b first. -/
theorem registration_order_irrelevant_witness :
    List.Perm exCbs1 exCbs2 ∧
    (exCbs1.map Callback.name).Nodup ∧
    (∀ cb ∈ exCbs1, cb.params.Nodup) ∧
    registerAll exCbs1 = .ok ⟨[("a", ["b"]), ("b", [])], []⟩ ∧
    registerAll exCbs2 = .ok ⟨[("b", []), ("a", ["b"])], []⟩ ∧
    (⟨"a", ["b"]⟩ : Callback) ∈ exCbs1 ∧
    ("b" ∈ (lookupA [("a", ["b"]), ("b", [])] "a").getD [] ↔
      "b" ∈ (lookupA [("b", []), ("a", ["b"])] "a").getD []) :=
  ⟨by decide, by decide, by decide, by rfl, by rfl, by decide,
    @registration_order_irrelevant exCbs1 exCbs2 (by decide) (by decide) (by decide)
      ⟨[("a", ["b"]), ("b", [])], []⟩ ⟨[("b", []), ("a", ["b"])], []⟩
      (by rfl) (by rfl) ⟨"a", ["b"]⟩ (by decide) "b"⟩

/-- C1: in a completed invocation that returns a result object, lookup on a
launched template yields the callback returned value, the return_value of a
ContinueResult outcome, or the exception of a PropagateError outcome. -/
theorem lookup_yields_outcome_value {α : Type} {g : Graph} {ω : TName → Outcome α}
    {sched : List SchedStep} {res : DagatherResult α} {final : RunState α}
    (hwf : graphWF g = true)
    (hv : validSched g ω sched (initState g) = true)
    (hrun : runLoop g ω sched (initState g) = (.ok res, final))
    {t : TName} (ht : t ∈ final.invTasks) :
    (∀ v, ω t = .value v → res.getItem t = .ok (.value v)) ∧
    (∀ v cp, ω t = .post (.ContinueResult v cp) → res.getItem t = .ok (.value v)) ∧
    (∀ e cp, ω t = .post (.PropagateError e cp) → res.getItem t = .ok (.value e)) := by
  obtain ⟨hinv, hlp⟩ : SchedInv g ω final ∧ launchedProcessed final := by
    have h := runLoop_final_inv hwf sched (initState g) hv
      (@initState_inv α g ω hwf).1 (@initState_inv α g ω hwf).2
    rw [hrun] at h
    exact h
  obtain ⟨hpe, hnr, hd, hres⟩ := runLoop_ok_shape hrun
  have hlook : lookupA res.tasks t = some (ω t) := by
    rw [hres]
    exact lookupA_map_outcome ω final.invTasks t ht
  refine ⟨?_, ?_, ?_⟩
  · intro v hωv
    unfold DagatherResult.getItem
    rw [hlook, hωv]
  · intro v cp hωv
    unfold DagatherResult.getItem
    rw [hlook, hωv]
  · intro e cp hωv
    exfalso
    have hrec : t ∈ keysA final.intermediary := by
      rcases hlp t ht with h1 | h1
      · rw [List.isEmpty_iff.mp hpe] at h1
        exact absurd h1 (List.not_mem_nil t)
      · exact h1
    have hfn : firstPropagateExc ω (keysA final.intermediary).reverse = none := by
      rw [← hinv.delayed_eq]
      exact hd
    have hno := firstPropagateExc_none hfn t (List.mem_reverse.mpr hrec)
    rw [hωv] at hno
    simp [propagateExcOf] at hno

/-- Witness for lookup_yields_outcome_value on a one-task run. -/
theorem lookup_yields_outcome_value_witness :
    graphWF exg1 = true ∧
    validSched exg1 exval7 exschedA (initState exg1) = true ∧
    runLoop exg1 exval7 exschedA (initState exg1) =
      (.ok ⟨[("a", .value 7)], []⟩,
        ⟨[], [], [], [("a", 7)], ["a"], none, [.record "a", .launch "a"]⟩) ∧
    "a" ∈ (⟨[], [], [], [("a", 7)], ["a"], none,
      [.record "a", .launch "a"]⟩ : RunState Nat).invTasks ∧
    ((∀ v, exval7 "a" = .value v →
        DagatherResult.getItem ⟨[("a", .value 7)], []⟩ "a" = .ok (.value v)) ∧
     (∀ v cp, exval7 "a" = .post (.ContinueResult v cp) →
        DagatherResult.getItem ⟨[("a", .value 7)], []⟩ "a" = .ok (.value v)) ∧
     (∀ e cp, exval7 "a" = .post (.PropagateError e cp) →
        DagatherResult.getItem ⟨[("a", .value 7)], []⟩ "a" = .ok (.value e))) :=
  ⟨by decide, by decide, by rfl, by decide,
    @lookup_yields_outcome_value Nat exg1 exval7 exschedA ⟨[("a", .value 7)], []⟩
      ⟨[], [], [], [("a", 7)], ["a"], none, [.record "a", .launch "a"]⟩
      (by decide) (by decide) (by rfl) "a" (by decide)⟩

/-- C2 counterexample: one task propagates an exception, yet the invocation
fails with CycleError on an unrelated dependency cycle instead of re-raising
that exception. -/
theorem first_propagate_cycle_counterexample :
    graphWF exgCyc = true ∧
    validSched exgCyc exPropA exschedA (initState exgCyc) = true ∧
    propagateExcOf (exPropA "a") = some 7 ∧
    "a" ∈ keysA (runLoop exgCyc exPropA exschedA (initState exgCyc)).2.intermediary ∧
    (runLoop exgCyc exPropA exschedA (initState exgCyc)).1 = .cycle ["b", "c"] :=
  ⟨by decide, by decide, by decide, by decide, by decide⟩

/-- C2 (amended): when some completed task propagated an exception and the
invocation neither fails with CycleError nor runs out of schedule, it raises
exactly the earliest-completed propagated exception and the result object is
not returned. -/
theorem first_propagate_reraised {α : Type} {g : Graph} {ω : TName → Outcome α}
    {sched : List SchedStep} {o : RunOutcome α} {final : RunState α}
    (hwf : graphWF g = true)
    (hv : validSched g ω sched (initState g) = true)
    (hrun : runLoop g ω sched (initState g) = (o, final))
    {t : TName} (ht : t ∈ keysA final.intermediary)
    {e0 : α} (hprop : propagateExcOf (ω t) = some e0)
    (hnc : ∀ stuck, o ≠ .cycle stuck) (hos : o ≠ .outOfSchedule) :
    ∃ e, o = .raised e ∧
      firstPropagateExc ω (keysA final.intermediary).reverse = some e ∧
      ∀ r, o ≠ .ok r := by
  obtain ⟨hinv, hlp⟩ : SchedInv g ω final ∧ launchedProcessed final := by
    have h := runLoop_final_inv hwf sched (initState g) hv
      (@initState_inv α g ω hwf).1 (@initState_inv α g ω hwf).2
    rw [hrun] at h
    exact h
  cases o with
  | ok res =>
      exfalso
      obtain ⟨-, -, hd, -⟩ := runLoop_ok_shape hrun
      have hfn : firstPropagateExc ω (keysA final.intermediary).reverse = none := by
        rw [← hinv.delayed_eq]
        exact hd
      have hno := firstPropagateExc_none hfn t (List.mem_reverse.mpr ht)
      rw [hprop] at hno
      exact Option.noConfusion hno
  | raised e =>
      obtain ⟨-, -, hde⟩ := runLoop_raised_shape hrun
      refine ⟨e, rfl, ?_, fun r hr => RunOutcome.noConfusion hr⟩
      rw [← hinv.delayed_eq]
      exact hde
  | cycle stuck => exact absurd rfl (hnc stuck)
  | outOfSchedule => exact absurd rfl hos

/-- Witness for first_propagate_reraised on a one-task propagating run. -/
theorem first_propagate_reraised_witness :
    graphWF exg1 = true ∧
    validSched exg1 exPropAll exschedA (initState exg1) = true ∧
    runLoop exg1 exPropAll exschedA (initState exg1) =
      ((.raised 7 : RunOutcome Nat),
        ⟨[], [], [], [("a", 7)], ["a"], some 7, [.record "a", .launch "a"]⟩) ∧
    "a" ∈ keysA (⟨[], [], [], [("a", 7)], ["a"], some 7,
      [.record "a", .launch "a"]⟩ : RunState Nat).intermediary ∧
    propagateExcOf (exPropAll "a") = some 7 ∧
    (∀ stuck, (.raised 7 : RunOutcome Nat) ≠ .cycle stuck) ∧
    (.raised 7 : RunOutcome Nat) ≠ .outOfSchedule ∧
    (∃ e, (.raised 7 : RunOutcome Nat) = .raised e ∧
      firstPropagateExc exPropAll
        (keysA (⟨[], [], [], [("a", 7)], ["a"], some 7,
          [.record "a", .launch "a"]⟩ : RunState Nat).intermediary).reverse = some e ∧
      ∀ r, (.raised 7 : RunOutcome Nat) ≠ .ok r) :=
  ⟨by decide, by decide, by rfl, by decide, by decide,
    fun stuck h => RunOutcome.noConfusion h, by decide,
    @first_propagate_reraised Nat exg1 exPropAll exschedA (.raised 7)
      ⟨[], [], [], [("a", 7)], ["a"], some 7, [.record "a", .launch "a"]⟩
      (by decide) (by decide) (by rfl) "a" (by decide) 7 (by decide)
      (fun stuck h => RunOutcome.noConfusion h) (by decide)⟩

/-- C3: for every dependency edge u of v, in any invocation final state, every
launch event of v is preceded (events are newest-first: followed in the list)
by a record event of u. -/
theorem dependency_recorded_before_launch {α : Type} {g : Graph}
    {ω : TName → Outcome α} {sched : List SchedStep} {o : RunOutcome α}
    {final : RunState α}
    (hwf : graphWF g = true)
    (hv : validSched g ω sched (initState g) = true)
    (hrun : runLoop g ω sched (initState g) = (o, final))
    {pre : List TaskEvent} {v : TName} {post : List TaskEvent}
    (hsplit : final.events = pre ++ TaskEvent.launch v :: post)
    {u : TName} (hu : u ∈ depsOf g v) :
    TaskEvent.record u ∈ post := by
  obtain ⟨hinv, -⟩ : SchedInv g ω final ∧ launchedProcessed final := by
    have h := runLoop_final_inv hwf sched (initState g) hv
      (@initState_inv α g ω hwf).1 (@initState_inv α g ω hwf).2
    rw [hrun] at h
    exact h
  exact hinv.ev_ok1 pre v post hsplit u hu

/-- Witness for dependency_recorded_before_launch on a two-task chain. -/
theorem dependency_recorded_before_launch_witness :
    graphWF exgChain = true ∧
    validSched exgChain exval0 exschedAB (initState exgChain) = true ∧
    runLoop exgChain exval0 exschedAB (initState exgChain) =
      (.ok ⟨[("b", .value 0), ("a", .value 0)], []⟩,
        ⟨[], [], [], [("b", 0), ("a", 0)], ["b", "a"], none,
          [.record "b", .launch "b", .record "a", .launch "a"]⟩) ∧
    (⟨[], [], [], [("b", 0), ("a", 0)], ["b", "a"], none,
      [.record "b", .launch "b", .record "a", .launch "a"]⟩ : RunState Nat).events =
      [TaskEvent.record "b"] ++ TaskEvent.launch "b" ::
        [TaskEvent.record "a", TaskEvent.launch "a"] ∧
    "a" ∈ depsOf exgChain "b" ∧
    TaskEvent.record "a" ∈ [TaskEvent.record "a", TaskEvent.launch "a"] :=
  ⟨by decide, by decide, by rfl, by decide, by decide,
    @dependency_recorded_before_launch Nat exgChain exval0 exschedAB
      (.ok ⟨[("b", .value 0), ("a", .value 0)], []⟩)
      ⟨[], [], [], [("b", 0), ("a", 0)], ["b", "a"], none,
        [.record "b", .launch "b", .record "a", .launch "a"]⟩
      (by decide) (by decide) (by rfl)
      [TaskEvent.record "b"] "b" [TaskEvent.record "a", TaskEvent.launch "a"]
      (by decide) "a" (by decide)⟩

/-- C4: in any invocation final state, every template has at most one launch
event, and a discarded template has none. -/
theorem launched_at_most_once {α : Type} {g : Graph} {ω : TName → Outcome α}
    {sched : List SchedStep} {o : RunOutcome α} {final : RunState α}
    (hwf : graphWF g = true)
    (hv : validSched g ω sched (initState g) = true)
    (hrun : runLoop g ω sched (initState g) = (o, final)) :
    (final.events.filterMap evLaunchName).Nodup ∧
    ∀ t ∈ final.discarded, TaskEvent.launch t ∉ final.events := by
  obtain ⟨hinv, -⟩ : SchedInv g ω final ∧ launchedProcessed final := by
    have h := runLoop_final_inv hwf sched (initState g) hv
      (@initState_inv α g ω hwf).1 (@initState_inv α g ω hwf).2
    rw [hrun] at h
    exact h
  constructor
  · rw [hinv.ev_launch]
    exact hinv.inv_nodup
  · intro t ht hmem
    exact hinv.disc_not_inv t ht ((launch_mem_iff hinv.ev_launch t).mp hmem)

/-- Witness for launched_at_most_once on a run that discards a template. -/
theorem launched_at_most_once_witness :
    graphWF exgChain = true ∧
    validSched exgChain exPropCancel exschedA (initState exgChain) = true ∧
    runLoop exgChain exPropCancel exschedA (initState exgChain) =
      ((.raised 5 : RunOutcome Nat),
        ⟨[], [], ["b"], [("a", 5)], ["a"], some 5, [.record "a", .launch "a"]⟩) ∧
    (((⟨[], [], ["b"], [("a", 5)], ["a"], some 5,
        [.record "a", .launch "a"]⟩ : RunState Nat).events.filterMap evLaunchName).Nodup ∧
      ∀ t ∈ (⟨[], [], ["b"], [("a", 5)], ["a"], some 5,
        [.record "a", .launch "a"]⟩ : RunState Nat).discarded,
        TaskEvent.launch t ∉ (⟨[], [], ["b"], [("a", 5)], ["a"], some 5,
          [.record "a", .launch "a"]⟩ : RunState Nat).events) :=
  ⟨by decide, by decide, by rfl,
    @launched_at_most_once Nat exgChain exPropCancel exschedA (.raised 5)
      ⟨[], [], ["b"], [("a", 5)], ["a"], some 5, [.record "a", .launch "a"]⟩
      (by decide) (by decide) (by rfl)⟩

/-- C5: an invocation that reaches quiescence with waiting templates left
fails with CycleError listing exactly the still-stuck templates, each stuck
template reaches a dependency cycle, and no template lying on a dependency
cycle is ever launched. -/
theorem cycle_error_reports_stuck {α : Type} {g : Graph} {ω : TName → Outcome α}
    {sched : List SchedStep} {stuck : List TName} {final : RunState α}
    (hwf : graphWF g = true)
    (hv : validSched g ω sched (initState g) = true)
    (hrun : runLoop g ω sched (initState g) = (.cycle stuck, final)) :
    stuck = keysA final.notReady ∧
    (∀ t ∈ stuck, ∃ s, OnCycle g s ∧ DepReach g t s) ∧
    ∀ t, OnCycle g t → t ∉ final.invTasks := by
  obtain ⟨hinv, hlp⟩ : SchedInv g ω final ∧ launchedProcessed final := by
    have h := runLoop_final_inv hwf sched (initState g) hv
      (@initState_inv α g ω hwf).1 (@initState_inv α g ω hwf).2
    rw [hrun] at h
    exact h
  obtain ⟨hpe, hne, hstuck⟩ := runLoop_cycle_shape hrun
  have hpe2 : final.pending = [] := List.isEmpty_iff.mp hpe
  have hstep : ∀ t ∈ keysA final.notReady,
      ∃ u, u ∈ keysA final.notReady ∧ u ∈ depsOf g t := by
    intro t ht
    obtain ⟨p, hp, hpt⟩ := exists_of_mem_keysA ht
    obtain ⟨u, hu⟩ := List.exists_mem_of_ne_nil p.2 (hinv.waiting_ne p hp)
    exact ⟨u, stuck_dep_stuck hwf hinv hlp hpe2 hp hu,
      hpt ▸ hinv.waiting_sub p hp u hu⟩
  refine ⟨hstuck, ?_, ?_⟩
  · rw [hstuck]
    exact fun t ht => stuck_reaches_cycle hstep t ht
  · intro t hc hmem
    have hnd : (final.events.filterMap evLaunchName).Nodup := by
      rw [hinv.ev_launch]
      exact hinv.inv_nodup
    exact cycle_never_launched_events hnd hinv.ev_ok1 hinv.ev_ok2 hc
      ((launch_mem_iff hinv.ev_launch t).mpr hmem)

/-- Witness for cycle_error_reports_stuck on a graph with a two-cycle. -/
theorem cycle_error_reports_stuck_witness :
    graphWF exgCyc = true ∧
    validSched exgCyc exvalC5 exschedA (initState exgCyc) = true ∧
    runLoop exgCyc exvalC5 exschedA (initState exgCyc) =
      ((.cycle ["b", "c"] : RunOutcome Nat),
        ⟨[], [("b", ["c"]), ("c", ["b"])], [], [("a", 0)], ["a"], none,
          [.record "a", .launch "a"]⟩) ∧
    (["b", "c"] =
        keysA (⟨[], [("b", ["c"]), ("c", ["b"])], [], [("a", 0)], ["a"], none,
          [.record "a", .launch "a"]⟩ : RunState Nat).notReady ∧
      (∀ t ∈ ["b", "c"], ∃ s, OnCycle exgCyc s ∧ DepReach exgCyc t s) ∧
      ∀ t, OnCycle exgCyc t →
        t ∉ (⟨[], [("b", ["c"]), ("c", ["b"])], [], [("a", 0)], ["a"], none,
          [.record "a", .launch "a"]⟩ : RunState Nat).invTasks) :=
  ⟨by decide, by decide, by rfl,
    @cycle_error_reports_stuck Nat exgCyc exvalC5 exschedA ["b", "c"]
      ⟨[], [("b", ["c"]), ("c", ["b"])], [], [("a", 0)], ["a"], none,
        [.record "a", .launch "a"]⟩
      (by decide) (by decide) (by rfl)⟩

/-- C8: after a completed task with the discard_children policy, every
never-launched template from which it is reachable along the dependency
relation is discarded; and the transitive removal itself always terminates
(its fuel bound never runs out). -/
theorem discard_children_transitive {α : Type} {g : Graph} {ω : TName → Outcome α}
    {sched : List SchedStep} {o : RunOutcome α} {final : RunState α}
    (hwf : graphWF g = true)
    (hv : validSched g ω sched (initState g) = true)
    (hrun : runLoop g ω sched (initState g) = (o, final))
    {s : TName} (hs : s ∈ keysA final.intermediary)
    (hdc : isDiscardChildrenPost (ω s) = true) :
    (∀ t, DepReach g t s → t ∉ final.invTasks → t ∈ final.discarded) ∧
    ∀ (β : Type) (d : List (TName × β)) (sink : List TName) (seed : TName),
      (remove_keys_transitively (dependants g) (d.length + 1) d sink seed).isSome := by
  obtain ⟨hinv, -⟩ : SchedInv g ω final ∧ launchedProcessed final := by
    have h := runLoop_final_inv hwf sched (initState g) hv
      (@initState_inv α g ω hwf).1 (@initState_inv α g ω hwf).2
    rw [hrun] at h
    exact h
  constructor
  · intro t hreach hnl
    rcases hinv.c8closed s hs hdc t hreach with h | h
    · exact absurd h hnl
    · exact h
  · intro β d sink seed
    exact rkt_isSome (dependants g) (d.length + 1) d sink seed (.inl (by omega))

/-- Witness for discard_children_transitive on a three-task chain whose root
completes with a discard_children result. -/
theorem discard_children_transitive_witness :
    graphWF exgChain3 = true ∧
    validSched exgChain3 exDiscA exschedA (initState exgChain3) = true ∧
    runLoop exgChain3 exDiscA exschedA (initState exgChain3) =
      (.ok ⟨[("a", .post (.ContinueResult 0 .discard_children))], ["c", "b"]⟩,
        ⟨[], [], ["c", "b"], [("a", 0)], ["a"], none, [.record "a", .launch "a"]⟩) ∧
    "a" ∈ keysA (⟨[], [], ["c", "b"], [("a", 0)], ["a"], none,
      [.record "a", .launch "a"]⟩ : RunState Nat).intermediary ∧
    isDiscardChildrenPost (exDiscA "a") = true ∧
    ((∀ t, DepReach exgChain3 t "a" →
        t ∉ (⟨[], [], ["c", "b"], [("a", 0)], ["a"], none,
          [.record "a", .launch "a"]⟩ : RunState Nat).invTasks →
        t ∈ (⟨[], [], ["c", "b"], [("a", 0)], ["a"], none,
          [.record "a", .launch "a"]⟩ : RunState Nat).discarded) ∧
      ∀ (β : Type) (d : List (TName × β)) (sink : List TName) (seed : TName),
        (remove_keys_transitively (dependants exgChain3) (d.length + 1)
          d sink seed).isSome) :=
  ⟨by decide, by decide, by
    simp [runLoop, processBatch, processAll, processOne, applyPolicy, exDiscA,
      removeKeysTransitively, remove_keys_transitively, rkt_children, dependants,
      exgChain3, keysA, recordOutcome, advanceAll, advanceOne, lookupA, initState,
      initTemplates, launchTask, emptyRun, exschedA, mkResult, List.filter],
    by decide, by decide,
    @discard_children_transitive Nat exgChain3 exDiscA exschedA
      (.ok ⟨[("a", .post (.ContinueResult 0 .discard_children))], ["c", "b"]⟩)
      ⟨[], [], ["c", "b"], [("a", 0)], ["a"], none, [.record "a", .launch "a"]⟩
      (by decide) (by decide) (by
    simp [runLoop, processBatch, processAll, processOne, applyPolicy, exDiscA,
      removeKeysTransitively, remove_keys_transitively, rkt_children, dependants,
      exgChain3, keysA, recordOutcome, advanceAll, advanceOne, lookupA, initState,
      initTemplates, launchTask, emptyRun, exschedA, mkResult, List.filter]) "a" (by decide) (by decide)⟩

/-- C9 counterexample: a self-naming callback is registered with itself as a
dependency, yet an invocation in which another task completes with a
cancel_all result returns a result object instead of raising CycleError. -/
theorem self_dependency_cycle_counterexample :
    registerAll exCbsSelf = .ok ⟨[("f", ["f"]), ("g", [])], []⟩ ∧
    "f" ∈ depsOf (toGraph ⟨[("f", ["f"]), ("g", [])], []⟩) "f" ∧
    graphWF (toGraph ⟨[("f", ["f"]), ("g", [])], []⟩) = true ∧
    validSched (toGraph ⟨[("f", ["f"]), ("g", [])], []⟩) exContCancel exschedG
      (initState (toGraph ⟨[("f", ["f"]), ("g", [])], []⟩)) = true ∧
    (runLoop (toGraph ⟨[("f", ["f"]), ("g", [])], []⟩) exContCancel exschedG
      (initState (toGraph ⟨[("f", ["f"]), ("g", [])], []⟩))).1 =
      .ok ⟨[("g", .post (.ContinueResult 0 .cancel_all))], ["f"]⟩ :=
  ⟨by rfl, by decide, by decide, by decide, by rfl⟩

/-- C9 (amended): registering a callback whose own name appears among its
parameters records the template as a dependency of itself, and every
invocation whose schedule does not run out and in which that template is not
discarded by a cancel policy fails with CycleError listing it. -/
theorem self_dependency_causes_cycle {cbs : List Callback} {s : DagRegState}
    (hnd : (cbs.map Callback.name).Nodup) (hpn : ∀ cb ∈ cbs, cb.params.Nodup)
    (hreg : registerAll cbs = .ok s)
    {cb : Callback} (hcb : cb ∈ cbs) (hself : cb.name ∈ cb.params)
    {α : Type} {ω : TName → Outcome α} {sched : List SchedStep}
    {o : RunOutcome α} {final : RunState α}
    (hv : validSched (toGraph s) ω sched (initState (toGraph s)) = true)
    (hrun : runLoop (toGraph s) ω sched (initState (toGraph s)) = (o, final))
    (hndisc : cb.name ∉ final.discarded) (hos : o ≠ .outOfSchedule) :
    cb.name ∈ depsOf (toGraph s) cb.name ∧
    ∃ stuck, o = .cycle stuck ∧ cb.name ∈ stuck := by
  obtain ⟨s1, hr1, hinv1⟩ := registerAll_spec cbs hnd hpn
  rw [hreg] at hr1
  injection hr1 with hr1
  subst hr1
  have hwf : graphWF (toGraph s) = true := registerAll_graphWF hnd hinv1
  have hselfdep : cb.name ∈ depsOf (toGraph s) cb.name := by
    rw [depsOf_toGraph]
    exact (hinv1.deps_spec cb hcb cb.name).mpr
      ⟨hself, List.mem_map.mpr ⟨cb, hcb, rfl⟩⟩
  refine ⟨hselfdep, ?_⟩
  obtain ⟨hinv, hlp⟩ : SchedInv (toGraph s) ω final ∧ launchedProcessed final := by
    have h := runLoop_final_inv hwf sched (initState (toGraph s)) hv
      (@initState_inv α (toGraph s) ω hwf).1 (@initState_inv α (toGraph s) ω hwf).2
    rw [hrun] at h
    exact h
  have hcyc : OnCycle (toGraph s) cb.name := ⟨cb.name, hselfdep, DepReachTo.refl⟩
  have hnl : cb.name ∉ final.invTasks := by
    intro hmem
    have hnd3 : (final.events.filterMap evLaunchName).Nodup := by
      rw [hinv.ev_launch]
      exact hinv.inv_nodup
    exact cycle_never_launched_events hnd3 hinv.ev_ok1 hinv.ev_ok2 hcyc
      ((launch_mem_iff hinv.ev_launch cb.name).mpr hmem)
  have hgn : cb.name ∈ gNames (toGraph s) := mem_gNames_of_depsOf hselfdep
  have hnr : cb.name ∈ keysA final.notReady := by
    rcases hinv.partition cb.name hgn with h | h | h
    · exact h
    · exact absurd h hnl
    · exact absurd h hndisc
  cases o with
  | ok res =>
      obtain ⟨-, hnre, -, -⟩ := runLoop_ok_shape hrun
      rw [hnre] at hnr
      simp [keysA] at hnr
  | raised e =>
      obtain ⟨-, hnre, -⟩ := runLoop_raised_shape hrun
      rw [hnre] at hnr
      simp [keysA] at hnr
  | cycle stuck =>
      obtain ⟨-, -, hstuck⟩ := runLoop_cycle_shape hrun
      exact ⟨stuck, rfl, hstuck.symm ▸ hnr⟩
  | outOfSchedule => exact absurd rfl hos

/-- Witness for self_dependency_causes_cycle on a single self-naming callback. -/
theorem self_dependency_causes_cycle_witness :
    (exCbsSelf1.map Callback.name).Nodup ∧
    (∀ cb ∈ exCbsSelf1, cb.params.Nodup) ∧
    registerAll exCbsSelf1 = .ok ⟨[("f", ["f"])], []⟩ ∧
    (⟨"f", ["f"]⟩ : Callback) ∈ exCbsSelf1 ∧
    "f" ∈ (⟨"f", ["f"]⟩ : Callback).params ∧
    validSched (toGraph ⟨[("f", ["f"])], []⟩) exval0 []
      (initState (toGraph ⟨[("f", ["f"])], []⟩)) = true ∧
    runLoop (toGraph ⟨[("f", ["f"])], []⟩) exval0 []
      (initState (toGraph ⟨[("f", ["f"])], []⟩)) =
      ((.cycle ["f"] : RunOutcome Nat),
        ⟨[], [("f", ["f"])], [], [], [], none, []⟩) ∧
    "f" ∉ (⟨[], [("f", ["f"])], [], [], [], none, []⟩ : RunState Nat).discarded ∧
    (.cycle ["f"] : RunOutcome Nat) ≠ .outOfSchedule ∧
    ("f" ∈ depsOf (toGraph ⟨[("f", ["f"])], []⟩) "f" ∧
      ∃ stuck, (.cycle ["f"] : RunOutcome Nat) = .cycle stuck ∧ "f" ∈ stuck) :=
  ⟨by decide, by decide, by rfl, by decide, by decide, by decide, by rfl,
    by decide, by decide,
    @self_dependency_causes_cycle exCbsSelf1 ⟨[("f", ["f"])], []⟩
      (by decide) (by decide) (by rfl) ⟨"f", ["f"]⟩ (by decide) (by decide)
      Nat exval0 [] (.cycle ["f"]) ⟨[], [("f", ["f"])], [], [], [], none, []⟩
      (by decide) (by rfl) (by decide) (by decide)⟩
